import Mathlib

set_option maxRecDepth 8000

/-!
Shallow embedding of the ip-address-aggregate core: the per-token
normalizer (`normalizer.js`, namespace `Normalizer`) and the
aggregation/format engine (`app.js`, namespace `App`), together with
specification-side definitions and theorems settling the spec's claims.

JavaScript strings are modelled as `List Char` (`Str`).  The JavaScript
built-ins the source uses — `trim`, `split`, `parseInt`, number
formatting, and the 32-bit bitwise operators — are modelled by the
helpers below.  Machine arithmetic is `Nat`/`Int` with explicit
`% 2^32` where ToUint32/ToInt32 wrapping matters.
-/

abbrev Str := List Char

/-- ASCII whitespace recognized by the model of JS `trim` / `\s` /
`parseInt` (space, tab, LF, VT, FF, CR). -/
def jsIsWs (c : Char) : Bool :=
  c == ' ' || c == '\t' || c == '\n' || c == Char.ofNat 11 || c == Char.ofNat 12 || c == '\r'

/-- Model of `String.prototype.trim`. -/
def jsTrim (s : Str) : Str :=
  ((s.dropWhile (jsIsWs ·)).reverse.dropWhile (jsIsWs ·)).reverse

/-- Model of `String.prototype.split` with a one-character separator:
`"a,b" → ["a","b"]`, `"" → [""]`, `"a," → ["a",""]`. -/
def jsSplitChar (sep : Char) : Str → List Str
  | [] => [[]]
  | c :: cs =>
    if c = sep then [] :: jsSplitChar sep cs
    else
      match jsSplitChar sep cs with
      | [] => [[c]]
      | t :: ts => (c :: t) :: ts

/-- `List.intercalate [sep]`, i.e. JS `Array.prototype.join(sep)` for a
one-character separator. -/
def joinSep (sep : Char) : List Str → Str
  | [] => []
  | [x] => x
  | x :: xs => x ++ sep :: joinSep sep xs

def isDigitCh (c : Char) : Bool := '0' ≤ c && c ≤ '9'

def isDigitDot (c : Char) : Bool := isDigitCh c || c == '.'

def isHexCh (c : Char) : Bool :=
  isDigitCh c || ('a' ≤ c && c ≤ 'f') || ('A' ≤ c && c ≤ 'F')

def isHexColon (c : Char) : Bool := isHexCh c || c == ':'

def digitVal (c : Char) : Nat := c.toNat - '0'.toNat

def hexVal (c : Char) : Nat :=
  if isDigitCh c then c.toNat - '0'.toNat
  else if 'a' ≤ c && c ≤ 'f' then c.toNat - 'a'.toNat + 10
  else c.toNat - 'A'.toNat + 10

/-- Value of a string of decimal digits. -/
def decDigitsVal (s : Str) : Nat := s.foldl (fun a c => a * 10 + digitVal c) 0

/-- Value of a string of hex digits. -/
def hexDigitsVal (s : Str) : Nat := s.foldl (fun a c => a * 16 + hexVal c) 0

def decDigitCh (d : Nat) : Char := Char.ofNat (48 + d)

/-- Lowercase hex digit, as produced by JS `Number.prototype.toString(16)`. -/
def hexDigitCh (d : Nat) : Char := if d < 10 then Char.ofNat (48 + d) else Char.ofNat (87 + d)

def natToDecAux (fuel n : Nat) : Str :=
  match fuel with
  | 0 => []
  | f + 1 => if n < 10 then [decDigitCh n] else natToDecAux f (n / 10) ++ [decDigitCh (n % 10)]

/-- Model of JS `n.toString()` for a nonnegative integer `n`. -/
def natToDec (n : Nat) : Str := natToDecAux (n + 1) n

def natToHexAux (fuel n : Nat) : Str :=
  match fuel with
  | 0 => []
  | f + 1 => if n < 16 then [hexDigitCh n] else natToHexAux f (n / 16) ++ [hexDigitCh (n % 16)]

/-- Model of JS `n.toString(16)` for a nonnegative integer `n`. -/
def natToHex (n : Nat) : Str := natToHexAux (n + 1) n

/-- Model of JS `i.toString()` for an integer. -/
def intToDec (i : Int) : Str := if i < 0 then '-' :: natToDec (-i).toNat else natToDec i.toNat

def jsSign : Str → (Int × Str)
  | '+' :: r => (1, r)
  | '-' :: r => (-1, r)
  | s => (1, s)

/-- Model of `parseInt(s, 10)`: leading whitespace, optional sign, then the
longest prefix of decimal digits; `none` models `NaN`. -/
def jsParseIntDec (s : Str) : Option Int :=
  let s1 := s.dropWhile (jsIsWs ·)
  let p := jsSign s1
  let ds := p.2.takeWhile (isDigitCh ·)
  if ds.isEmpty then none else some (p.1 * (decDigitsVal ds : Int))

def jsStripHexMark : Str → Str
  | '0' :: 'x' :: r => r
  | '0' :: 'X' :: r => r
  | s => s

/-- Model of `parseInt(s, 16)`: leading whitespace, optional sign, optional
`0x`/`0X`, then the longest prefix of hex digits; `none` models `NaN`. -/
def jsParseIntHex (s : Str) : Option Int :=
  let s1 := s.dropWhile (jsIsWs ·)
  let p := jsSign s1
  let s3 := jsStripHexMark p.2
  let ds := s3.takeWhile (isHexCh ·)
  if ds.isEmpty then none else some (p.1 * (hexDigitsVal ds : Int))

/-- JS ToUint32. -/
def toUint32 (i : Int) : Nat := (i % (2 ^ 32 : Int)).toNat

/-- JS ToInt32. -/
def toInt32 (i : Int) : Int :=
  if i % (2 ^ 32 : Int) < 2 ^ 31 then i % 2 ^ 32 else i % 2 ^ 32 - 2 ^ 32

/-- JS `(v >> 8) & 0xff`: arithmetic shift of ToInt32(v) is floor division
by 256, and masking the (two's-complement) result with `0xff` keeps its low
byte, i.e. is `% 256` on its unsigned pattern. -/
def jsHiByte (v : Int) : Nat := toUint32 (Int.fdiv (toInt32 v) 256) % 256

/-- JS `v & 0xff`. -/
def jsLoByte (v : Int) : Nat := toUint32 v % 256

/-- Partial model of JS `Number(s)` restricted to what `ipv4ToNumber` can
receive: `""` is 0, a digit string is its value, anything else is `NaN`
(modelled as `none`; the callers only pass validated octet strings). -/
def jsNumberNat (s : Str) : Option Nat :=
  if s = [] then some 0 else if s.all (isDigitCh ·) then some (decDigitsVal s) else none

/-- ASCII model of `String.prototype.toLowerCase`. -/
def jsToLower (c : Char) : Char :=
  if 'A' ≤ c && c ≤ 'Z' then Char.ofNat (c.toNat + 32) else c

def jsToLowerStr (s : Str) : Str := s.map jsToLower

/-- JS `Array.prototype.join(sep)` for a multi-character separator. -/
def joinSepS (sep : Str) : List Str → Str
  | [] => []
  | [x] => x
  | x :: xs => x ++ sep ++ joinSepS sep xs

namespace Normalizer

def NormalizationStatus.VALID : Str := "valid".data

def NormalizationStatus.CORRECTED : Str := "corrected".data

def NormalizationStatus.INVALID : Str := "invalid".data

structure NormalizationResult where
  original : Str
  normalized : Option Str
  status : Str
  warning : Option Str
  error : Option Str
  expandedTo : List Str
deriving DecidableEq

/-- JS `options.x || null`: the empty string is falsy and becomes `null`. -/
def orNull : Option Str → Option Str
  | some [] => none
  | some s => some s
  | none => none

/-- `createResult(original, status, options)`; the option fields are passed
positionally as `normalized`, `warning`, `error`, `expandedTo`. -/
def createResult (original status : Str) (normalized warning error : Option Str)
    (expandedTo : List Str) : NormalizationResult :=
  ⟨original, orNull normalized, status, orNull warning, orNull error, expandedTo⟩

/-- Regex `^(\d{1,3})\.(\d{1,3})\.(\d{1,3})\.(\d{1,3})$`: exactly four
dot-separated groups of 1–3 decimal digits. -/
def matchIPv4Octets (s : Str) : Option (List Str) :=
  let parts := jsSplitChar '.' s
  if parts.length = 4 && parts.all (fun p => 1 ≤ p.length && p.length ≤ 3 && p.all (isDigitCh ·))
  then some parts else none

/-- `isValidIPv4Address`. -/
def isValidIPv4Address (s : Str) : Bool :=
  match matchIPv4Octets s with
  | none => false
  | some parts =>
    parts.all fun o =>
      match jsParseIntDec o with
      | some n => 0 ≤ n && n ≤ 255
      | none => false

/-- JS `parseInt(o, 10).toString()` (`NaN` prints as `"NaN"`). -/
def jsNumToStr : Option Int → Str
  | none => "NaN".data
  | some i => intToDec i

/-- `normalizeIPv4Address`: strip leading zeros from each octet. -/
def normalizeIPv4Address (s : Str) : Str :=
  joinSep '.' ((jsSplitChar '.' s).map fun o => jsNumToStr (jsParseIntDec o))

/-- `ipv4ToNumber`: `(p0 << 24 >>> 0) + (p1 << 16 >>> 0) + (p2 << 8 >>> 0) + p3`,
which for octet values below 256 is this weighted sum. -/
def ipv4ToNumber (addr : Str) : Nat :=
  let parts := (jsSplitChar '.' addr).map jsNumberNat
  (parts.getD 0 none).getD 0 * 2 ^ 24 + (parts.getD 1 none).getD 0 * 2 ^ 16 +
    (parts.getD 2 none).getD 0 * 2 ^ 8 + (parts.getD 3 none).getD 0

/-- `numberToIPv4`: `(num >>> k) & 255` is `num % 2^32 / 2^k % 256`. -/
def numberToIPv4 (num : Nat) : Str :=
  joinSep '.'
    [natToDec (num % 2 ^ 32 / 2 ^ 24 % 256), natToDec (num % 2 ^ 32 / 2 ^ 16 % 256),
      natToDec (num % 2 ^ 32 / 2 ^ 8 % 256), natToDec (num % 2 ^ 32 % 256)]

/-- The `while (n & 0x80000000)` loop of `subnetMaskToCIDRPrefix`, counting
leading one bits; 32 iterations always suffice because after 32 doublings
`n` is `0 mod 2^32`.  Returns (count, final `n`). -/
def maskLoop : Nat → Nat → Nat → Nat × Nat
  | 0, n, p => (p, n)
  | f + 1, n, p =>
    if Nat.land n 0x80000000 ≠ 0 then maskLoop f (n * 2 % 2 ^ 32) (p + 1) else (p, n)

/-- `subnetMaskToCIDRPrefix` (the bit-OR of the shifted octets is their
weighted sum since the bit ranges are disjoint; `~num >>> 0` is
`2^32 - 1 - num`). -/
def subnetMaskToCIDRPrefixLen (mask : Str) : Option Nat :=
  let parts := jsSplitChar '.' mask
  if parts.length ≠ 4 then none
  else
    let octs := parts.map jsParseIntDec
    if octs.any (fun o => match o with | none => true | some n => n < 0 || 255 < n) then none
    else
      let o := octs.map fun x => (x.getD 0).toNat
      let num := o.getD 0 0 * 2 ^ 24 + o.getD 1 0 * 2 ^ 16 + o.getD 2 0 * 2 ^ 8 + o.getD 3 0
      let inverted := 2 ^ 32 - 1 - num
      if inverted ≠ 0 && Nat.land inverted ((inverted + 1) % 2 ^ 32) ≠ 0 then none
      else
        let r := maskLoop 32 num 0
        if r.2 ≠ 0 then none else some r.1

/-- Regex `^([\d.]+)\/([\d.]+)$`: neither side may contain `/`, so the match
is a split at the unique `/`. -/
def slashMaskMatch (s : Str) : Option (Str × Str) :=
  match jsSplitChar '/' s with
  | [a, b] =>
    if a ≠ [] && b ≠ [] && a.all (isDigitDot ·) && b.all (isDigitDot ·) then some (a, b)
    else none
  | _ => none

/-- Regex `^([\d.]+)\/(\d+)$`. -/
def cidrMatch4 (s : Str) : Option (Str × Str) :=
  match jsSplitChar '/' s with
  | [a, b] =>
    if a ≠ [] && b ≠ [] && a.all (isDigitDot ·) && b.all (isDigitCh ·) then some (a, b)
    else none
  | _ => none

/-- Regex `^([\d.]+)\s+([\d.]+)$`: a maximal run of non-whitespace, a run of
whitespace, and a remainder that may contain no further whitespace. -/
def spaceMaskMatch (s : Str) : Option (Str × Str) :=
  let a := s.takeWhile fun c => !jsIsWs c
  let r1 := s.dropWhile fun c => !jsIsWs c
  let w := r1.takeWhile (jsIsWs ·)
  let b := r1.dropWhile (jsIsWs ·)
  if a ≠ [] && a.all (isDigitDot ·) && w ≠ [] && b ≠ [] && b.all (isDigitDot ·) then some (a, b)
  else none

/-- Regex `^([\d.]+)-([\d.]+)$`. -/
def rangeFullMatch (s : Str) : Option (Str × Str) :=
  match jsSplitChar '-' s with
  | [a, b] =>
    if a ≠ [] && b ≠ [] && a.all (isDigitDot ·) && b.all (isDigitDot ·) then some (a, b)
    else none
  | _ => none

/-- Regex `^([\d.]+)-(\d+)$`. -/
def rangeShortMatch (s : Str) : Option (Str × Str) :=
  match jsSplitChar '-' s with
  | [a, b] =>
    if a ≠ [] && b ≠ [] && a.all (isDigitDot ·) && b.all (isDigitCh ·) then some (a, b)
    else none
  | _ => none

/-- The first inner loop of `expandIPv4Range`: starting from `maxBits = 32`
and decrementing while `current` is divisible by the block size, with the
`maxBits++; break` on the first failure; reaching 0 exits the loop. -/
def alignLoop (current : Nat) : Nat → Nat
  | 0 => 0
  | m + 1 => if current % 2 ^ (32 - (m + 1)) ≠ 0 then m + 2 else alignLoop current m

/-- The second inner loop of `expandIPv4Range` (`while (maxBits < 32)`),
with fuel `32 - maxBits` mirroring the loop guard. -/
def fitGo (current endv : Nat) : Nat → Nat → Nat
  | 0, m => m
  | f + 1, m => if current + 2 ^ (32 - m) - 1 ≤ endv then m else fitGo current endv f (m + 1)

/-- The `maxBits` chosen for `current` in one iteration of
`expandIPv4Range`, including the `if (maxBits < 1) maxBits = 1` clamp. -/
def chooseBits (current endv : Nat) : Nat :=
  let m0 := alignLoop current 32
  let m1 := if m0 < 1 then 1 else m0
  fitGo current endv (32 - m1) m1

/-- The main `while (current <= end)` loop of `expandIPv4Range`, as
`(address, maxBits)` pairs.  The fuel `endv + 1 - current` is exactly the
loop's termination measure (each step advances `current` by at least 1);
in `Nat` the `current < start` overflow safety check can never fire. -/
def expandGo (endv : Nat) : Nat → Nat → List (Nat × Nat)
  | 0, _ => []
  | f + 1, current =>
    if current ≤ endv then
      (current, chooseBits current endv) ::
        expandGo endv f (current + 2 ^ (32 - chooseBits current endv))
    else []

def expandIPv4RangePairs (start endv : Nat) : List (Nat × Nat) :=
  if start > endv then [] else expandGo endv (endv + 1 - start) start

/-- `expandIPv4Range`, rendering each emitted pair as
`` `${numberToIPv4(current)}/${maxBits}` ``. -/
def expandIPv4Range (start endv : Nat) : List Str :=
  (expandIPv4RangePairs start endv).map fun p => numberToIPv4 p.1 ++ '/' :: natToDec p.2

/-- The `a.b.c.d/w.x.y.z` branch of `parseIPv4Entry`. -/
def ipv4SlashMaskAttempt (entry trimmed : Str) : Option NormalizationResult :=
  match slashMaskMatch trimmed with
  | some (addr, mask) =>
    if mask.contains '.' then
      match subnetMaskToCIDRPrefixLen mask with
      | some pfx =>
        if isValidIPv4Address addr then
          let normalized := normalizeIPv4Address addr
          let ns := normalized ++ '/' :: natToDec pfx
          some (createResult entry NormalizationStatus.CORRECTED (some ns)
            (some ("Converted mask \"".data ++ mask ++ "\" to /".data ++ natToDec pfx))
            none [ns])
        else none
      | none => none
    else none
  | none => none

/-- The `a.b.c.d/n` branch of `parseIPv4Entry`. -/
def ipv4CidrAttempt (entry trimmed : Str) : Option NormalizationResult :=
  match cidrMatch4 trimmed with
  | some (addr, pfxStr) =>
    let pn := jsParseIntDec pfxStr
    if isValidIPv4Address addr &&
        (match pn with | some p => 0 ≤ p && p ≤ 32 | none => false) then
      let p := pn.getD 0
      let normalized := normalizeIPv4Address addr
      let ns := normalized ++ '/' :: intToDec p
      if normalized ≠ addr then
        some (createResult entry NormalizationStatus.CORRECTED (some ns)
          (some ("Normalized \"".data ++ addr ++ "\" to \"".data ++ normalized ++ "\"".data))
          none [ns])
      else
        some (createResult entry NormalizationStatus.VALID (some ns) none none [ns])
    else none
  | none => none

/-- The `a.b.c.d w.x.y.z` branch of `parseIPv4Entry`. -/
def ipv4SpaceMaskAttempt (entry trimmed : Str) : Option NormalizationResult :=
  match spaceMaskMatch trimmed with
  | some (addr, mask) =>
    match subnetMaskToCIDRPrefixLen mask with
    | some pfx =>
      if isValidIPv4Address addr then
        let normalized := normalizeIPv4Address addr
        let ns := normalized ++ '/' :: natToDec pfx
        some (createResult entry NormalizationStatus.CORRECTED (some ns)
          (some ("Converted \"".data ++ addr ++ " ".data ++ mask ++ "\" to CIDR notation".data))
          none [ns])
      else none
    | none => none
  | none => none

/-- The bare-address branch of `parseIPv4Entry`. -/
def ipv4BareAttempt (entry trimmed : Str) : Option NormalizationResult :=
  if isValidIPv4Address trimmed then
    let normalized := normalizeIPv4Address trimmed
    let ns := normalized ++ "/32".data
    if normalized ≠ trimmed then
      some (createResult entry NormalizationStatus.CORRECTED (some ns)
        (some ("Normalized \"".data ++ trimmed ++ "\" to \"".data ++ normalized ++ "/32\"".data))
        none [ns])
    else
      some (createResult entry NormalizationStatus.VALID (some ns) none none [ns])
  else none

/-- The full-range (`a.b.c.d-e.f.g.h`) branch of `parseIPv4Range`. -/
def ipv4RangeFullAttempt (entry trimmed : Str) : Option NormalizationResult :=
  match rangeFullMatch trimmed with
  | some (startAddr, endAddr) =>
    if isValidIPv4Address startAddr && isValidIPv4Address endAddr then
      let start := ipv4ToNumber (normalizeIPv4Address startAddr)
      let endv := ipv4ToNumber (normalizeIPv4Address endAddr)
      if start > endv then
        some (createResult entry NormalizationStatus.INVALID none none
          (some "Range start is greater than end".data) [])
      else
        let cidrs := expandIPv4Range start endv
        some (createResult entry NormalizationStatus.CORRECTED cidrs.head?
          (some ("Expanded range to ".data ++ natToDec cidrs.length ++ " CIDR block(s)".data))
          none cidrs)
    else none
  | none => none

/-- The short-range (`a.b.c.d-N`) branch of `parseIPv4Range`. -/
def ipv4RangeShortAttempt (entry trimmed : Str) : Option NormalizationResult :=
  match rangeShortMatch trimmed with
  | some (startAddr, endOctet) =>
    if isValidIPv4Address startAddr then
      let normalized := normalizeIPv4Address startAddr
      let parts := jsSplitChar '.' normalized
      let endNum := (jsParseIntDec endOctet).getD 0
      if endNum < 0 || 255 < endNum then
        some (createResult entry NormalizationStatus.INVALID none none
          (some "Invalid end octet in range".data) [])
      else
        let endAddr := joinSep '.' (parts.set 3 (intToDec endNum))
        let start := ipv4ToNumber normalized
        let endv := ipv4ToNumber endAddr
        if start > endv then
          some (createResult entry NormalizationStatus.INVALID none none
            (some "Range start is greater than end".data) [])
        else
          let cidrs := expandIPv4Range start endv
          some (createResult entry NormalizationStatus.CORRECTED cidrs.head?
            (some ("Expanded range \"".data ++ trimmed ++ "\" to ".data ++
              natToDec cidrs.length ++ " CIDR block(s)".data))
            none cidrs)
    else none
  | none => none

/-- `parseIPv4Range` (the extra second argument passed at its one call site
is dropped by JS; `createResult` receives this function's own `entry`,
which is the caller's trimmed string).  `endOctet` is a digit string, so
`parseInt` cannot yield `NaN` there; `getD 0` is the (unreachable) `NaN`
default. -/
def parseIPv4Range (entry : Str) : Option NormalizationResult :=
  let trimmed := jsTrim entry
  if trimmed.contains '-' && !trimmed.contains ':' then
    match ipv4RangeFullAttempt entry trimmed with
    | some r => some r
    | none => ipv4RangeShortAttempt entry trimmed
  else none

/-- `parseIPv4Entry`: the pattern attempts in source order, each falling
through to the next when its regex or inner validation fails. -/
def parseIPv4Entry (entry : Str) : Option NormalizationResult :=
  let trimmed := jsTrim entry
  match ipv4SlashMaskAttempt entry trimmed with
  | some r => some r
  | none =>
    match ipv4CidrAttempt entry trimmed with
    | some r => some r
    | none =>
      match ipv4SpaceMaskAttempt entry trimmed with
      | some r => some r
      | none =>
        match ipv4BareAttempt entry trimmed with
        | some r => some r
        | none => parseIPv4Range trimmed

/-- Model of `s.split("::")`: left-to-right, non-overlapping. -/
def splitDC : Str → List Str
  | [] => [[]]
  | ':' :: ':' :: r => [] :: splitDC r
  | c :: r =>
    match splitDC r with
    | [] => [[c]]
    | t :: ts => (c :: t) :: ts

/-- Model of `s.includes("::")`. -/
def hasDC : Str → Bool
  | [] => false
  | ':' :: ':' :: _ => true
  | _ :: r => hasDC r

/-- JS template interpolation of a possibly-`null` string. -/
def jsTemplateStr : Option Str → Str
  | none => "null".data
  | some s => s

/-- The byte-building loop of `parseIPv6ToBytes`: for indices `i` up to 8,
take group `i` (in the `::` branch, `groups[i] || "0"` turns a missing or
empty group into `"0"`), `parseInt(g, 16)`, reject `NaN` and values above
`0xffff`, and emit the two bytes `(val >> 8) & 0xff`, `val & 0xff`. -/
def ipv6BytesFrom (orZero : Bool) (groups : List Str) : Nat → Nat → Option (List Nat)
  | _, 0 => some []
  | i, k + 1 =>
    let g0 := groups.getD i []
    let g := if orZero && g0 = [] then "0".data else g0
    match jsParseIntHex g with
    | none => none
    | some val =>
      if val > 0xffff then none
      else
        match ipv6BytesFrom orZero groups (i + 1) k with
        | none => none
        | some rest => some (jsHiByte val :: jsLoByte val :: rest)

/-- `parseIPv6ToBytes`: lowercase, strip a `%zone` suffix, then either the
`::` branch (fill the gap with zero groups) or the plain 8-group branch. -/
def parseIPv6ToBytes (addr0 : Str) : Option (List Nat) :=
  let addr1 := jsToLowerStr (jsTrim addr0)
  let addr := addr1.takeWhile (· ≠ '%')
  if hasDC addr then
    let parts := splitDC addr
    if parts.length > 2 then none
    else
      let left := if parts.getD 0 [] ≠ [] then jsSplitChar ':' (parts.getD 0 []) else []
      let right := if parts.getD 1 [] ≠ [] then jsSplitChar ':' (parts.getD 1 []) else []
      let missing : Int := 8 - (left.length : Int) - (right.length : Int)
      if missing < 0 then none
      else ipv6BytesFrom true (left ++ List.replicate missing.toNat "0".data ++ right) 0 8
  else
    let groups := jsSplitChar ':' addr
    if groups.length ≠ 8 then none else ipv6BytesFrom false groups 0 8

/-- `(bytes[i] << 8) | bytes[i+1]` for the 8 byte pairs (the OR of disjoint
byte ranges is the weighted sum). -/
def groupValsOfBytes : List Nat → List Nat
  | b1 :: b2 :: rest => (b1 * 256 + b2) :: groupValsOfBytes rest
  | _ => []

def padStart4 (s : Str) : Str := List.replicate (4 - s.length) '0' ++ s

/-- `expandIPv6`: full form, 8 groups of 4 lowercase hex digits. -/
def expandIPv6 (addr : Str) : Option Str :=
  match parseIPv6ToBytes addr with
  | none => none
  | some bytes =>
    some (joinSep ':' ((groupValsOfBytes bytes).map fun v => padStart4 (natToHex v)))

/-- The zero-run scan of `compressIPv6`, with the JS `-1` sentinels for the
run-start indexes; `i` is the index of the head of the remaining list. -/
def compressScan (i : Int) : List Str → Int → Nat → Int → Nat → Int × Nat
  | [], bS, bL, cS, cL => if cL > bL ∧ cL > 1 then (cS, cL) else (bS, bL)
  | g :: rest, bS, bL, cS, cL =>
    if g = "0".data then
      if cS = -1 then compressScan (i + 1) rest bS bL i 1
      else compressScan (i + 1) rest bS bL cS (cL + 1)
    else
      if cL > bL ∧ cL > 1 then compressScan (i + 1) rest cS cL (-1) 0
      else compressScan (i + 1) rest bS bL (-1) 0

/-- `compressIPv6` (normalizer.js): shortest form of a parsed address. -/
def compressIPv6 (addr : Str) : Option Str :=
  match parseIPv6ToBytes addr with
  | none => none
  | some bytes =>
    let groups := (groupValsOfBytes bytes).map fun v => natToHex v
    let bs := compressScan 0 groups (-1) 0 (-1) 0
    if bs.2 > 1 then
      if bs.2 = 8 then some "::".data
      else
        some (joinSep ':' (groups.take bs.1.toNat) ++ "::".data ++
          joinSep ':' (groups.drop (bs.1.toNat + bs.2)))
    else some (joinSep ':' groups)

def hasIPv6ZoneId (entry : Str) : Bool := entry.contains '%'

/-- First index of `c` in `s`, or `-1` (JS `indexOf`). -/
def strIndexOf (c : Char) (s : Str) : Int :=
  if s.contains c then ((s.takeWhile (· ≠ c)).length : Int) else -1

/-- `stripIPv6ZoneId`: cut from the `%` up to a later `/` (CIDR case) or to
the end. -/
def stripIPv6ZoneId (entry : Str) : Str :=
  let idx := strIndexOf '%' entry
  if idx = -1 then entry
  else
    let slashIdx := strIndexOf '/' entry
    if slashIdx ≠ -1 && slashIdx > idx then
      entry.takeWhile (· ≠ '%') ++ entry.drop slashIdx.toNat
    else entry.takeWhile (· ≠ '%')

def looksLikeIPv6 (entry : Str) : Bool := entry.contains ':'

/-- Regex `^([a-fA-F0-9:]+)\/(\d+)$`. -/
def cidrMatch6 (s : Str) : Option (Str × Str) :=
  match jsSplitChar '/' s with
  | [a, b] =>
    if a ≠ [] && b ≠ [] && a.all (isHexColon ·) && b.all (isDigitCh ·) then some (a, b)
    else none
  | _ => none

/-- `parseIPv6Range` (placeholder in the source: always `Invalid`). -/
def parseIPv6Range (entry : Str) (_warnings : List Str) : NormalizationResult :=
  createResult entry NormalizationStatus.INVALID none none
    (some "IPv6 ranges not yet supported - please convert to CIDR notation".data) []

/-- The CIDR branch of `parseIPv6Entry`.  `pfxStr` is a digit string, so
`parseInt` cannot be `NaN`; `getD 0` is the unreachable `NaN` default. -/
def ipv6CidrBranch (entry addr pfxStr : Str) (warnings : List Str) : NormalizationResult :=
  let pn := (jsParseIntDec pfxStr).getD 0
  if pn < 0 || 128 < pn then
    createResult entry NormalizationStatus.INVALID none none
      (some ("Invalid IPv6 prefix: ".data ++ pfxStr)) []
  else
    match expandIPv6 addr with
    | none =>
      createResult entry NormalizationStatus.INVALID none none
        (some "Invalid IPv6 address format".data) []
    | some expanded =>
      let compressed := jsTemplateStr (compressIPv6 expanded)
      let wasLower := jsToLowerStr addr ≠ addr
      let wasModified := warnings ≠ [] || wasLower
      let warnings2 := if wasLower then warnings ++ ["Normalized to lowercase".data] else warnings
      let ns := compressed ++ '/' :: intToDec pn
      createResult entry
        (if wasModified then NormalizationStatus.CORRECTED else NormalizationStatus.VALID)
        (some ns) (if warnings2 ≠ [] then some (joinSepS "; ".data warnings2) else none)
        none [ns]

/-- The bare-address branch of `parseIPv6Entry`. -/
def ipv6BareBranch (entry trimmed expanded : Str) (warnings : List Str) : NormalizationResult :=
  let compressed := jsTemplateStr (compressIPv6 expanded)
  let wasLower := jsToLowerStr trimmed ≠ trimmed
  let wasModified := warnings ≠ [] || wasLower
  let warnings2 := if wasLower then warnings ++ ["Normalized to lowercase".data] else warnings
  let ns := compressed ++ "/128".data
  createResult entry
    (if wasModified then NormalizationStatus.CORRECTED else NormalizationStatus.VALID)
    (some ns) (if warnings2 ≠ [] then some (joinSepS "; ".data warnings2) else none)
    none [ns]

/-- `parseIPv6Entry`. -/
def parseIPv6Entry (entry : Str) : Option NormalizationResult :=
  let trimmed0 := jsTrim entry
  if !looksLikeIPv6 trimmed0 then none
  else
    let z := hasIPv6ZoneId trimmed0
    let trimmed := if z then stripIPv6ZoneId trimmed0 else trimmed0
    let warnings : List Str := if z then ["Removed zone ID".data] else []
    if trimmed.contains '-' && !(trimmed.head? = some '-') then
      some (parseIPv6Range entry warnings)
    else
      match cidrMatch6 trimmed with
      | some (addr, pfxStr) => some (ipv6CidrBranch entry addr pfxStr warnings)
      | none =>
        match expandIPv6 trimmed with
        | some expanded => some (ipv6BareBranch entry trimmed expanded warnings)
        | none => none

/-- `normalizeEntry`: IPv6 first when the token contains a colon, then
IPv4, then the catch-all `Invalid`. -/
def normalizeEntry (entry : Str) : NormalizationResult :=
  let trimmed := jsTrim entry
  if trimmed = [] then
    createResult entry NormalizationStatus.INVALID none none (some "Empty entry".data) []
  else
    match (if trimmed.contains ':' then parseIPv6Entry trimmed else none) with
    | some r => r
    | none =>
      match parseIPv4Entry trimmed with
      | some r => r
      | none =>
        createResult entry NormalizationStatus.INVALID none none
          (some "Unrecognized IP address format".data) []

end Normalizer

namespace App

def IPVersion.IPv4 : Str := "ipv4".data

def IPVersion.IPv6 : Str := "ipv6".data

/-- app.js `parseIPv6`: like the normalizer's `parseIPv6ToBytes` but with
no zone stripping and no `missing < 0` rejection (a negative gap adds no
filler groups and the byte loop silently reads the first 8 groups). -/
def parseIPv6 (addr0 : Str) : Option (List Nat) :=
  let addr := jsToLowerStr (jsTrim addr0)
  if Normalizer.hasDC addr then
    let parts := Normalizer.splitDC addr
    if parts.length > 2 then none
    else
      let left := if parts.getD 0 [] ≠ [] then jsSplitChar ':' (parts.getD 0 []) else []
      let right := if parts.getD 1 [] ≠ [] then jsSplitChar ':' (parts.getD 1 []) else []
      let missing : Int := 8 - (left.length : Int) - (right.length : Int)
      Normalizer.ipv6BytesFrom true (left ++ List.replicate missing.toNat "0".data ++ right) 0 8
  else
    let groups := jsSplitChar ':' addr
    if groups.length ≠ 8 then none else Normalizer.ipv6BytesFrom false groups 0 8

/-- app.js `expandIPv6`: returns the input unchanged when parsing fails. -/
def expandIPv6 (address : Str) : Str :=
  match parseIPv6 address with
  | none => address
  | some bytes =>
    joinSep ':' ((Normalizer.groupValsOfBytes bytes).map fun v => Normalizer.padStart4 (natToHex v))

/-- The `result.replace(/:::/g, "::")` patch (left-to-right,
non-overlapping). -/
def replaceTripleColon : Str → Str
  | ':' :: ':' :: ':' :: r => ':' :: ':' :: replaceTripleColon r
  | c :: r => c :: replaceTripleColon r
  | [] => []

/-- app.js `compressIPv6`: same zero-run scan as the normalizer's (the loop
is textually identical in both files), but the compressed string is built
by joining with an empty placeholder group and patching the `:`/`::`
boundary cases.  Returns the input unchanged when parsing fails. -/
def compressIPv6 (address : Str) : Str :=
  match parseIPv6 address with
  | none => address
  | some bytes =>
    let groups := (Normalizer.groupValsOfBytes bytes).map fun v => natToHex v
    let bs := Normalizer.compressScan 0 groups (-1) 0 (-1) 0
    if bs.2 > 1 then
      if bs.2 = groups.length then "::".data
      else
        let compressed := groups.take bs.1.toNat ++ [[]] ++ groups.drop (bs.1.toNat + bs.2)
        let result := joinSep ':' compressed
        let result :=
          if result.head? = some ':' && !(result.take 2 = "::".data) then
            ':' :: ':' :: result.drop 1
          else result
        let result :=
          if result.getLast? = some ':' && !(result.drop (result.length - 2) = "::".data) then
            result.take (result.length - 1) ++ "::".data
          else result
        replaceTripleColon result
    else joinSep ':' groups

/-- app.js `ipv4ToNumber` (textually identical to the normalizer's). -/
def ipv4ToNumber (address : Str) : Nat := Normalizer.ipv4ToNumber address

/-- app.js `numberToIPv4` (textually identical to the normalizer's). -/
def numberToIPv4 (num : Nat) : Str := Normalizer.numberToIPv4 num

/-- `ipv6ToNumber`: fold the 16 bytes big-endian; a failed parse yields
`BigInt(0)`. -/
def ipv6ToNumber (address : Str) : Nat :=
  match parseIPv6 address with
  | none => 0
  | some bytes => bytes.foldl (fun acc b => acc * 256 + b) 0

/-- `numberToIPv6`: 8 unpadded lowercase hex groups. -/
def numberToIPv6 (bigNum : Nat) : Str :=
  joinSep ':' ((List.range 8).map fun i => natToHex (bigNum / 2 ^ (16 * (7 - i)) % 2 ^ 16))

def normalizeAddress (address : Str) (version : Str) : Str :=
  if version = IPVersion.IPv6 then expandIPv6 address else address

/-- `CIDRBlock`.  The source field `prefix` is called `prefixLen` here (the
name `prefix` itself cannot be used); `_expandedAddress` is
`expandedAddress0`.  `startAddress`/`endAddress` cache the numeric bounds;
a `NaN` start (only reachable from addresses the app never passes) is
modelled as 0. -/
structure CIDRBlock where
  address : Str
  prefixLen : Nat
  version : Str
  expandedAddress0 : Str
  startAddress : Nat
  endAddress : Nat
deriving DecidableEq

/-- `calculateStartAddress` applied to a block whose `address` field is
already set (the constructor calls it after `normalizeAddress`). -/
def calculateStartAddress (address version : Str) : Nat :=
  if version = IPVersion.IPv4 then ipv4ToNumber address else ipv6ToNumber address

/-- `calculateEndAddress`: `start + 2^(width - prefix) - 1`. -/
def calculateEndAddress (startAddress : Nat) (prefixLen : Nat) (version : Str) : Nat :=
  if version = IPVersion.IPv4 then startAddress + (2 ^ (32 - prefixLen) - 1)
  else startAddress + (2 ^ (128 - prefixLen) - 1)

/-- The `CIDRBlock` constructor. -/
def mkCIDRBlock (address : Str) (prefixLen : Nat) (version : Str) : CIDRBlock :=
  let addr := normalizeAddress address version
  let expA := if version = IPVersion.IPv6 then expandIPv6 address else address
  let startA := calculateStartAddress addr version
  ⟨addr, prefixLen, version, expA, startA, calculateEndAddress startA prefixLen version⟩

/-- Getter `expandedAddress` (`this._expandedAddress || this.address`). -/
def CIDRBlock.expandedAddress (b : CIDRBlock) : Str :=
  if b.expandedAddress0 = [] then b.address else b.expandedAddress0

def CIDRBlock.toCIDRString (b : CIDRBlock) : Str :=
  if b.version = IPVersion.IPv6 then compressIPv6 b.expandedAddress ++ '/' :: natToDec b.prefixLen
  else b.address ++ '/' :: natToDec b.prefixLen

/-- JS `a << k`: ToInt32 of `ToInt32(a) * 2^(k mod 32)`. -/
def jsShl32 (a : Int) (k : Nat) : Int := toInt32 (toInt32 a * 2 ^ (k % 32))

/-- `toNetmask`; `none` models the thrown
"Netmask format is only available for IPv4 addresses" error.  The mask is
`(~0 << (32 - prefix)) >>> 0` — the shift count is reduced mod 32. -/
def CIDRBlock.toNetmask (b : CIDRBlock) : Option Str :=
  if b.version = IPVersion.IPv6 then none
  else some (numberToIPv4 (toUint32 (jsShl32 (-1) (32 - b.prefixLen))))

/-- `toWildcard`; the wildcard is `~netmask >>> 0`, i.e.
`2^32 - 1 - netmask`. -/
def CIDRBlock.toWildcard (b : CIDRBlock) : Option Str :=
  if b.version = IPVersion.IPv6 then none
  else
    let netmask := toUint32 (jsShl32 (-1) (32 - b.prefixLen))
    some (numberToIPv4 (2 ^ 32 - 1 - netmask))

def CIDRBlock.toStartAddress (b : CIDRBlock) : Str :=
  if b.version = IPVersion.IPv4 then numberToIPv4 b.startAddress
  else compressIPv6 (numberToIPv6 b.startAddress)

/-- `CIDRBlock.fromCIDRString`.  `parseInt` of a malformed prefix (`NaN`,
never passed by the app's validated callers) is modelled as 0. -/
def CIDRBlock.fromCIDRString (cidrString : Str) : CIDRBlock :=
  let parts := jsSplitChar '/' cidrString
  let address := parts.getD 0 []
  let version := if address.contains '.' then IPVersion.IPv4 else IPVersion.IPv6
  mkCIDRBlock address ((jsParseIntDec (parts.getD 1 [])).getD 0).toNat version

/-- `calculateIPv6ReverseDNS`. -/
def calculateIPv6ReverseDNS (b : CIDRBlock) : Str :=
  let expanded := expandIPv6 b.toStartAddress
  let noColons := expanded.filter (· ≠ ':')
  let hexString := List.replicate (32 - noColons.length) '0' ++ noColons
  let reversedHex := hexString.reverse
  let numHexDigits := (b.prefixLen + 3) / 4
  let reversedPfx := reversedHex.take numHexDigits
  let dotted := joinSep '.' (reversedPfx.map fun c => [c])
  if dotted = [] then "ip6.arpa".data else dotted ++ ".ip6.arpa".data

/-! The format transformers.  Each `format` is modelled as
`List CIDRBlock → Option (Str × List Str)`: `none` models a thrown
exception (`toNetmask`/`toWildcard` on an IPv6 block), and the second
component collects `console.warn` diagnostics.  `Option.some` wraps the
pure transformers. -/

def CIDRFormatTransformer (cidrBlocks : List CIDRBlock) : Option (Str × List Str) :=
  some (joinSep '\n' (cidrBlocks.map CIDRBlock.toCIDRString), [])

def CiscoACLTransformer (cidrBlocks : List CIDRBlock) : Option (Str × List Str) :=
  let ipv4Blocks := cidrBlocks.filter fun b => b.version == IPVersion.IPv4
  let ipv6Blocks := cidrBlocks.filter fun b => b.version == IPVersion.IPv6
  match ipv4Blocks.mapM (fun b =>
      (b.toWildcard).map fun w =>
        "access-list 101 permit ip ".data ++ b.address ++ " ".data ++ w ++ " any".data) with
  | none => none
  | some lines4 =>
    let lines6 := ipv6Blocks.map fun b =>
      "ipv6 access-list FIREWALL permit ".data ++ b.toCIDRString
    some (joinSep '\n' (lines4 ++ lines6), [])

def CiscoPrefixListTransformer (cidrBlocks : List CIDRBlock) : Option (Str × List Str) :=
  let ipv4Blocks := cidrBlocks.filter fun b => b.version == IPVersion.IPv4
  let ipv6Blocks := cidrBlocks.filter fun b => b.version == IPVersion.IPv6
  let lines4 := ipv4Blocks.enum.map fun p =>
    "ip prefix-list LIST seq ".data ++ natToDec (10 + 10 * p.1) ++ " permit ".data ++
      p.2.toCIDRString ++ " le ".data ++ natToDec p.2.prefixLen
  let lines6 := ipv6Blocks.enum.map fun p =>
    "ipv6 prefix-list LIST6 seq ".data ++ natToDec (10 + 10 * p.1) ++ " permit ".data ++
      p.2.toCIDRString ++ " le ".data ++ natToDec p.2.prefixLen
  some (joinSep '\n' (lines4 ++ lines6), [])

def CiscoWildcardTransformer (cidrBlocks : List CIDRBlock) : Option (Str × List Str) :=
  let ipv4Blocks := cidrBlocks.filter fun b => b.version == IPVersion.IPv4
  let ipv6Blocks := cidrBlocks.filter fun b => b.version == IPVersion.IPv6
  let warns :=
    if ipv6Blocks.length > 0 then
      ["CiscoWildcardTransformer skipped ".data ++ natToDec ipv6Blocks.length ++
        " IPv6 blocks".data]
    else []
  match ipv4Blocks.mapM (fun b => (b.toWildcard).map fun w => b.address ++ " ".data ++ w) with
  | none => none
  | some lines => some (joinSep '\n' lines, warns)

def IPMaskTransformer (cidrBlocks : List CIDRBlock) : Option (Str × List Str) :=
  match cidrBlocks.mapM (fun b =>
      if b.version == IPVersion.IPv4 then
        (b.toNetmask).map fun m => b.address ++ " ".data ++ m
      else some b.toCIDRString) with
  | none => none
  | some lines => some (joinSep '\n' lines, [])

def FortigateTransformer (cidrBlocks : List CIDRBlock) : Option (Str × List Str) :=
  let lines := ["config firewall addrgrp".data, "  edit \"address_group\"".data] ++
    (cidrBlocks.map fun b => "    set member \"".data ++ b.toCIDRString ++ "\"".data) ++
    ["  next".data, "end".data]
  some (joinSep '\n' lines, [])

def CiscoIPv6ACLTransformer (cidrBlocks : List CIDRBlock) : Option (Str × List Str) :=
  some (joinSep '\n'
    (cidrBlocks.map fun b => "ipv6 access-list FIREWALL permit ".data ++ b.toCIDRString), [])

def JuniperIPv6Transformer (cidrBlocks : List CIDRBlock) : Option (Str × List Str) :=
  let ipv6Blocks := cidrBlocks.filter fun b => b.version == IPVersion.IPv6
  let addrLines := ipv6Blocks.enum.map fun p =>
    let parts := jsSplitChar '/' p.2.toCIDRString
    "set address ADDR-".data ++ natToDec p.1 ++ " ".data ++ parts.getD 0 [] ++ " ".data ++
      parts.getD 1 []
  let setLines :=
    if ipv6Blocks.length > 0 then
      "set address address-set FIREWALL_LIST".data ::
        ipv6Blocks.enum.map fun p => "set address FIREWALL_LIST ADDR-".data ++ natToDec p.1
    else []
  some (joinSep '\n' ("set security address-book global".data :: addrLines ++ setLines), [])

def IptablesTransformer (cidrBlocks : List CIDRBlock) : Option (Str × List Str) :=
  let lines := cidrBlocks.filterMap fun b =>
    if b.version == IPVersion.IPv4 then
      some ("iptables -A INPUT -s ".data ++ b.toCIDRString ++ " -j ACCEPT".data)
    else if b.version == IPVersion.IPv6 then
      some ("ip6tables -A INPUT -s ".data ++ b.toCIDRString ++ " -j ACCEPT".data)
    else none
  some (joinSep '\n' lines, [])

def UFWTransformer (cidrBlocks : List CIDRBlock) : Option (Str × List Str) :=
  some (joinSep '\n' (cidrBlocks.map fun b => "ufw allow from ".data ++ b.toCIDRString), [])

def PaloAltoTransformer (cidrBlocks : List CIDRBlock) : Option (Str × List Str) :=
  some (joinSep '\n' (cidrBlocks.map CIDRBlock.toCIDRString), [])

/-- Double-quoted JSON string (the rendered values — addresses, CIDRs and
the fixed words — contain no characters needing JSON escapes). -/
def jsonStr (s : Str) : Str := '"' :: s ++ "\"".data

/-- `JSON.stringify(x, null, 2)` layout for an array rendered at top-level
key depth: `[]` when empty, otherwise one item per line at the given item
indentation, closing bracket one level up. -/
def jsonArr (indent : Nat) (items : List Str) : Str :=
  if items = [] then "[]".data
  else
    "[\n".data ++ joinSepS ",\n".data (items.map fun it => List.replicate indent ' ' ++ it) ++
      "\n".data ++ List.replicate (indent - 2) ' ' ++ "]".data

/-- One `JSON.stringify(…, null, 2)` object whose fields are pre-rendered
`key: value` strings, with the braces at the given indentation. -/
def jsonObj (indent : Nat) (fields : List Str) : Str :=
  "\x7b\n".data ++
    joinSepS ",\n".data (fields.map fun f => List.replicate (indent + 2) ' ' ++ f) ++
    "\n".data ++ List.replicate indent ' ' ++ "\x7d".data

def AWSSecurityGroupTransformer (cidrBlocks : List CIDRBlock) : Option (Str × List Str) :=
  let items := cidrBlocks.map fun b =>
    let cidrField :=
      if b.version == IPVersion.IPv4 then "\"CidrIp\": ".data ++ jsonStr b.toCIDRString
      else "\"CidrIpv6\": ".data ++ jsonStr b.toCIDRString
    jsonObj 4
      ["\"IpProtocol\": \"-1\"".data, "\"FromPort\": -1".data, "\"ToPort\": -1".data,
        "\"Description\": ".data ++ jsonStr ("Allow from ".data ++ b.toCIDRString), cidrField]
  some (jsonObj 0 ["\"Rules\": ".data ++ jsonArr 4 items], [])

def GCPFirewallTransformer (cidrBlocks : List CIDRBlock) : Option (Str × List Str) :=
  let items := cidrBlocks.map fun b =>
    let name := "rule-".data ++ (b.address.map fun c => if c = '.' || c = ':' then '-' else c)
    let allowedObj := jsonObj 8
      ["\"IPProtocol\": \"TCP\"".data,
        "\"ports\": ".data ++ jsonArr 12 ["\"80\"".data, "\"443\"".data]]
    jsonObj 4
      ["\"name\": ".data ++ jsonStr name,
        "\"sourceRanges\": ".data ++ jsonArr 8 [jsonStr b.toCIDRString],
        "\"allowed\": ".data ++ jsonArr 8 [allowedObj]]
  some (jsonObj 0 ["\"Rules\": ".data ++ jsonArr 4 items], [])

def AzureNSGTransformer (cidrBlocks : List CIDRBlock) : Option (Str × List Str) :=
  let items := cidrBlocks.map fun b =>
    let name := "rule-".data ++ (b.address.map fun c => if c = '.' || c = ':' then '-' else c)
    let props := jsonObj 6
      ["\"sourceAddressPrefix\": ".data ++ jsonStr b.toCIDRString,
        "\"access\": \"Allow\"".data, "\"priority\": 1000".data]
    jsonObj 4 ["\"name\": ".data ++ jsonStr name, "\"properties\": ".data ++ props]
  some (jsonObj 0 ["\"rules\": ".data ++ jsonArr 4 items], [])

def ReverseDNSTransformer (cidrBlocks : List CIDRBlock) : Option (Str × List Str) :=
  let lines := cidrBlocks.map fun b =>
    if b.version == IPVersion.IPv4 then
      let octets := jsSplitChar '.' b.address
      let numOctets := (b.prefixLen + 7) / 8
      joinSep '.' (octets.take numOctets).reverse ++ ".in-addr.arpa".data
    else calculateIPv6ReverseDNS b
  some (joinSep '\n' lines, [])

/-- The own properties of the `FormatRegistry` object literal: the 15
registered format names, looked up by exact string key; `none` means the
object has no own property of that name (the prototype chain is consulted
separately, see `objectPrototypeProps`). -/
def FormatRegistry (name : Str) : Option (List CIDRBlock → Option (Str × List Str)) :=
  if name = "cidr".data then some CIDRFormatTransformer
  else if name = "cisco-acl".data then some CiscoACLTransformer
  else if name = "cisco-prefix-list".data then some CiscoPrefixListTransformer
  else if name = "cisco-wildcard".data then some CiscoWildcardTransformer
  else if name = "ip-mask".data then some IPMaskTransformer
  else if name = "fortigate".data then some FortigateTransformer
  else if name = "cisco-ipv6-acl".data then some CiscoIPv6ACLTransformer
  else if name = "juniper-ipv6".data then some JuniperIPv6Transformer
  else if name = "palo-alto".data then some PaloAltoTransformer
  else if name = "iptables".data then some IptablesTransformer
  else if name = "ufw".data then some UFWTransformer
  else if name = "aws-sg".data then some AWSSecurityGroupTransformer
  else if name = "gcp-firewall".data then some GCPFirewallTransformer
  else if name = "azure-nsg".data then some AzureNSGTransformer
  else if name = "reverse-dns".data then some ReverseDNSTransformer
  else none

/-- The property names every plain object inherits from
`Object.prototype`.  `FormatRegistry[formatName]` finds these on the
prototype chain when they are not own keys; each of them is a function
(or, for `__proto__`, an object), hence truthy. -/
def objectPrototypeProps : List Str :=
  ["constructor".data, "hasOwnProperty".data, "isPrototypeOf".data,
    "propertyIsEnumerable".data, "toLocaleString".data, "toString".data,
    "valueOf".data, "__proto__".data, "__defineGetter__".data,
    "__defineSetter__".data, "__lookupGetter__".data, "__lookupSetter__".data]

/-- `transformToFormat`.  `FormatRegistry[formatName]` is a plain-object
property lookup: an own key yields its transformer; a name inherited from
`Object.prototype` yields that truthy member, so the `!transformer` guard
is skipped and `transformer.format(cidrModels)` throws a `TypeError`
(modelled as `none`); only a name found nowhere on the chain is
`undefined`, taking the fallback
`cidrModels.map(c => c.toCIDRString()).join("\n")` with a
`console.error` diagnostic (collected in the second component). -/
def transformToFormat (cidrModels : List CIDRBlock) (formatName : Str) :
    Option (Str × List Str) :=
  match FormatRegistry formatName with
  | none =>
    if objectPrototypeProps.contains formatName then none
    else
      some (joinSep '\n' (cidrModels.map CIDRBlock.toCIDRString),
        ["Unknown format: ".data ++ formatName])
  | some t => t cidrModels

/-- `aggregateCIDRs`, parametrized by the external `merge` of
`fast-cidr-tools` (`Except.error` models a thrown exception).  The
`try`/`catch` turns any `merge` failure into a `console.error` diagnostic
(second component) plus the unmodified input list. -/
def aggregateCIDRs (mergeFn : List Str → Except Str (List Str)) (cidrs : List Str) :
    List Str × List Str :=
  if cidrs.length = 0 then ([], [])
  else
    match mergeFn cidrs with
    | .ok merged => (merged, [])
    | .error e => (cidrs, ["Aggregation error: ".data ++ e])

end App

namespace Spec

/-! Specification-side definitions (from the spec's words, for comparison
with the embedded source functions). -/

/-- Size in addresses of a CIDR block given as `(address, prefixBits)`. -/
def blockSize (p : Nat × Nat) : Nat := 2 ^ (32 - p.2)

/-- Last address of a block. -/
def blockEnd (p : Nat × Nat) : Nat := p.1 + blockSize p - 1

/-- A well-formed IPv4 CIDR block: prefix in `[0,32]`, network-aligned
base address inside the 32-bit space. -/
def ValidBlock (p : Nat × Nat) : Prop :=
  p.2 ≤ 32 ∧ p.1 % blockSize p = 0 ∧ p.1 < 2 ^ 32

/-- `x` lies in block `p`. -/
def MemBlock (x : Nat) (p : Nat × Nat) : Prop := p.1 ≤ x ∧ x ≤ blockEnd p

/-- `C` is a list of valid CIDR blocks whose union is exactly the inclusive
interval `[s, e]` — every covered address is in the range and every range
address is covered. -/
def ExactCover (C : List (Nat × Nat)) (s e : Nat) : Prop :=
  (∀ b ∈ C, ValidBlock b) ∧ ∀ x, (∃ b ∈ C, MemBlock x b) ↔ s ≤ x ∧ x ≤ e

/-- The blocks of `L` tile `[c, e]` consecutively and in order: each block
starts where the previous one ended (+1) and the last one ends at `e`.
This gives orderedness, pairwise disjointness and exact coverage at once. -/
def IsChain : List (Nat × Nat) → Nat → Nat → Prop
  | [], c, e => c = e + 1
  | p :: t, c, e => p.1 = c ∧ blockEnd p ≤ e ∧ IsChain t (c + blockSize p) e

/-- A maximal run of zero groups of `vals` starting at `st` of length
`len` (out-of-range reads default to a nonzero value). -/
def ZeroRun (vals : List Nat) (st len : Nat) : Prop :=
  0 < len ∧ st + len ≤ vals.length ∧
    (∀ i, st ≤ i → i < st + len → vals.getD i 1 = 0) ∧
    (st = 0 ∨ vals.getD (st - 1) 1 ≠ 0) ∧
    (st + len = vals.length ∨ vals.getD (st + len) 1 ≠ 0)

/-- The run `compressIPv6` must pick, per the spec: a maximal zero run of
length > 1, no other run is longer, and among equally long runs it is the
leftmost. -/
def BestZeroRun (vals : List Nat) (st len : Nat) : Prop :=
  ZeroRun vals st len ∧ 1 < len ∧
    (∀ st2 len2, ZeroRun vals st2 len2 → len2 ≤ len) ∧
    (∀ st2 len2, ZeroRun vals st2 len2 → len2 = len → st ≤ st2)

/-- The dyadic parent of a block: the enclosing block of twice the size
(meaningful for blocks with `1 ≤ p.2`). -/
def parentLo (p : Nat × Nat) : Nat := p.1 - p.1 % (2 * blockSize p)

/-- The parent block of `p` is not contained in `[s, e]` — i.e. `p` is a
maximal dyadic block inside the range. -/
def ParentOutside (s e : Nat) (p : Nat × Nat) : Prop :=
  parentLo p < s ∨ e < parentLo p + 2 * blockSize p - 1

end Spec

namespace Greedy

/-- `alignLoop`'s result clamped by `if (maxBits < 1) maxBits = 1`. -/
def clampAlign (c : Nat) : Nat :=
  let m0 := Normalizer.alignLoop c 32
  if m0 < 1 then 1 else m0

/-- The block size the alignment phase allows at `c` (capped at `2^31`). -/
def alignStar (c : Nat) : Nat := 2 ^ (32 - clampAlign c)

/-- Loop invariant of the greedy splitter: at position `c`, either the
distance already travelled from `start` is below the alignment-allowed
size (ascending phase) or the remaining length is (descending phase). -/
def GOODAt (s e c : Nat) : Prop := c - s < alignStar c ∨ e + 1 - c < alignStar c

end Greedy

/-- C10 helper: the concrete `/0` block used by the claim's witness. -/
def fullBlockV4 : App.CIDRBlock := App.CIDRBlock.fromCIDRString "0.0.0.0/0".data

/-- C6/C9 helper: the concrete `/24` block used in witnesses. -/
def blk19216800 : App.CIDRBlock := App.CIDRBlock.fromCIDRString "192.168.0.0/24".data

/-- Abstraction of the zero-run scan of `compressIPv6`: each hex group is
replaced by whether it is the string `"0"`, i.e. whether the group value is
zero. -/
def scanZ (i : Int) : List Bool → Int → Nat → Int → Nat → Int × Nat
  | [], bS, bL, cS, cL => if cL > bL ∧ cL > 1 then (cS, cL) else (bS, bL)
  | b :: rest, bS, bL, cS, cL =>
    if b then
      if cS = -1 then scanZ (i + 1) rest bS bL i 1
      else scanZ (i + 1) rest bS bL cS (cL + 1)
    else
      if cL > bL ∧ cL > 1 then scanZ (i + 1) rest cS cL (-1) 0
      else scanZ (i + 1) rest bS bL (-1) 0

/-- Decidable version of `Spec.ZeroRun` on the boolean zero-pattern. -/
def boolRunB (z : List Bool) (st len : Nat) : Bool :=
  decide (0 < len) && decide (st + len ≤ z.length) &&
    ((List.range len).all fun k => z.getD (st + k) false) &&
    (decide (st = 0) || !(z.getD (st - 1) false)) &&
    (decide (st + len = z.length) || !(z.getD (st + len) false))

/-- Decidable version of `Spec.BestZeroRun` on the boolean zero-pattern. -/
def bestRunB (z : List Bool) (st len : Nat) : Bool :=
  boolRunB z st len && decide (1 < len) &&
    ((List.range (z.length + 1)).all fun st2 =>
      (List.range (z.length + 1)).all fun len2 =>
        !(boolRunB z st2 len2) || (decide (len2 ≤ len) && (decide (len2 ≠ len) || decide (st ≤ st2))))

/-- The 16 lowercase hex digit characters. -/
def hexChars : Str := "0123456789abcdef".data

/-- The byte pairs `v / 256, v % 256` of a list of group values: the bytes
an `ipv6BytesFrom` pass reconstructs from the full-form groups. -/
def bytesOfVals : List Nat → List Nat
  | [] => []
  | v :: t => v / 256 :: v % 256 :: bytesOfVals t

/-- The decimal digit characters. -/
def decChars : Str := "0123456789".data

/-- Decimal digits and the dot. -/
def dotDigits : Str := "0123456789.".data

/-- Every character a normalizer output string can contain: decimal and
lowercase-hex digits, the letters of `null`, and `:`, `.`, `/`. -/
def safeChars : Str := "0123456789abcdefnul:./".data

/-- The three-way outcome contract of a normalization result relative to
the trimmed input `trimmed`. -/
def ResultOK (trimmed : Str) (r : Normalizer.NormalizationResult) : Prop :=
  r.status = Normalizer.NormalizationStatus.VALID ∨
  (r.status = Normalizer.NormalizationStatus.CORRECTED ∧ r.warning ≠ none ∧
    ∀ ns, r.normalized = some ns → (∀ c ∈ ns, jsIsWs c = false) ∧ ns ≠ trimmed) ∨
  (r.status = Normalizer.NormalizationStatus.INVALID ∧ r.error ≠ none ∧ r.normalized = none)

/-- **C10** (confirmed).  For every IPv4 `CIDRBlock` with prefix length 0,
`toNetmask()` returns `"255.255.255.255"` and `toWildcard()` returns
`"0.0.0.0"`: the JS shift count `32 - 0` is reduced mod 32, so
`~0 << 32` degenerates to `~0` and the `/0` mask pair is inverted. -/
theorem C10_prefix0_netmask_is_all_ones (b : App.CIDRBlock)
    (hv : b.version = App.IPVersion.IPv4) (hp : b.prefixLen = 0) :
    b.toNetmask = some "255.255.255.255".data ∧ b.toWildcard = some "0.0.0.0".data := by
  unfold App.CIDRBlock.toNetmask App.CIDRBlock.toWildcard
  rw [hv, hp]
  decide

/-- Witness for C10 at the block built from `0.0.0.0/0`. -/
theorem C10_prefix0_netmask_is_all_ones_witness :
    fullBlockV4.toNetmask = some "255.255.255.255".data ∧
      fullBlockV4.toWildcard = some "0.0.0.0".data :=
  C10_prefix0_netmask_is_all_ones fullBlockV4 (by decide) (by decide)

/-- **C6 counterexample** (the claim is corrected).  `"toString"` is not a
registered key of `FormatRegistry`, yet `transformToFormat` does not fall
back to the `cidr` output: the lookup finds the truthy inherited
`Object.prototype.toString`, and `transformer.format(...)` throws a
`TypeError` (modelled as `none`). -/
theorem C6_proto_name_throws_counterexample :
    App.FormatRegistry "toString".data = none ∧
    App.transformToFormat [blk19216800] "toString".data = none := by
  constructor
  · rfl
  · decide

/-- **C6** (corrected).  For every block list and every format name that is
not a key of `FormatRegistry`: if the name is also not a property inherited
from `Object.prototype`, `transformToFormat` does not throw — its output
is exactly the `cidr` transformer's output (one `address/prefix` line per
block) with the `Unknown format` diagnostic surfaced; but if the name is
an inherited `Object.prototype` property (`toString`, `constructor`,
`hasOwnProperty`, …) the truthy inherited member skips the fallback guard
and the `format` call throws a `TypeError` instead. -/
theorem C6_unknown_format_fallback_unless_proto (blocks : List App.CIDRBlock) (name : Str)
    (h : App.FormatRegistry name = none) :
    (¬ name ∈ App.objectPrototypeProps →
      App.transformToFormat blocks name =
        some (joinSep '\n' (blocks.map App.CIDRBlock.toCIDRString),
          ["Unknown format: ".data ++ name]) ∧
      App.CIDRFormatTransformer blocks =
        some (joinSep '\n' (blocks.map App.CIDRBlock.toCIDRString), [])) ∧
    (name ∈ App.objectPrototypeProps → App.transformToFormat blocks name = none) := by
  unfold App.transformToFormat App.CIDRFormatTransformer
  rw [h]
  constructor
  · intro hn
    rw [if_neg (by simpa using hn)]
    exact ⟨rfl, rfl⟩
  · intro hn
    rw [if_pos (by simpa using hn)]

/-- Witness for C6: the unregistered non-prototype name `"bogus"` falls
back to the `cidr` line, while the unregistered prototype name
`"hasOwnProperty"` throws. -/
theorem C6_unknown_format_fallback_unless_proto_witness :
    App.transformToFormat [blk19216800] "bogus".data =
      some ("192.168.0.0/24".data, ["Unknown format: bogus".data]) ∧
    App.transformToFormat [blk19216800] "hasOwnProperty".data = none := by
  constructor
  · rw [((C6_unknown_format_fallback_unless_proto [blk19216800] "bogus".data rfl).1
      (by decide)).1]
    decide
  · exact (C6_unknown_format_fallback_unless_proto [blk19216800] "hasOwnProperty".data
      rfl).2 (by decide)

/-- **C7 counterexample** (the claim is corrected).  `aggregateCIDRs` does
not propagate a `merge` failure: with a merge that fails (as
`fast-cidr-tools` does on an unparseable CIDR string), it returns the
input list unchanged as a recovered result value, logging a diagnostic —
the `try`/`catch` recovers instead of staying fatal. -/
theorem C7_aggregateCIDRs_recovers_counterexample :
    App.aggregateCIDRs (fun _ => Except.error "Invalid CIDR".data) ["not-a-cidr".data] =
      (["not-a-cidr".data], ["Aggregation error: Invalid CIDR".data]) := by
  decide

/-- **C7 amended**: when the external `merge` fails on a nonempty input
list, `aggregateCIDRs` catches the failure and returns the input list
unchanged, with a console diagnostic; the failure is never propagated. -/
theorem C7_aggregateCIDRs_catches_merge_failure
    (mergeFn : List Str → Except Str (List Str)) (cidrs : List Str) (e : Str)
    (hne : cidrs ≠ []) (h : mergeFn cidrs = .error e) :
    App.aggregateCIDRs mergeFn cidrs = (cidrs, ["Aggregation error: ".data ++ e]) := by
  unfold App.aggregateCIDRs
  rw [if_neg (by simpa using hne), h]

/-- Witness for the amended C7. -/
theorem C7_aggregateCIDRs_catches_merge_failure_witness :
    App.aggregateCIDRs (fun _ => Except.error "boom".data) ["10.0.0.0/8".data] =
      (["10.0.0.0/8".data], ["Aggregation error: boom".data]) :=
  C7_aggregateCIDRs_catches_merge_failure _ _ _ (by decide) rfl

/-- **C9 counterexample** (the claim is corrected).  Formatting the single
block `192.168.0.0/24` with the `reverse-dns` transformer yields
`0.168.192.in-addr.arpa` (three octets for a /24 — `ceil(24/8) = 3`), not
the claimed `0.0.168.192.in-addr.arpa`. -/
theorem C9_reverse_dns_24_counterexample :
    App.transformToFormat [blk19216800] "reverse-dns".data =
      some ("0.168.192.in-addr.arpa".data, []) ∧
    ("0.168.192.in-addr.arpa".data : Str) ≠ "0.0.168.192.in-addr.arpa".data := by
  constructor
  · decide
  · decide

/-- **C9 amended**: formatting the single aggregated block
`192.168.0.0/24` with the `reverse-dns` transformer yields exactly the
line `0.168.192.in-addr.arpa`. -/
theorem C9_reverse_dns_24_line :
    App.ReverseDNSTransformer [blk19216800] = some ("0.168.192.in-addr.arpa".data, []) := by
  decide

namespace Greedy

theorem alignLoop_zero_dvd (c : Nat) :
    ∀ m, Normalizer.alignLoop c m = 0 → ∀ j, 1 ≤ j → j ≤ m → c % 2 ^ (32 - j) = 0 := by
  intro m
  induction m with
  | zero => intro _ j h1 h2; omega
  | succ m ih =>
    intro h j h1 h2
    rw [Normalizer.alignLoop] at h
    by_cases hc : c % 2 ^ (32 - (m + 1)) ≠ 0
    · rw [if_pos hc] at h; omega
    · rw [if_neg hc] at h
      rcases Nat.lt_or_ge j (m + 1) with hj | hj
      · exact ih h j h1 (by omega)
      · have hje : j = m + 1 := by omega
        subst hje
        omega

theorem alignLoop_pos (c : Nat) :
    ∀ m, Normalizer.alignLoop c m ≠ 0 →
      2 ≤ Normalizer.alignLoop c m ∧ Normalizer.alignLoop c m ≤ m + 1 ∧
        c % 2 ^ (32 - (Normalizer.alignLoop c m - 1)) ≠ 0 ∧
        ∀ j, Normalizer.alignLoop c m ≤ j → j ≤ m → c % 2 ^ (32 - j) = 0 := by
  intro m
  induction m with
  | zero => intro h; rw [Normalizer.alignLoop] at h; omega
  | succ m ih =>
    intro h
    rw [Normalizer.alignLoop] at h ⊢
    by_cases hc : c % 2 ^ (32 - (m + 1)) ≠ 0
    · rw [if_pos hc] at h ⊢
      refine ⟨by omega, by omega, ?_, by omega⟩
      have : m + 2 - 1 = m + 1 := by omega
      rw [this]
      exact hc
    · rw [if_neg hc] at h ⊢
      obtain ⟨h2, hle, hne, hdvd⟩ := ih h
      refine ⟨h2, by omega, hne, ?_⟩
      intro j hj1 hj2
      rcases Nat.lt_or_ge j (m + 1) with hj | hj
      · exact hdvd j hj1 (by omega)
      · have hje : j = m + 1 := by omega
        subst hje
        omega

theorem alignLoop32_le (c : Nat) : Normalizer.alignLoop c 32 ≤ 32 := by
  rw [show (32 : Nat) = 31 + 1 from rfl, Normalizer.alignLoop]
  have h1 : c % 2 ^ (32 - (31 + 1)) = 0 := by omega
  rw [if_neg (by omega)]
  rcases Nat.eq_zero_or_pos (Normalizer.alignLoop c 31) with h | h
  · omega
  · exact le_trans (alignLoop_pos c 31 (by omega)).2.1 (by omega)

theorem clampAlign_eq (c : Nat) :
    clampAlign c =
      if Normalizer.alignLoop c 32 < 1 then 1 else Normalizer.alignLoop c 32 := rfl

theorem clampAlign_ge_one (c : Nat) : 1 ≤ clampAlign c := by
  rw [clampAlign_eq]
  split <;> omega

theorem clampAlign_le (c : Nat) : clampAlign c ≤ 32 := by
  rw [clampAlign_eq]
  have := alignLoop32_le c
  split <;> omega

theorem clampAlign_dvd (c : Nat) : 2 ^ (32 - clampAlign c) ∣ c := by
  rw [clampAlign_eq]
  rcases Nat.eq_zero_or_pos (Normalizer.alignLoop c 32) with h | h
  · rw [if_pos (by omega)]
    exact Nat.dvd_of_mod_eq_zero (alignLoop_zero_dvd c 32 h 1 (by omega) (by omega))
  · obtain ⟨h2, _, _, hdvd⟩ := alignLoop_pos c 32 (by omega)
    rw [if_neg (by omega)]
    exact Nat.dvd_of_mod_eq_zero (hdvd _ le_rfl (alignLoop32_le c))

theorem clampAlign_exact (c : Nat) (h : 2 ≤ clampAlign c) :
    ¬(2 ^ (33 - clampAlign c) ∣ c) := by
  rw [clampAlign_eq] at h ⊢
  rcases Nat.eq_zero_or_pos (Normalizer.alignLoop c 32) with h0 | h0
  · rw [h0] at h; simp at h
  · obtain ⟨h2, hle, hne, _⟩ := alignLoop_pos c 32 (by omega)
    rw [if_neg (by omega)] at h ⊢
    intro hdvd
    apply hne
    have he : 32 - (Normalizer.alignLoop c 32 - 1) = 33 - Normalizer.alignLoop c 32 := by
      omega
    rw [he]
    exact Nat.mod_eq_zero_of_dvd hdvd

theorem clampAlign_eq_one_dvd (c : Nat) (h : clampAlign c = 1) : 2 ^ 31 ∣ c := by
  rw [clampAlign_eq] at h
  rcases Nat.eq_zero_or_pos (Normalizer.alignLoop c 32) with h0 | h0
  · exact Nat.dvd_of_mod_eq_zero (alignLoop_zero_dvd c 32 h0 1 (by omega) (by omega))
  · obtain ⟨h2, _, _, _⟩ := alignLoop_pos c 32 (by omega)
    rw [if_neg (by omega)] at h
    omega

theorem clampAlign_le_of_dvd (c k : Nat) (hk : k ≤ 31) (hd : 2 ^ k ∣ c) :
    clampAlign c ≤ 32 - k := by
  rw [clampAlign_eq]
  rcases Nat.eq_zero_or_pos (Normalizer.alignLoop c 32) with h0 | h0
  · rw [if_pos (by omega)]; omega
  · obtain ⟨h2, hle, hne, _⟩ := alignLoop_pos c 32 (by omega)
    rw [if_neg (by omega)]
    by_contra hgt
    exact hne (Nat.mod_eq_zero_of_dvd
      (Nat.dvd_trans (Nat.pow_dvd_pow 2 (by omega)) hd))

theorem clampAlign_of_exact (c v : Nat) (hv : v ≤ 30) (hd : 2 ^ v ∣ c)
    (hnd : ¬(2 ^ (v + 1) ∣ c)) : clampAlign c = 32 - v := by
  rw [clampAlign_eq]
  rcases Nat.eq_zero_or_pos (Normalizer.alignLoop c 32) with h0 | h0
  · exfalso
    apply hnd
    exact Nat.dvd_trans (Nat.pow_dvd_pow 2 (by omega))
      (Nat.dvd_of_mod_eq_zero (alignLoop_zero_dvd c 32 h0 1 (by omega) (by omega)))
  · obtain ⟨h2, hle, hne, hdvd⟩ := alignLoop_pos c 32 (by omega)
    rw [if_neg (by omega)]
    set a := Normalizer.alignLoop c 32 with ha
    have ha32 : a ≤ 32 := by rw [ha]; exact alignLoop32_le c
    have hd1 : 2 ^ (32 - a) ∣ c :=
      Nat.dvd_of_mod_eq_zero (hdvd _ le_rfl (alignLoop32_le c))
    by_contra hneq
    rcases Nat.lt_or_ge (32 - a) v with hlt | hge
    · -- 32 - a < v: then 2^(32-(a-1)) ∣ 2^v ∣ c, contradicting hne
      exact hne (Nat.mod_eq_zero_of_dvd
        (Nat.dvd_trans (Nat.pow_dvd_pow 2 (show 32 - (a - 1) ≤ v by omega)) hd))
    · -- 32 - a > v: then 2^(v+1) ∣ 2^(32-a) ∣ c, contradicting hnd
      have hvlt : v < 32 - a := by omega
      exact hnd (Nat.dvd_trans (Nat.pow_dvd_pow 2 (show v + 1 ≤ 32 - a by omega)) hd1)

end Greedy

namespace Greedy

theorem fitGo_ge (c e : Nat) : ∀ f m, m ≤ Normalizer.fitGo c e f m := by
  intro f
  induction f with
  | zero => intro m; rw [Normalizer.fitGo]
  | succ f ih =>
    intro m
    rw [Normalizer.fitGo]
    split
    · exact le_rfl
    · exact le_trans (by omega) (ih (m + 1))

theorem fitGo_le (c e : Nat) : ∀ f m, Normalizer.fitGo c e f m ≤ m + f := by
  intro f
  induction f with
  | zero => intro m; rw [Normalizer.fitGo]; omega
  | succ f ih =>
    intro m
    rw [Normalizer.fitGo]
    split
    · omega
    · exact le_trans (ih (m + 1)) (by omega)

theorem fitGo_fits (c e : Nat) (hce : c ≤ e) :
    ∀ f m, m + f = 32 → c + 2 ^ (32 - Normalizer.fitGo c e f m) - 1 ≤ e := by
  intro f
  induction f with
  | zero =>
    intro m hm
    rw [Normalizer.fitGo]
    have : 32 - m = 0 := by omega
    rw [this]
    omega
  | succ f ih =>
    intro m hm
    rw [Normalizer.fitGo]
    split
    · assumption
    · exact ih (m + 1) (by omega)

theorem fitGo_not_fit_below (c e : Nat) :
    ∀ f m j, m ≤ j → j < Normalizer.fitGo c e f m → ¬(c + 2 ^ (32 - j) - 1 ≤ e) := by
  intro f
  induction f with
  | zero =>
    intro m j h1 h2
    rw [Normalizer.fitGo] at h2
    omega
  | succ f ih =>
    intro m j h1 h2
    rw [Normalizer.fitGo] at h2
    by_cases hfit : c + 2 ^ (32 - m) - 1 ≤ e
    · rw [if_pos hfit] at h2; omega
    · rw [if_neg hfit] at h2
      rcases Nat.eq_or_lt_of_le h1 with he | hlt
      · subst he; exact hfit
      · exact ih (m + 1) j (by omega) h2

theorem chooseBits_eq (c e : Nat) :
    Normalizer.chooseBits c e = Normalizer.fitGo c e (32 - clampAlign c) (clampAlign c) := rfl

theorem chooseBits_ge_align (c e : Nat) : clampAlign c ≤ Normalizer.chooseBits c e := by
  rw [chooseBits_eq]; exact fitGo_ge c e _ _

theorem chooseBits_pos (c e : Nat) : 1 ≤ Normalizer.chooseBits c e :=
  le_trans (clampAlign_ge_one c) (chooseBits_ge_align c e)

theorem chooseBits_le32 (c e : Nat) : Normalizer.chooseBits c e ≤ 32 := by
  rw [chooseBits_eq]
  have h1 := clampAlign_le c
  have := fitGo_le c e (32 - clampAlign c) (clampAlign c)
  omega

theorem chooseBits_fits (c e : Nat) (hce : c ≤ e) :
    c + 2 ^ (32 - Normalizer.chooseBits c e) - 1 ≤ e := by
  rw [chooseBits_eq]
  exact fitGo_fits c e hce _ _ (by have := clampAlign_le c; omega)

theorem chooseBits_dvd (c e : Nat) : 2 ^ (32 - Normalizer.chooseBits c e) ∣ c :=
  Nat.dvd_trans
    (Nat.pow_dvd_pow 2 (by have := chooseBits_ge_align c e; omega))
    (clampAlign_dvd c)

theorem chooseBits_not_fit_prev (c e : Nat) (h : clampAlign c < Normalizer.chooseBits c e) :
    ¬(c + 2 ^ (33 - Normalizer.chooseBits c e) - 1 ≤ e) := by
  have h32 := chooseBits_le32 c e
  have hpos := chooseBits_pos c e
  have he : 33 - Normalizer.chooseBits c e = 32 - (Normalizer.chooseBits c e - 1) := by omega
  rw [he]
  rw [chooseBits_eq] at h ⊢
  exact fitGo_not_fit_below c e (32 - clampAlign c) (clampAlign c)
    (Normalizer.fitGo c e (32 - clampAlign c) (clampAlign c) - 1) (by omega) (by omega)

end Greedy

namespace Greedy

theorem expandGo_gt (e : Nat) (f c : Nat) (h : e < c) : Normalizer.expandGo e f c = [] := by
  cases f with
  | zero => rw [Normalizer.expandGo]
  | succ f => rw [Normalizer.expandGo, if_neg (by omega)]

theorem blockEnd_ge (p : Nat × Nat) : p.1 ≤ Spec.blockEnd p := by
  have : 0 < 2 ^ (32 - p.2) := Nat.pos_pow_of_pos _ (by omega)
  unfold Spec.blockEnd Spec.blockSize
  omega

theorem expandGo_chain (e : Nat) :
    ∀ f c, c ≤ e + 1 → e + 1 - c ≤ f → Spec.IsChain (Normalizer.expandGo e f c) c e := by
  intro f
  induction f with
  | zero =>
    intro c h1 h2
    rw [Normalizer.expandGo]
    have : c = e + 1 := by omega
    simpa [Spec.IsChain] using this
  | succ f ih =>
    intro c h1 h2
    rw [Normalizer.expandGo]
    by_cases hce : c ≤ e
    · rw [if_pos hce]
      have hfits := chooseBits_fits c e hce
      have hpos : 0 < 2 ^ (32 - Normalizer.chooseBits c e) := Nat.pos_pow_of_pos _ (by omega)
      refine ⟨rfl, ?_, ?_⟩
      · unfold Spec.blockEnd Spec.blockSize
        exact hfits
      · exact ih _ (by omega) (by omega)
    · rw [if_neg hce]
      have : c = e + 1 := by omega
      simpa [Spec.IsChain] using this

end Greedy

namespace Greedy

theorem chain_bounds :
    ∀ (L : List (Nat × Nat)) (c e : Nat), Spec.IsChain L c e →
      ∀ p ∈ L, c ≤ p.1 ∧ p.1 ≤ e ∧ Spec.blockEnd p ≤ e := by
  intro L
  induction L with
  | nil => intro c e _ p hp; simp at hp
  | cons q t ih =>
    intro c e hch p hp
    obtain ⟨hq1, hq2, ht⟩ := hch
    rcases List.mem_cons.mp hp with rfl | hpt
    · exact ⟨le_of_eq hq1.symm, by have := blockEnd_ge p; omega, hq2⟩
    · obtain ⟨h1, h2, h3⟩ := ih _ _ ht p hpt
      have hpos : 0 < Spec.blockSize q := Nat.pos_pow_of_pos _ (by omega)
      exact ⟨by omega, h2, h3⟩

theorem chain_cover :
    ∀ (L : List (Nat × Nat)) (c e : Nat), Spec.IsChain L c e →
      ∀ x, c ≤ x → x ≤ e → ∃ p ∈ L, Spec.MemBlock x p := by
  intro L
  induction L with
  | nil =>
    intro c e hch x h1 h2
    simp only [Spec.IsChain] at hch
    omega
  | cons q t ih =>
    intro c e hch x h1 h2
    obtain ⟨hq1, hq2, ht⟩ := hch
    by_cases hx : x ≤ Spec.blockEnd q
    · exact ⟨q, List.mem_cons_self q t, by rw [hq1]; exact h1, hx⟩
    · have hpos : 0 < Spec.blockSize q := Nat.pos_pow_of_pos _ (by omega)
      have hx2 : c + Spec.blockSize q ≤ x := by
        unfold Spec.blockEnd at hx
        omega
      obtain ⟨p, hp, hm⟩ := ih _ _ ht x hx2 h2
      exact ⟨p, List.mem_cons_of_mem q hp, hm⟩

theorem chain_mem_sub (L : List (Nat × Nat)) (c e : Nat) (hch : Spec.IsChain L c e) :
    ∀ p ∈ L, ∀ x, Spec.MemBlock x p → c ≤ x ∧ x ≤ e := by
  intro p hp x hm
  obtain ⟨h1, h2, h3⟩ := chain_bounds L c e hch p hp
  obtain ⟨hm1, hm2⟩ := hm
  exact ⟨le_trans h1 hm1, le_trans hm2 h3⟩

theorem chain_pairwise :
    ∀ (L : List (Nat × Nat)) (c e : Nat), Spec.IsChain L c e →
      L.Pairwise fun a b => Spec.blockEnd a < b.1 := by
  intro L
  induction L with
  | nil => intro c e _; exact List.Pairwise.nil
  | cons q t ih =>
    intro c e hch
    obtain ⟨hq1, hq2, ht⟩ := hch
    refine List.Pairwise.cons ?_ (ih _ _ ht)
    intro b hb
    have hb1 := (chain_bounds t _ e ht b hb).1
    have hpos : 0 < Spec.blockSize q := Nat.pos_pow_of_pos _ (by omega)
    unfold Spec.blockEnd
    subst hq1
    omega

theorem chain_nodup (L : List (Nat × Nat)) (c e : Nat) (hch : Spec.IsChain L c e) :
    L.Nodup := by
  refine (chain_pairwise L c e hch).imp ?_
  intro a b hab
  intro heq
  subst heq
  have := blockEnd_ge a
  omega

theorem chain_disjoint (L : List (Nat × Nat)) (c e : Nat) (hch : Spec.IsChain L c e) :
    ∀ p ∈ L, ∀ q ∈ L, p ≠ q → ∀ x, ¬(Spec.MemBlock x p ∧ Spec.MemBlock x q) := by
  have hpw : L.Pairwise fun a b => ∀ x, ¬(Spec.MemBlock x a ∧ Spec.MemBlock x b) := by
    refine (chain_pairwise L c e hch).imp ?_
    intro a b hab x hx
    obtain ⟨⟨ha1, ha2⟩, ⟨hb1, hb2⟩⟩ := hx
    omega
  have hsymm : Symmetric fun a b : Nat × Nat => ∀ x, ¬(Spec.MemBlock x a ∧ Spec.MemBlock x b) :=
    fun a b h x hx => h x ⟨hx.2, hx.1⟩
  intro p hp q hq hne
  exact hpw.forall hsymm hp hq hne

end Greedy

namespace Greedy

theorem two_pow_succ_sub (r : Nat) (h1 : 1 ≤ r) (h32 : r ≤ 32) :
    2 * 2 ^ (32 - r) = 2 ^ (33 - r) := by
  have he : 33 - r = (32 - r) + 1 := by omega
  rw [he, Nat.pow_succ]
  ring

theorem expandGo_shape (e : Nat) :
    ∀ f c p, p ∈ Normalizer.expandGo e f c →
      ∃ c0, c ≤ c0 ∧ c0 ≤ e ∧ p = (c0, Normalizer.chooseBits c0 e) := by
  intro f
  induction f with
  | zero => intro c p hp; rw [Normalizer.expandGo] at hp; simp at hp
  | succ f ih =>
    intro c p hp
    rw [Normalizer.expandGo] at hp
    by_cases hce : c ≤ e
    · rw [if_pos hce] at hp
      rcases List.mem_cons.mp hp with rfl | hpt
      · exact ⟨c, le_rfl, hce, rfl⟩
      · obtain ⟨c0, h1, h2, h3⟩ := ih _ p hpt
        have : 0 < 2 ^ (32 - Normalizer.chooseBits c e) := Nat.pos_pow_of_pos _ (by omega)
        exact ⟨c0, by omega, h2, h3⟩
    · rw [if_neg hce] at hp; simp at hp

theorem expandGo_validBlock (e : Nat) (he : e < 2 ^ 32) (f c : Nat) (p : Nat × Nat)
    (hp : p ∈ Normalizer.expandGo e f c) : Spec.ValidBlock p ∧ 1 ≤ p.2 := by
  obtain ⟨c0, _, hc0e, rfl⟩ := expandGo_shape e f c p hp
  refine ⟨⟨chooseBits_le32 c0 e, ?_, by omega⟩, chooseBits_pos c0 e⟩
  exact Nat.mod_eq_zero_of_dvd (chooseBits_dvd c0 e)

/-- The exact-alignment mod fact: if `2^v` divides `c` but `2^(v+1)` does
not, then `c mod 2^(v+1) = 2^v`. -/
theorem mod_double_of_exact (c v : Nat) (hd : 2 ^ v ∣ c) (hnd : ¬(2 ^ (v + 1) ∣ c)) :
    c % (2 * 2 ^ v) = 2 ^ v := by
  obtain ⟨q, hq⟩ := hd
  have hqodd : q % 2 = 1 := by
    rcases Nat.mod_two_eq_zero_or_one q with h | h
    · exfalso
      apply hnd
      obtain ⟨k, hk⟩ := Nat.dvd_of_mod_eq_zero h
      refine ⟨k, ?_⟩
      rw [hq, hk, Nat.pow_succ]
      ring
    · exact h
  rw [hq, Nat.mul_comm (2 : Nat) (2 ^ v), Nat.mul_mod_mul_left, hqodd, Nat.mul_one]

theorem parent_outside_of_good (s e c : Nat) (hsc : s ≤ c) (hce : c ≤ e) (he : e < 2 ^ 32)
    (hex : ¬(s = 0 ∧ e = 2 ^ 32 - 1)) (hg : GOODAt s e c) :
    Spec.ParentOutside s e (c, Normalizer.chooseBits c e) := by
  have hrA := chooseBits_ge_align c e
  have hr1 := chooseBits_pos c e
  have hr32 := chooseBits_le32 c e
  have hA1 := clampAlign_ge_one c
  have hA32 := clampAlign_le c
  have hfits := chooseBits_fits c e hce
  unfold GOODAt alignStar at hg
  unfold Spec.ParentOutside Spec.parentLo
  have hbs : Spec.blockSize (c, Normalizer.chooseBits c e) =
      2 ^ (32 - Normalizer.chooseBits c e) := rfl
  rw [hbs]
  rcases Nat.lt_or_ge (clampAlign c) (Normalizer.chooseBits c e) with hlt | hge
  · -- fit-limited block: the parent starts at `c` and would overflow `e`
    have h2sz : 2 ^ (33 - Normalizer.chooseBits c e) ∣ c :=
      Nat.dvd_trans (Nat.pow_dvd_pow 2 (by omega : 33 - Normalizer.chooseBits c e ≤ 32 - clampAlign c))
        (clampAlign_dvd c)
    have hnf := chooseBits_not_fit_prev c e hlt
    have h2e := two_pow_succ_sub (Normalizer.chooseBits c e) hr1 hr32
    have hmod : c % (2 * 2 ^ (32 - Normalizer.chooseBits c e)) = 0 := by
      rw [h2e]
      exact Nat.mod_eq_zero_of_dvd h2sz
    right
    rw [hmod]
    omega
  · -- alignment-limited block: `r = clampAlign c`
    have hreq : Normalizer.chooseBits c e = clampAlign c := by omega
    rw [hreq] at hfits ⊢
    by_cases hA2 : 2 ≤ clampAlign c
    · -- exact alignment: the parent extends `2^(32-A)` to the left of `c`
      have hex2 : ¬(2 ^ (33 - clampAlign c) ∣ c) := clampAlign_exact c hA2
      have h2e := two_pow_succ_sub (clampAlign c) (by omega) (by omega)
      have hv : 32 - clampAlign c + 1 = 33 - clampAlign c := by omega
      have hmod2 : c % (2 * 2 ^ (32 - clampAlign c)) = 2 ^ (32 - clampAlign c) := by
        apply mod_double_of_exact c (32 - clampAlign c) (clampAlign_dvd c)
        rw [hv]
        exact hex2
      have hg1 : c - s < 2 ^ (32 - clampAlign c) := by
        rcases hg with h | h
        · exact h
        · exfalso; omega
      have hcs : 2 ^ (32 - clampAlign c) ≤ c := by
        have := Nat.mod_le c (2 * 2 ^ (32 - clampAlign c))
        omega
      left
      rw [hmod2]
      omega
    · -- clamped alignment: `A = 1`, so `c ∈ {0, 2^31}` and the parent is the
      -- whole address space
      have hA : clampAlign c = 1 := by omega
      have hdvd31 : 2 ^ 31 ∣ c := clampAlign_eq_one_dvd c hA
      rw [hA] at hfits hg ⊢
      have hc2 : c = 0 ∨ c = 2 ^ 31 := by
        obtain ⟨k, hk⟩ := hdvd31
        have hk2 : k < 2 := by
          by_contra hk2
          have : 2 ^ 31 * 2 ≤ 2 ^ 31 * k := Nat.mul_le_mul_left _ (by omega)
          omega
        interval_cases k <;> omega
      have hmod : c % (2 * 2 ^ (32 - 1)) = c := Nat.mod_eq_of_lt (by omega)
      rcases hc2 with hc0 | hc31
      · -- c = 0, hence s = 0 and the exclusion of the full range applies
        have hs0 : s = 0 := by omega
        right
        rw [hmod]
        omega
      · -- c = 2^31: GOOD forces s > 0, and the parent starts at 0
        have hg1 : c - s < 2 ^ (32 - 1) := by
          rcases hg with h | h
          · exact h
          · exfalso; omega
        left
        rw [hmod]
        omega

end Greedy

namespace Greedy

theorem alignStar_eq (c : Nat) : alignStar c = 2 ^ (32 - clampAlign c) := rfl

theorem good_step (s e c : Nat) (hsc : s ≤ c) (hce : c ≤ e) (he : e < 2 ^ 32)
    (hex : ¬(s = 0 ∧ e = 2 ^ 32 - 1)) (hg : GOODAt s e c) :
    GOODAt s e (c + 2 ^ (32 - Normalizer.chooseBits c e)) := by
  have hrA := chooseBits_ge_align c e
  have hr1 := chooseBits_pos c e
  have hr32 := chooseBits_le32 c e
  have hA1 := clampAlign_ge_one c
  have hA32 := clampAlign_le c
  have hfits := chooseBits_fits c e hce
  by_cases hnext : c + 2 ^ (32 - Normalizer.chooseBits c e) ≤ e
  case neg =>
    -- past the end of the range: the remaining length is 0
    right
    rw [alignStar_eq]
    have : 0 < 2 ^ (32 - clampAlign (c + 2 ^ (32 - Normalizer.chooseBits c e))) :=
      Nat.pos_pow_of_pos _ (by omega)
    omega
  case pos =>
  unfold GOODAt alignStar at hg
  rcases Nat.lt_or_ge (clampAlign c) (Normalizer.chooseBits c e) with hlt | hge
  · -- fit-limited step: the new position has exact alignment `2^(32-r)`
    -- and the remaining length drops below it
    have hr2 : 2 ≤ Normalizer.chooseBits c e := by omega
    have h2e := two_pow_succ_sub (Normalizer.chooseBits c e) hr1 hr32
    have h2sz : 2 ^ (32 - Normalizer.chooseBits c e + 1) ∣ c := by
      refine Nat.dvd_trans (Nat.pow_dvd_pow 2 ?_) (clampAlign_dvd c)
      omega
    have hd : 2 ^ (32 - Normalizer.chooseBits c e) ∣
        c + 2 ^ (32 - Normalizer.chooseBits c e) :=
      Nat.dvd_add (Nat.dvd_trans (Nat.pow_dvd_pow 2 (by omega)) h2sz) dvd_rfl
    have hp2 : 2 ^ (32 - Normalizer.chooseBits c e + 1) =
        2 ^ (32 - Normalizer.chooseBits c e) * 2 := Nat.pow_succ 2 _
    have hpos : 0 < 2 ^ (32 - Normalizer.chooseBits c e) := Nat.pos_pow_of_pos _ (by omega)
    have hnd : ¬(2 ^ (32 - Normalizer.chooseBits c e + 1) ∣
        c + 2 ^ (32 - Normalizer.chooseBits c e)) := by
      intro hdd
      have hm : (c + 2 ^ (32 - Normalizer.chooseBits c e)) %
          2 ^ (32 - Normalizer.chooseBits c e + 1) = 2 ^ (32 - Normalizer.chooseBits c e) := by
        rw [Nat.add_mod, Nat.mod_eq_zero_of_dvd h2sz, Nat.zero_add, Nat.mod_mod_of_dvd]
        · exact Nat.mod_eq_of_lt (by omega)
        · exact dvd_rfl
      rw [Nat.mod_eq_zero_of_dvd hdd] at hm
      omega
    have hclamp : clampAlign (c + 2 ^ (32 - Normalizer.chooseBits c e)) =
        32 - (32 - Normalizer.chooseBits c e) :=
      clampAlign_of_exact _ _ (by omega) hd hnd
    have hnf := chooseBits_not_fit_prev c e hlt
    right
    rw [alignStar_eq, hclamp]
    have hee : 32 - (32 - (32 - Normalizer.chooseBits c e)) =
        32 - Normalizer.chooseBits c e := by omega
    rw [hee]
    have h33 : 2 ^ (33 - Normalizer.chooseBits c e) =
        2 * 2 ^ (32 - Normalizer.chooseBits c e) := h2e.symm
    rw [h33] at hnf
    omega
  · -- alignment-limited step
    have hreq : Normalizer.chooseBits c e = clampAlign c := by omega
    rw [hreq] at hfits hnext ⊢
    by_cases hA2 : 2 ≤ clampAlign c
    · -- exact alignment doubles at the new position
      have hex2 : ¬(2 ^ (33 - clampAlign c) ∣ c) := clampAlign_exact c hA2
      have hv : 32 - clampAlign c + 1 = 33 - clampAlign c := by omega
      have hmod2 : c % (2 * 2 ^ (32 - clampAlign c)) = 2 ^ (32 - clampAlign c) := by
        apply mod_double_of_exact c (32 - clampAlign c) (clampAlign_dvd c)
        rw [hv]
        exact hex2
      have hpos : 0 < 2 ^ (32 - clampAlign c) := Nat.pos_pow_of_pos _ (by omega)
      have hdnext : 2 ^ (32 - clampAlign c + 1) ∣ c + 2 ^ (32 - clampAlign c) := by
        apply Nat.dvd_of_mod_eq_zero
        have h2p : 2 ^ (32 - clampAlign c + 1) = 2 * 2 ^ (32 - clampAlign c) := by
          rw [Nat.pow_succ]; ring
        rw [h2p, Nat.add_mod, hmod2, Nat.mod_eq_of_lt (show 2 ^ (32 - clampAlign c) < 2 * 2 ^ (32 - clampAlign c) by omega)]
        have hs2 : 2 ^ (32 - clampAlign c) + 2 ^ (32 - clampAlign c) =
            2 * 2 ^ (32 - clampAlign c) := by ring
        rw [hs2, Nat.mod_self]
      have hclampnext : clampAlign (c + 2 ^ (32 - clampAlign c)) ≤
          32 - (32 - clampAlign c + 1) :=
        clampAlign_le_of_dvd _ _ (by omega) hdnext
      have halign : 2 ^ (32 - clampAlign c + 1) ≤
          2 ^ (32 - clampAlign (c + 2 ^ (32 - clampAlign c))) :=
        Nat.pow_le_pow_right (by omega) (by omega)
      have hg1 : c - s < 2 ^ (32 - clampAlign c) := by
        rcases hg with h | h
        · exact h
        · exfalso; omega
      left
      rw [alignStar_eq]
      have h2p : 2 ^ (32 - clampAlign c + 1) = 2 * 2 ^ (32 - clampAlign c) := by
        rw [Nat.pow_succ]; ring
      omega
    · -- clamped alignment: only `c = 0` can step and stay in range
      have hA : clampAlign c = 1 := by omega
      have hdvd31 : 2 ^ 31 ∣ c := clampAlign_eq_one_dvd c hA
      rw [hA] at hfits hnext ⊢
      have hc0 : c = 0 := by
        obtain ⟨k, hk⟩ := hdvd31
        have hk2 : k < 2 := by
          by_contra hk2
          have : 2 ^ 31 * 2 ≤ 2 ^ 31 * k := Nat.mul_le_mul_left _ (by omega)
          omega
        interval_cases k
        · omega
        · exfalso; omega
      have hs0 : s = 0 := by omega
      subst hc0
      have hdnext : 2 ^ 31 ∣ 0 + 2 ^ (32 - 1) := by norm_num
      have hclampnext : clampAlign (0 + 2 ^ (32 - 1)) ≤ 32 - 31 :=
        clampAlign_le_of_dvd _ _ (by omega) hdnext
      have hclamp1 : clampAlign (0 + 2 ^ (32 - 1)) = 1 := by
        have := clampAlign_ge_one (0 + 2 ^ (32 - 1))
        omega
      right
      rw [alignStar_eq, hclamp1]
      omega

end Greedy

namespace Greedy

theorem good_base (s e : Nat) : GOODAt s e s := by
  left
  rw [alignStar_eq]
  have : 0 < 2 ^ (32 - clampAlign s) := Nat.pos_pow_of_pos _ (by omega)
  omega

theorem expandGo_maximal (s e : Nat) (he : e < 2 ^ 32) (hex : ¬(s = 0 ∧ e = 2 ^ 32 - 1)) :
    ∀ f c, s ≤ c → GOODAt s e c → ∀ p ∈ Normalizer.expandGo e f c,
      Spec.ParentOutside s e p := by
  intro f
  induction f with
  | zero => intro c _ _ p hp; rw [Normalizer.expandGo] at hp; simp at hp
  | succ f ih =>
    intro c hsc hg p hp
    rw [Normalizer.expandGo] at hp
    by_cases hce : c ≤ e
    · rw [if_pos hce] at hp
      rcases List.mem_cons.mp hp with rfl | hpt
      · exact parent_outside_of_good s e c hsc hce he hex hg
      · exact ih _ (le_trans hsc (Nat.le_add_right _ _))
          (good_step s e c hsc hce he hex hg) p hpt
    · rw [if_neg hce] at hp; simp at hp

/-- Dyadic nesting: a valid block that meets a valid block of equal or
larger size is contained in it. -/
theorem dyadic_nesting (p q : Nat × Nat) (hp : Spec.ValidBlock p) (hq : Spec.ValidBlock q)
    (hsz : p.2 ≤ q.2) (x : Nat) (hxp : Spec.MemBlock x p) (hxq : Spec.MemBlock x q) :
    ∀ y, Spec.MemBlock y q → Spec.MemBlock y p := by
  obtain ⟨hp32, hpal, hplt⟩ := hp
  obtain ⟨hq32, hqal, hqlt⟩ := hq
  unfold Spec.blockSize at hpal hqal
  obtain ⟨hxp1, hxp2⟩ := hxp
  obtain ⟨hxq1, hxq2⟩ := hxq
  unfold Spec.blockEnd Spec.blockSize at hxp2 hxq2
  have hLpos : 0 < 2 ^ (32 - p.2) := Nat.pos_pow_of_pos _ (by omega)
  have hLqos : 0 < 2 ^ (32 - q.2) := Nat.pos_pow_of_pos _ (by omega)
  have hdLL : 2 ^ (32 - q.2) ∣ 2 ^ (32 - p.2) := Nat.pow_dvd_pow 2 (by omega)
  -- p.1 is the largest multiple of Lp not exceeding x, and similarly for q
  have hpdiv : x / 2 ^ (32 - p.2) = p.1 / 2 ^ (32 - p.2) := by
    obtain ⟨a, ha⟩ := Nat.dvd_of_mod_eq_zero hpal
    have h1 : x / 2 ^ (32 - p.2) = a := by
      apply Nat.div_eq_of_lt_le
      · rw [Nat.mul_comm]; omega
      · rw [Nat.add_mul, Nat.one_mul, Nat.mul_comm]; omega
    have h2 : p.1 / 2 ^ (32 - p.2) = a := by
      rw [ha, Nat.mul_comm]
      exact Nat.mul_div_cancel a hLpos
    rw [h1, h2]
  have hqdiv : x / 2 ^ (32 - q.2) = q.1 / 2 ^ (32 - q.2) := by
    obtain ⟨a, ha⟩ := Nat.dvd_of_mod_eq_zero hqal
    have h1 : x / 2 ^ (32 - q.2) = a := by
      apply Nat.div_eq_of_lt_le
      · rw [Nat.mul_comm]; omega
      · rw [Nat.add_mul, Nat.one_mul, Nat.mul_comm]; omega
    have h2 : q.1 / 2 ^ (32 - q.2) = a := by
      rw [ha, Nat.mul_comm]
      exact Nat.mul_div_cancel a hLqos
    rw [h1, h2]
  have hpeq : p.1 = x / 2 ^ (32 - p.2) * 2 ^ (32 - p.2) := by
    rw [hpdiv]
    exact (Nat.div_mul_cancel (Nat.dvd_of_mod_eq_zero hpal)).symm
  have hqeq : q.1 = x / 2 ^ (32 - q.2) * 2 ^ (32 - q.2) := by
    rw [hqdiv]
    exact (Nat.div_mul_cancel (Nat.dvd_of_mod_eq_zero hqal)).symm
  -- rounding down to the coarser grid gives the smaller value
  have hlow : p.1 ≤ q.1 := by
    rw [hpeq, hqeq]
    obtain ⟨t, ht⟩ : 2 ^ (32 - q.2) ∣ x / 2 ^ (32 - p.2) * 2 ^ (32 - p.2) :=
      Nat.dvd_trans hdLL (dvd_mul_left _ _)
    rw [ht]
    have htle : t ≤ x / 2 ^ (32 - q.2) := by
      rw [Nat.le_div_iff_mul_le hLqos, Nat.mul_comm]
      calc 2 ^ (32 - q.2) * t = x / 2 ^ (32 - p.2) * 2 ^ (32 - p.2) := ht.symm
        _ ≤ x := Nat.div_mul_le_self x _
    calc 2 ^ (32 - q.2) * t ≤ 2 ^ (32 - q.2) * (x / 2 ^ (32 - q.2)) :=
          Nat.mul_le_mul_left _ htle
      _ = x / 2 ^ (32 - q.2) * 2 ^ (32 - q.2) := Nat.mul_comm _ _
  -- and the coarser upper boundary is at least the finer one
  have hhigh : q.1 + 2 ^ (32 - q.2) ≤ p.1 + 2 ^ (32 - p.2) := by
    obtain ⟨u, hu⟩ : 2 ^ (32 - q.2) ∣ p.1 + 2 ^ (32 - p.2) := by
      refine Nat.dvd_add ?_ hdLL
      exact Nat.dvd_trans hdLL (Nat.dvd_of_mod_eq_zero hpal)
    have hux : x < 2 ^ (32 - q.2) * u := by rw [← hu]; omega
    have huq : x / 2 ^ (32 - q.2) + 1 ≤ u := by
      by_contra hcon
      have hle : u ≤ x / 2 ^ (32 - q.2) := by omega
      have : 2 ^ (32 - q.2) * u ≤ 2 ^ (32 - q.2) * (x / 2 ^ (32 - q.2)) :=
        Nat.mul_le_mul_left _ hle
      have h2 : 2 ^ (32 - q.2) * (x / 2 ^ (32 - q.2)) ≤ x := by
        rw [Nat.mul_comm]; exact Nat.div_mul_le_self x _
      omega
    calc q.1 + 2 ^ (32 - q.2) = (x / 2 ^ (32 - q.2) + 1) * 2 ^ (32 - q.2) := by
          rw [hqeq]; ring
      _ ≤ u * 2 ^ (32 - q.2) := Nat.mul_le_mul_right _ huq
      _ = 2 ^ (32 - q.2) * u := Nat.mul_comm _ _
      _ = p.1 + 2 ^ (32 - p.2) := hu.symm
  intro y hy
  obtain ⟨hy1, hy2⟩ := hy
  unfold Spec.blockEnd Spec.blockSize at hy2
  refine ⟨by omega, ?_⟩
  unfold Spec.blockEnd Spec.blockSize
  omega

/-- The dyadic parent of `p` as a block. -/
theorem parent_valid (p : Nat × Nat) (hv : Spec.ValidBlock p) (h1 : 1 ≤ p.2) :
    Spec.ValidBlock (Spec.parentLo p, p.2 - 1) ∧
      2 * Spec.blockSize p = Spec.blockSize (Spec.parentLo p, p.2 - 1) := by
  obtain ⟨h32, hal, hlt⟩ := hv
  have hbs : Spec.blockSize (Spec.parentLo p, p.2 - 1) = 2 ^ (32 - (p.2 - 1)) := rfl
  have h2e : 2 * Spec.blockSize p = 2 ^ (32 - (p.2 - 1)) := by
    unfold Spec.blockSize
    have he : 32 - (p.2 - 1) = (32 - p.2) + 1 := by omega
    rw [he, Nat.pow_succ]
    ring
  have hdo : 2 * Spec.blockSize p ∣ Spec.parentLo p := by
    unfold Spec.parentLo
    have hmd := Nat.div_add_mod p.1 (2 * Spec.blockSize p)
    have : p.1 - p.1 % (2 * Spec.blockSize p) =
        2 * Spec.blockSize p * (p.1 / (2 * Spec.blockSize p)) := by omega
    rw [this]
    exact Dvd.intro _ rfl
  refine ⟨⟨by omega, ?_, ?_⟩, h2e⟩
  · rw [hbs, ← h2e]
    exact Nat.mod_eq_zero_of_dvd hdo
  · unfold Spec.parentLo
    omega

theorem mem_parent_self (p : Nat × Nat) (hp2 : 1 ≤ p.2) (hp32 : p.2 ≤ 32) :
    Spec.MemBlock p.1 (Spec.parentLo p, p.2 - 1) := by
  have hbspos : 0 < Spec.blockSize p := Nat.pos_pow_of_pos _ (by omega)
  have hmlt : p.1 % (2 * Spec.blockSize p) < 2 * Spec.blockSize p := Nat.mod_lt _ (by omega)
  have hmle : p.1 % (2 * Spec.blockSize p) ≤ p.1 := Nat.mod_le _ _
  have hbs : 2 * Spec.blockSize p ≤ Spec.blockSize (Spec.parentLo p, p.2 - 1) := by
    unfold Spec.blockSize
    have h1 : (32 - p.2) + 1 ≤ 32 - (p.2 - 1) := by omega
    calc 2 * 2 ^ (32 - p.2) = 2 ^ ((32 - p.2) + 1) := by rw [Nat.pow_succ]; ring
      _ ≤ 2 ^ (32 - (p.2 - 1)) := Nat.pow_le_pow_right (by omega) h1
  have hplo : Spec.parentLo p = p.1 - p.1 % (2 * Spec.blockSize p) := rfl
  refine ⟨Nat.sub_le _ _, ?_⟩
  show p.1 ≤ Spec.blockEnd (Spec.parentLo p, p.2 - 1)
  have hbe : Spec.blockEnd (Spec.parentLo p, p.2 - 1) =
      Spec.parentLo p + Spec.blockSize (Spec.parentLo p, p.2 - 1) - 1 := rfl
  rw [hbe]
  omega

end Greedy

namespace Greedy

theorem mem_self_block (g : Nat × Nat) : Spec.MemBlock g.1 g := ⟨le_rfl, blockEnd_ge g⟩

/-- A cover block that contains the base address of a maximal block `g`
lies entirely inside `g`. -/
theorem cover_block_sub (s e : Nat) (g q : Nat × Nat)
    (hgv : Spec.ValidBlock g) (hg2 : 1 ≤ g.2) (hqv : Spec.ValidBlock q)
    (hmax : Spec.ParentOutside s e g)
    (hqin : ∀ y, Spec.MemBlock y q → s ≤ y ∧ y ≤ e)
    (hmem : Spec.MemBlock g.1 q) :
    ∀ y, Spec.MemBlock y q → Spec.MemBlock y g := by
  rcases le_or_lt g.2 q.2 with hsz | hsz
  · exact dyadic_nesting g q hgv hqv hsz g.1 (mem_self_block g) hmem
  · exfalso
    obtain ⟨hpv, hpbs⟩ := parent_valid g hgv hg2
    have hmemp := mem_parent_self g hg2 hgv.1
    have hsub : ∀ y, Spec.MemBlock y (Spec.parentLo g, g.2 - 1) → Spec.MemBlock y q :=
      dyadic_nesting q (Spec.parentLo g, g.2 - 1) hqv hpv (by omega) g.1 hmem hmemp
    have hlo : s ≤ Spec.parentLo g :=
      (hqin _ (hsub _ (mem_self_block (Spec.parentLo g, g.2 - 1)))).1
    have hhi : Spec.blockEnd (Spec.parentLo g, g.2 - 1) ≤ e := by
      refine (hqin _ (hsub _ ?_)).2
      exact ⟨blockEnd_ge _, le_rfl⟩
    have hbe : Spec.blockEnd (Spec.parentLo g, g.2 - 1) =
        Spec.parentLo g + Spec.blockSize (Spec.parentLo g, g.2 - 1) - 1 := rfl
    rcases hmax with h | h
    · omega
    · rw [hbe, ← hpbs] at hhi
      omega

/-- `expandIPv4RangePairs` unfolded on an in-order range. -/
theorem pairs_eq (s e : Nat) (h : s ≤ e) :
    Normalizer.expandIPv4RangePairs s e = Normalizer.expandGo e (e + 1 - s) s := by
  unfold Normalizer.expandIPv4RangePairs
  rw [if_neg (by omega)]

/-- Minimality: any exact cover of `[s, e]` by valid CIDR blocks has at
least as many blocks as the greedy splitter emits — provided the range is
not the full address space. -/
theorem expandPairs_min (s e : Nat) (h1 : s ≤ e) (he : e < 2 ^ 32)
    (hex : ¬(s = 0 ∧ e = 2 ^ 32 - 1))
    (C : List (Nat × Nat)) (hC : Spec.ExactCover C s e) :
    (Normalizer.expandIPv4RangePairs s e).length ≤ C.length := by
  classical
  obtain ⟨hCv, hCc⟩ := hC
  rw [pairs_eq s e h1]
  set G := Normalizer.expandGo e (e + 1 - s) s with hG
  have hchain : Spec.IsChain G s e := expandGo_chain e _ s (by omega) le_rfl
  have hmax : ∀ p ∈ G, Spec.ParentOutside s e p :=
    expandGo_maximal s e he hex _ s le_rfl (good_base s e)
  have hnodup : G.Nodup := chain_nodup G s e hchain
  have hvalid : ∀ p ∈ G, Spec.ValidBlock p ∧ 1 ≤ p.2 :=
    fun p hp => expandGo_validBlock e he _ s p hp
  have hchoose : ∀ g, g ∈ G → ∃ cb, cb ∈ C ∧ Spec.MemBlock g.1 cb := by
    intro g hg
    obtain ⟨hb1, hb2, _⟩ := chain_bounds G s e hchain g hg
    obtain ⟨cb, hcb, hm⟩ := (hCc g.1).mpr ⟨hb1, hb2⟩
    exact ⟨cb, hcb, hm⟩
  let f : Nat × Nat → Nat × Nat := fun g => if h : g ∈ G then (hchoose g h).choose else g
  have hfC : ∀ g ∈ G, f g ∈ C := by
    intro g hg
    simp only [f, dif_pos hg]
    exact (hchoose g hg).choose_spec.1
  have hfsub : ∀ g ∈ G, ∀ y, Spec.MemBlock y (f g) → Spec.MemBlock y g := by
    intro g hg
    simp only [f, dif_pos hg]
    obtain ⟨hcb, hm⟩ := (hchoose g hg).choose_spec
    refine cover_block_sub s e g _ (hvalid g hg).1 (hvalid g hg).2 (hCv _ hcb)
      (hmax g hg) ?_ hm
    intro y hy
    exact (hCc y).mp ⟨_, hcb, hy⟩
  have hinj : Set.InjOn f G.toFinset := by
    intro g hg g' hg' hfe
    simp only [Finset.mem_coe, List.mem_toFinset] at hg hg'
    by_contra hne
    have hd := chain_disjoint G s e hchain g hg g' hg' hne (f g).1
    apply hd
    constructor
    · exact hfsub g hg _ (mem_self_block (f g))
    · rw [hfe]
      exact hfsub g' hg' _ (mem_self_block (f g'))
  calc G.length = G.toFinset.card := (List.toFinset_card_of_nodup hnodup).symm
    _ ≤ C.toFinset.card := by
        refine Finset.card_le_card_of_injOn f ?_ hinj
        intro g hg
        rw [List.mem_toFinset] at hg ⊢
        exact hfC g hg
    _ ≤ C.length := C.toFinset_card_le

end Greedy

namespace Greedy

theorem length_eq_sum_count (l : List Nat) (n : Nat) (h : ∀ x ∈ l, x < n) :
    l.length = ∑ m in Finset.range n, l.count m := by
  induction l with
  | nil => simp
  | cons a t ih =>
    have ha : a < n := h a (List.mem_cons_self a t)
    have iht := ih fun x hx => h x (List.mem_cons_of_mem a hx)
    simp only [List.count_cons, List.length_cons]
    rw [Finset.sum_add_distrib, ← iht]
    congr 1
    simp only [beq_iff_eq]
    rw [Finset.sum_ite_eq (Finset.range n) a fun _ => 1]
    simp [Finset.mem_range.mpr ha]

theorem count_le_two (s e : Nat) (h1 : s ≤ e) (he : e < 2 ^ 32)
    (hex : ¬(s = 0 ∧ e = 2 ^ 32 - 1)) (m : Nat) :
    ((Normalizer.expandIPv4RangePairs s e).map Prod.snd).count m ≤ 2 := by
  by_contra hcon
  rw [pairs_eq s e h1] at hcon
  set G := Normalizer.expandGo e (e + 1 - s) s with hG
  have hchain : Spec.IsChain G s e := expandGo_chain e _ s (by omega) le_rfl
  have hmax : ∀ p ∈ G, Spec.ParentOutside s e p :=
    expandGo_maximal s e he hex _ s le_rfl (good_base s e)
  have h3 : 3 ≤ (G.map Prod.snd).count m := by omega
  have hsub := List.le_count_iff_replicate_sublist.mp h3
  obtain ⟨l3, hl3, hmap⟩ := List.sublist_map_iff.mp hsub
  have hlen : l3.length = 3 := by
    have := congrArg List.length hmap
    simpa using this.symm
  rcases l3 with _ | ⟨b1, l3⟩
  · simp at hlen
  rcases l3 with _ | ⟨b2, l3⟩
  · simp at hlen
  rcases l3 with _ | ⟨b3, l3⟩
  · simp at hlen
  rcases l3 with _ | ⟨b4, l3⟩
  swap
  · simp at hlen
  have hms : b1.2 = m ∧ b2.2 = m ∧ b3.2 = m := by
    have := hmap
    simp only [List.map_cons, List.map_nil, List.replicate] at this
    exact ⟨(List.cons_eq_cons.mp this).1.symm,
      (List.cons_eq_cons.mp (List.cons_eq_cons.mp this).2).1.symm,
      (List.cons_eq_cons.mp (List.cons_eq_cons.mp (List.cons_eq_cons.mp this).2).2).1.symm⟩
  have hpw := (chain_pairwise G s e hchain).sublist hl3
  have r12 : Spec.blockEnd b1 < b2.1 := by
    rcases hpw with _ | ⟨hhead, _⟩
    exact hhead b2 (List.mem_cons_self _ _)
  have r23 : Spec.blockEnd b2 < b3.1 := by
    rcases hpw with _ | ⟨_, htail⟩
    rcases htail with _ | ⟨hhead2, _⟩
    exact hhead2 b3 (List.mem_cons_self _ _)
  have hb1G : b1 ∈ G := hl3.subset (List.mem_cons_self _ _)
  have hb2G : b2 ∈ G := hl3.subset (List.mem_cons_of_mem _ (List.mem_cons_self _ _))
  have hb3G : b3 ∈ G :=
    hl3.subset (List.mem_cons_of_mem _ (List.mem_cons_of_mem _ (List.mem_cons_self _ _)))
  obtain ⟨hs1, _, _⟩ := chain_bounds G s e hchain b1 hb1G
  obtain ⟨_, _, he3⟩ := chain_bounds G s e hchain b3 hb3G
  obtain ⟨⟨h232, hal2, _⟩, _⟩ := expandGo_validBlock e he _ s b2 hb2G
  -- all three blocks share the same size
  have hbsz : Spec.blockSize b1 = Spec.blockSize b2 ∧ Spec.blockSize b3 = Spec.blockSize b2 := by
    unfold Spec.blockSize
    rw [hms.1, hms.2.1, hms.2.2]
    exact ⟨rfl, rfl⟩
  have hLpos : 0 < Spec.blockSize b2 := Nat.pos_pow_of_pos _ (by omega)
  -- b2's offset in its parent is 0 or one block size
  have hmod2 : Spec.blockSize b2 ∣ b2.1 % (2 * Spec.blockSize b2) := by
    rw [Nat.dvd_mod_iff (dvd_mul_left (Spec.blockSize b2) 2)]
    exact Nat.dvd_of_mod_eq_zero hal2
  have hmlt : b2.1 % (2 * Spec.blockSize b2) < 2 * Spec.blockSize b2 :=
    Nat.mod_lt _ (by omega)
  have hmod01 : b2.1 % (2 * Spec.blockSize b2) = 0 ∨
      b2.1 % (2 * Spec.blockSize b2) = Spec.blockSize b2 := by
    obtain ⟨j, hj⟩ := hmod2
    have hj2 : j < 2 := by
      by_contra hj2
      have : Spec.blockSize b2 * 2 ≤ Spec.blockSize b2 * j := Nat.mul_le_mul_left _ (by omega)
      omega
    interval_cases j <;> omega
  -- the parent of b2 fits between b1 and b3, inside [s, e]: contradiction
  have hout := hmax b2 hb2G
  unfold Spec.ParentOutside Spec.parentLo at hout
  unfold Spec.blockEnd at r12 r23 he3
  have hmle : b2.1 % (2 * Spec.blockSize b2) ≤ b2.1 := Nat.mod_le _ _
  rcases hout with hout | hout
  · omega
  · omega

theorem expandPairs_len_le_64 (s e : Nat) (h1 : s ≤ e) (he : e < 2 ^ 32) :
    (Normalizer.expandIPv4RangePairs s e).length ≤ 64 := by
  by_cases hfull : s = 0 ∧ e = 2 ^ 32 - 1
  · obtain ⟨rfl, rfl⟩ := hfull
    decide
  · set sizes := (Normalizer.expandIPv4RangePairs s e).map Prod.snd with hsz
    have hlen : (Normalizer.expandIPv4RangePairs s e).length = sizes.length := by
      rw [hsz, List.length_map]
    have hbound : ∀ x ∈ sizes, x < 33 := by
      intro x hx
      rw [hsz, List.mem_map] at hx
      obtain ⟨p, hp, rfl⟩ := hx
      rw [pairs_eq s e h1] at hp
      have := (expandGo_validBlock e he _ s p hp).1.1
      omega
    have hpos : ∀ x ∈ sizes, 1 ≤ x := by
      intro x hx
      rw [hsz, List.mem_map] at hx
      obtain ⟨p, hp, rfl⟩ := hx
      rw [pairs_eq s e h1] at hp
      exact (expandGo_validBlock e he _ s p hp).2
    have hcnt0 : sizes.count 0 = 0 := by
      rw [List.count_eq_zero]
      intro h0
      exact absurd (hpos 0 h0) (by omega)
    have hcnt : ∀ m, sizes.count m ≤ 2 := fun m => count_le_two s e h1 he hfull m
    rw [hlen, length_eq_sum_count sizes 33 hbound,
      ← Finset.add_sum_erase (Finset.range 33) sizes.count
        (show (0 : Nat) ∈ Finset.range 33 by simp), hcnt0, Nat.zero_add]
    calc ∑ x in (Finset.range 33).erase 0, sizes.count x ≤
          ((Finset.range 33).erase 0).card • 2 :=
        Finset.sum_le_card_nsmul _ _ 2 fun x _ => hcnt x
      _ = 64 := by
        rw [Finset.card_erase_of_mem (by simp), Finset.card_range, smul_eq_mul]

end Greedy

/-- **C1 amended**.  For `start ≤ end < 2^32`, `expandIPv4Range` renders the
pair list `expandIPv4RangePairs`, which is an ordered consecutive chain of
disjoint, network-aligned CIDR blocks whose union is exactly
`[start, end]`; the list is of minimal size among all exact covers by
valid CIDR blocks for every such pair except the full address space
`(0, 2^32 - 1)`, where the splitter's `maxBits ≥ 1` clamp yields the two
`/1` halves instead of the single `/0` block. -/
theorem C1_expandIPv4Range_exact_cover_minimal (s e : Nat) (h1 : s ≤ e) (he : e < 2 ^ 32) :
    Normalizer.expandIPv4Range s e =
      (Normalizer.expandIPv4RangePairs s e).map
        (fun p => Normalizer.numberToIPv4 p.1 ++ '/' :: natToDec p.2) ∧
    Spec.ExactCover (Normalizer.expandIPv4RangePairs s e) s e ∧
    Spec.IsChain (Normalizer.expandIPv4RangePairs s e) s e ∧
    (¬(s = 0 ∧ e = 2 ^ 32 - 1) →
      ∀ C, Spec.ExactCover C s e →
        (Normalizer.expandIPv4RangePairs s e).length ≤ C.length) ∧
    (s = 0 ∧ e = 2 ^ 32 - 1 →
      Normalizer.expandIPv4RangePairs s e = [(0, 1), (2 ^ 31, 1)]) := by
  have hchain : Spec.IsChain (Normalizer.expandIPv4RangePairs s e) s e := by
    rw [Greedy.pairs_eq s e h1]
    exact Greedy.expandGo_chain e _ s (by omega) le_rfl
  refine ⟨rfl, ⟨?_, ?_⟩, hchain, ?_, ?_⟩
  · intro b hb
    rw [Greedy.pairs_eq s e h1] at hb
    exact (Greedy.expandGo_validBlock e he _ s b hb).1
  · intro x
    constructor
    · rintro ⟨b, hb, hm⟩
      exact Greedy.chain_mem_sub _ s e hchain b hb x hm
    · rintro ⟨hx1, hx2⟩
      exact Greedy.chain_cover _ s e hchain x hx1 hx2
  · intro hex C hC
    exact Greedy.expandPairs_min s e h1 he hex C hC
  · rintro ⟨rfl, rfl⟩
    decide

/-- Witness for the amended C1 on the concrete range `[10, 13]`
(`0.0.0.10/31`, `0.0.0.12/31`). -/
theorem C1_expandIPv4Range_exact_cover_minimal_witness :
    Spec.IsChain (Normalizer.expandIPv4RangePairs 10 13) 10 13 ∧
      Normalizer.expandIPv4Range 10 13 = ["0.0.0.10/31".data, "0.0.0.12/31".data] :=
  ⟨(C1_expandIPv4Range_exact_cover_minimal 10 13 (by decide) (by decide)).2.2.1, by decide⟩

/-- **C1 counterexample** (the claim is corrected).  At the full address
space the splitter emits the two `/1` blocks although the single `/0`
block `[(0, 0)]` is an exact cover with fewer blocks, so the output is not
minimal there. -/
theorem C1_full_range_not_minimal_counterexample :
    Normalizer.expandIPv4Range 0 (2 ^ 32 - 1) = ["0.0.0.0/1".data, "128.0.0.0/1".data] ∧
    Spec.ExactCover [(0, 0)] 0 (2 ^ 32 - 1) ∧
    ([((0 : Nat), (0 : Nat))].length <
      (Normalizer.expandIPv4RangePairs 0 (2 ^ 32 - 1)).length) := by
  refine ⟨by decide, ⟨?_, ?_⟩, by decide⟩
  · intro b hb
    rcases List.mem_singleton.mp hb with rfl
    constructor
    · omega
    · refine ⟨?_, by decide⟩
      decide
  · intro x
    unfold Spec.MemBlock Spec.blockEnd Spec.blockSize
    constructor
    · rintro ⟨b, hb, hm⟩
      rcases List.mem_singleton.mp hb with rfl
      revert hm
      norm_num
    · intro hx
      exact ⟨(0, 0), List.mem_singleton.mpr rfl, by norm_num; omega⟩

/-- **C5 amended**.  For every `start ≤ end < 2^32` the splitter emits at
most two blocks per bit position — at most 2 blocks of any one prefix
length, hence at most 64 blocks in total — never a number proportional to
the size of the range, including for the full address space. -/
theorem C5_expandIPv4Range_output_bounded (s e : Nat) (h1 : s ≤ e) (he : e < 2 ^ 32) :
    (Normalizer.expandIPv4Range s e).length ≤ 64 ∧
    ∀ m, ((Normalizer.expandIPv4RangePairs s e).map Prod.snd).count m ≤ 2 := by
  constructor
  · have hl : (Normalizer.expandIPv4Range s e).length =
        (Normalizer.expandIPv4RangePairs s e).length := List.length_map _ _
    rw [hl]
    exact Greedy.expandPairs_len_le_64 s e h1 he
  · intro m
    by_cases hfull : s = 0 ∧ e = 2 ^ 32 - 1
    · calc ((Normalizer.expandIPv4RangePairs s e).map Prod.snd).count m ≤
            ((Normalizer.expandIPv4RangePairs s e).map Prod.snd).length :=
          List.count_le_length _ _
        _ ≤ 2 := by
          obtain ⟨rfl, rfl⟩ := hfull
          decide
    · exact Greedy.count_le_two s e h1 he hfull m

/-- Witness for the amended C5 at the full address space. -/
theorem C5_expandIPv4Range_output_bounded_witness :
    (Normalizer.expandIPv4Range 0 (2 ^ 32 - 1)).length ≤ 64 ∧
      ((Normalizer.expandIPv4RangePairs 0 (2 ^ 32 - 1)).map Prod.snd).count 1 ≤ 2 :=
  ⟨(C5_expandIPv4Range_output_bounded 0 (2 ^ 32 - 1) (by decide) (by decide)).1,
    (C5_expandIPv4Range_output_bounded 0 (2 ^ 32 - 1) (by decide) (by decide)).2 1⟩

/-- **C5 counterexample** (the claim is corrected).  "At most one block per
bit position" fails: the range `[1, 2^32 - 2]` produces 62 blocks, more
than the 32 bit positions of an IPv4 address. -/
theorem C5_one_block_per_bit_counterexample :
    (Normalizer.expandIPv4Range 1 (2 ^ 32 - 2)).length = 62 ∧ 32 < 62 := by
  constructor
  · decide
  · decide

set_option maxHeartbeats 4000000

/-- Exhaustive check of the zero-run scanner over all 256 zero-patterns of
8 groups: if a best run exists the scan returns it, otherwise it returns
the `(-1, 0)` sentinels. -/
theorem scan8 : ∀ b1 b2 b3 b4 b5 b6 b7 b8 : Bool,
    (∀ st, st < 9 → ∀ len, len < 9 →
      bestRunB [b1,b2,b3,b4,b5,b6,b7,b8] st len = true →
        scanZ 0 [b1,b2,b3,b4,b5,b6,b7,b8] (-1) 0 (-1) 0 = ((st : Int), len)) ∧
    ((∀ st, st < 9 → ∀ len, len < 9 →
      bestRunB [b1,b2,b3,b4,b5,b6,b7,b8] st len = false) →
        scanZ 0 [b1,b2,b3,b4,b5,b6,b7,b8] (-1) 0 (-1) 0 = (-1, 0)) := by decide

/-- `scan8` transported to any boolean list of length 8. -/
theorem scan_best (z : List Bool) (h8 : z.length = 8) :
    (∀ st, st < 9 → ∀ len, len < 9 →
      bestRunB z st len = true → scanZ 0 z (-1) 0 (-1) 0 = ((st : Int), len)) ∧
    ((∀ st, st < 9 → ∀ len, len < 9 → bestRunB z st len = false) →
        scanZ 0 z (-1) 0 (-1) 0 = (-1, 0)) := by
  rcases z with _ | ⟨b1, z⟩; · simp at h8
  rcases z with _ | ⟨b2, z⟩; · simp at h8
  rcases z with _ | ⟨b3, z⟩; · simp at h8
  rcases z with _ | ⟨b4, z⟩; · simp at h8
  rcases z with _ | ⟨b5, z⟩; · simp at h8
  rcases z with _ | ⟨b6, z⟩; · simp at h8
  rcases z with _ | ⟨b7, z⟩; · simp at h8
  rcases z with _ | ⟨b8, z⟩; · simp at h8
  rcases z with _ | ⟨b9, z⟩
  · exact scan8 b1 b2 b3 b4 b5 b6 b7 b8
  · simp at h8

theorem natToHexAux_ne_nil (f n : Nat) : natToHexAux (f + 1) n ≠ [] := by
  rw [natToHexAux]
  split
  · simp
  · simp

theorem natToHex_eq_zero_iff (v : Nat) : natToHex v = "0".data ↔ v = 0 := by
  constructor
  · intro h
    by_contra hv
    rcases lt_or_ge v 16 with h16 | h16
    · interval_cases v
      · exact hv rfl
      all_goals exact absurd h (by decide)
    · rw [natToHex, natToHexAux, if_neg (by omega)] at h
      have h2 : natToHexAux v (v / 16) ≠ [] := by
        obtain ⟨f, rfl⟩ : ∃ f, v = f + 1 := ⟨v - 1, by omega⟩
        exact natToHexAux_ne_nil f _
      apply h2
      have hlen := congrArg List.length h
      rw [List.length_append] at hlen
      have h0 : ("0".data).length = 1 := rfl
      have h1 : ([hexDigitCh (v % 16)] : Str).length = 1 := rfl
      exact List.eq_nil_of_length_eq_zero (by omega)
  · intro h
    subst h
    decide

theorem getD_map_zero (vals : List Nat) (i : Nat) :
    (vals.map fun v => decide (v = 0)).getD i false = decide (vals.getD i 1 = 0) := by
  simpa using @List.getD_map Nat Bool vals 1 i (fun v => decide (v = 0))

theorem boolRunB_iff (vals : List Nat) (st len : Nat) :
    boolRunB (vals.map fun v => decide (v = 0)) st len = true ↔
      (0 < len ∧ st + len ≤ vals.length ∧
        (∀ k, k < len → vals.getD (st + k) 1 = 0) ∧
        (st = 0 ∨ vals.getD (st - 1) 1 ≠ 0) ∧
        (st + len = vals.length ∨ vals.getD (st + len) 1 ≠ 0)) := by
  unfold boolRunB
  simp only [Bool.and_eq_true, decide_eq_true_eq, List.all_eq_true, List.mem_range,
    getD_map_zero, List.length_map, Bool.or_eq_true, Bool.not_eq_true',
    decide_eq_false_iff_not, and_assoc, ne_eq]
theorem zeroRun_iff_boolRunB (vals : List Nat) (st len : Nat) :
    Spec.ZeroRun vals st len ↔
      boolRunB (vals.map fun v => decide (v = 0)) st len = true := by
  rw [boolRunB_iff]
  unfold Spec.ZeroRun
  constructor
  · rintro ⟨h1, h2, h3, h4, h5⟩
    exact ⟨h1, h2, fun k hk => h3 (st + k) (by omega) (by omega), h4, h5⟩
  · rintro ⟨h1, h2, h3, h4, h5⟩
    refine ⟨h1, h2, ?_, h4, h5⟩
    intro i hi1 hi2
    have hk := h3 (i - st) (by omega)
    rwa [show st + (i - st) = i by omega] at hk

theorem bestRunB_eq_true_iff (vals : List Nat) (st len : Nat) :
    bestRunB (vals.map fun v => decide (v = 0)) st len = true ↔
      Spec.BestZeroRun vals st len := by
  constructor
  · intro h
    unfold bestRunB at h
    rw [Bool.and_eq_true, Bool.and_eq_true] at h
    obtain ⟨⟨hb, hgt⟩, hall⟩ := h
    rw [decide_eq_true_eq] at hgt
    have hrun := (zeroRun_iff_boolRunB vals st len).mpr hb
    simp only [List.all_eq_true, List.mem_range, List.length_map] at hall
    have key : ∀ st2 len2, Spec.ZeroRun vals st2 len2 →
        len2 ≤ len ∧ (len2 = len → st ≤ st2) := by
      intro st2 len2 hz2
      have hb2 := (zeroRun_iff_boolRunB vals st2 len2).mp hz2
      have hst2 : st2 < vals.length + 1 := by
        have := hz2.2.1; have := hz2.1; omega
      have hlen2 : len2 < vals.length + 1 := by
        have := hz2.2.1; omega
      have h1 := hall st2 hst2 len2 hlen2
      rw [hb2] at h1
      simp only [Bool.not_true, Bool.false_or, Bool.and_eq_true, Bool.or_eq_true,
        decide_eq_true_eq] at h1
      exact ⟨h1.1, fun he => h1.2.resolve_left fun hne => hne he⟩
    exact ⟨hrun, hgt, fun st2 len2 hz2 => (key st2 len2 hz2).1,
      fun st2 len2 hz2 he => (key st2 len2 hz2).2 he⟩
  · rintro ⟨hrun, hgt, hmax, hleft⟩
    unfold bestRunB
    rw [Bool.and_eq_true, Bool.and_eq_true]
    refine ⟨⟨(zeroRun_iff_boolRunB vals st len).mp hrun, by simp [hgt]⟩, ?_⟩
    simp only [List.all_eq_true, List.mem_range, List.length_map]
    intro st2 _ len2 _
    cases hb2 : boolRunB (vals.map fun v => decide (v = 0)) st2 len2 with
    | false => simp
    | true =>
      have hz2 := (zeroRun_iff_boolRunB vals st2 len2).mpr hb2
      have h1 := hmax st2 len2 hz2
      by_cases he : len2 = len
      · have h2 := hleft st2 len2 hz2 he
        simp [h1, h2]
      · simp [h1, he]

theorem bestZeroRun_of_all_zero (vals : List Nat) (h8 : vals.length = 8)
    (hz : ∀ v ∈ vals, v = 0) : Spec.BestZeroRun vals 0 8 := by
  have hget : ∀ i, i < 8 → vals.getD i 1 = 0 := by
    intro i hi
    rw [List.getD_eq_getElem vals 1 (by omega)]
    exact hz _ (vals.getElem_mem _)
  refine ⟨⟨by norm_num, by omega, fun i hi1 hi2 => hget i (by omega),
    Or.inl rfl, Or.inl (by omega)⟩, by norm_num, ?_, ?_⟩
  · intro st2 len2 h2
    have := h2.2.1
    omega
  · intro st2 len2 h2 _
    omega

theorem compressScan_eq_scanZ (vals : List Nat) :
    ∀ (i bS cS : Int) (bL cL : Nat),
      Normalizer.compressScan i (vals.map natToHex) bS bL cS cL =
        scanZ i (vals.map fun v => decide (v = 0)) bS bL cS cL := by
  induction vals with
  | nil => intro i bS cS bL cL; rfl
  | cons v rest ih =>
    intro i bS cS bL cL
    simp only [List.map_cons]
    rw [Normalizer.compressScan, scanZ]
    by_cases hv : v = 0
    · have hb : decide (v = 0) = true := by simp [hv]
      rw [if_pos ((natToHex_eq_zero_iff v).mpr hv), if_pos hb]
      by_cases hcs : cS = -1
      · rw [if_pos hcs, if_pos hcs, ih]
      · rw [if_neg hcs, if_neg hcs, ih]
    · have hb : ¬ decide (v = 0) = true := by simpa using hv
      rw [if_neg (fun hh => hv ((natToHex_eq_zero_iff v).mp hh)), if_neg hb]
      by_cases hc : cL > bL ∧ cL > 1
      · rw [if_pos hc, if_pos hc, ih]
      · rw [if_neg hc, if_neg hc, ih]

theorem ipv6BytesFrom_length (orZ : Bool) (gs : List Str) :
    ∀ (k i : Nat) (bs : List Nat),
      Normalizer.ipv6BytesFrom orZ gs i k = some bs → bs.length = 2 * k := by
  intro k
  induction k with
  | zero =>
    intro i bs h
    rw [Normalizer.ipv6BytesFrom] at h
    cases h
    rfl
  | succ k ih =>
    intro i bs h
    rw [Normalizer.ipv6BytesFrom] at h
    split at h
    · exact absurd h (by simp)
    · split at h
      · exact absurd h (by simp)
      · split at h
        · exact absurd h (by simp)
        · cases h
          rename_i rest hrest
          simp only [List.length_cons]
          have := ih (i + 1) _ hrest
          omega

theorem parseIPv6ToBytes_length (addr : Str) (bytes : List Nat)
    (h : Normalizer.parseIPv6ToBytes addr = some bytes) : bytes.length = 16 := by
  rw [Normalizer.parseIPv6ToBytes] at h
  simp only at h
  repeat' split at h
  all_goals first
    | exact Option.noConfusion h
    | simpa using ipv6BytesFrom_length _ _ 8 0 bytes h

theorem groupValsOfBytes_length (l : List Nat) (h : l.length = 16) :
    (Normalizer.groupValsOfBytes l).length = 8 := by
  rcases l with _ | ⟨b1, l⟩; · simp at h
  rcases l with _ | ⟨b2, l⟩; · simp at h
  rcases l with _ | ⟨b3, l⟩; · simp at h
  rcases l with _ | ⟨b4, l⟩; · simp at h
  rcases l with _ | ⟨b5, l⟩; · simp at h
  rcases l with _ | ⟨b6, l⟩; · simp at h
  rcases l with _ | ⟨b7, l⟩; · simp at h
  rcases l with _ | ⟨b8, l⟩; · simp at h
  rcases l with _ | ⟨b9, l⟩; · simp at h
  rcases l with _ | ⟨b10, l⟩; · simp at h
  rcases l with _ | ⟨b11, l⟩; · simp at h
  rcases l with _ | ⟨b12, l⟩; · simp at h
  rcases l with _ | ⟨b13, l⟩; · simp at h
  rcases l with _ | ⟨b14, l⟩; · simp at h
  rcases l with _ | ⟨b15, l⟩; · simp at h
  rcases l with _ | ⟨b16, l⟩; · simp at h
  rcases l with _ | ⟨b17, l⟩
  · rfl
  · simp at h

theorem compressIPv6_eq (addr : Str) (bytes : List Nat)
    (hp : Normalizer.parseIPv6ToBytes addr = some bytes) :
    Normalizer.compressIPv6 addr =
      (let vals := Normalizer.groupValsOfBytes bytes
       let bs := scanZ 0 (vals.map fun v => decide (v = 0)) (-1) 0 (-1) 0
       if bs.2 > 1 then
         if bs.2 = 8 then some "::".data
         else
           some (joinSep ':' ((vals.map natToHex).take bs.1.toNat) ++ "::".data ++
             joinSep ':' ((vals.map natToHex).drop (bs.1.toNat + bs.2)))
       else some (joinSep ':' (vals.map natToHex))) := by
  rw [Normalizer.compressIPv6, hp]
  simp only [compressScan_eq_scanZ]

/-- **C4** (confirmed).  For every address accepted by `parseIPv6ToBytes`,
`compressIPv6` replaces the longest run of two or more consecutive all-zero
groups with `::` (leftmost on ties, per `Spec.BestZeroRun`); if all 8 groups
are zero the result is `::`; and if no run of length greater than one
exists, the result is the 8 minimal-hex groups joined by `:`. -/
theorem C4_compressIPv6_longest_leftmost_run (addr : Str) (bytes : List Nat)
    (hp : Normalizer.parseIPv6ToBytes addr = some bytes) :
    ((∀ v ∈ Normalizer.groupValsOfBytes bytes, v = 0) →
        Normalizer.compressIPv6 addr = some "::".data) ∧
    (∀ st len, Spec.BestZeroRun (Normalizer.groupValsOfBytes bytes) st len → len ≠ 8 →
        Normalizer.compressIPv6 addr =
          some (joinSep ':' (((Normalizer.groupValsOfBytes bytes).map natToHex).take st) ++
            "::".data ++
            joinSep ':' (((Normalizer.groupValsOfBytes bytes).map natToHex).drop (st + len)))) ∧
    ((∀ st len, ¬ (Spec.ZeroRun (Normalizer.groupValsOfBytes bytes) st len ∧ 1 < len)) →
        Normalizer.compressIPv6 addr =
          some (joinSep ':' ((Normalizer.groupValsOfBytes bytes).map natToHex))) := by
  have hlen : (Normalizer.groupValsOfBytes bytes).length = 8 :=
    groupValsOfBytes_length bytes (parseIPv6ToBytes_length addr bytes hp)
  have hz8 : ((Normalizer.groupValsOfBytes bytes).map fun v => decide (v = 0)).length = 8 := by
    simp [hlen]
  have hscan := scan_best _ hz8
  have hmain := compressIPv6_eq addr bytes hp
  refine ⟨?_, ?_, ?_⟩
  · intro hz
    have hbest := bestZeroRun_of_all_zero _ hlen hz
    have hb := (bestRunB_eq_true_iff _ 0 8).mpr hbest
    have hval := hscan.1 0 (by omega) 8 (by omega) hb
    rw [hmain]
    simp only [hval]
    norm_num
  · intro st len hbest hne
    have hb := (bestRunB_eq_true_iff _ st len).mpr hbest
    have hbd := hbest.1.2.1
    have hpos := hbest.1.1
    rw [hlen] at hbd
    have hval := hscan.1 st (by omega) len (by omega) hb
    have hgt := hbest.2.1
    rw [hmain]
    simp only [hval]
    rw [Int.toNat_natCast, if_pos hgt, if_neg hne]
  · intro hno
    have hfalse : ∀ st, st < 9 → ∀ len, len < 9 →
        bestRunB ((Normalizer.groupValsOfBytes bytes).map fun v => decide (v = 0))
          st len = false := by
      intro st _ len _
      cases hbb : bestRunB ((Normalizer.groupValsOfBytes bytes).map fun v => decide (v = 0))
          st len with
      | false => rfl
      | true =>
        have hbest := (bestRunB_eq_true_iff _ st len).mp hbb
        exact absurd ⟨hbest.1, hbest.2.1⟩ (hno st len)
    have hval := hscan.2 hfalse
    rw [hmain]
    simp only [hval]
    norm_num

theorem C4_compressIPv6_longest_leftmost_run_witness :
    Normalizer.compressIPv6 "1:0:0:2:0:0:0:3".data = some "1:0:0:2::3".data := by
  have h := (C4_compressIPv6_longest_leftmost_run "1:0:0:2:0:0:0:3".data
      [0, 1, 0, 0, 0, 0, 0, 2, 0, 0, 0, 0, 0, 0, 0, 3] (by decide)).2.1 4 3
      ((bestRunB_eq_true_iff (Normalizer.groupValsOfBytes
          [0, 1, 0, 0, 0, 0, 0, 2, 0, 0, 0, 0, 0, 0, 0, 3]) 4 3).mp (by decide))
      (by decide)
  rw [h]
  decide

theorem hexDigitCh_mem (d : Nat) (hd : d < 16) : hexDigitCh d ∈ hexChars := by
  interval_cases d <;> decide

theorem natToHexAux_subset : ∀ f n c, c ∈ natToHexAux f n → c ∈ hexChars := by
  intro f
  induction f with
  | zero =>
    intro n c h
    exact absurd h (by simp [natToHexAux])
  | succ f ih =>
    intro n c h
    rw [natToHexAux] at h
    split at h
    · rename_i hn
      simp only [List.mem_singleton] at h
      subst h
      exact hexDigitCh_mem _ (by omega)
    · rw [List.mem_append] at h
      rcases h with h | h
      · exact ih _ _ h
      · simp only [List.mem_singleton] at h
        subst h
        exact hexDigitCh_mem _ (Nat.mod_lt _ (by norm_num))

theorem padStart4_subset (v : Nat) (c : Char)
    (h : c ∈ Normalizer.padStart4 (natToHex v)) : c ∈ hexChars := by
  rw [Normalizer.padStart4, List.mem_append] at h
  rcases h with h | h
  · rw [List.eq_of_mem_replicate h]
    decide
  · exact natToHexAux_subset _ _ _ h

theorem padStart4_ne_nil (v : Nat) : Normalizer.padStart4 (natToHex v) ≠ [] := by
  rw [Normalizer.padStart4]
  intro h
  rcases List.append_eq_nil.mp h with ⟨_, h2⟩
  exact natToHexAux_ne_nil v v h2

theorem joinSep_subset (sep : Char) :
    ∀ parts c, c ∈ joinSep sep parts → c = sep ∨ ∃ p ∈ parts, c ∈ p := by
  intro parts
  induction parts with
  | nil =>
    intro c h
    exact absurd h (by simp [joinSep])
  | cons x xs ih =>
    intro c h
    cases xs with
    | nil =>
      right
      exact ⟨x, by simp, by simpa [joinSep] using h⟩
    | cons y ys =>
      rw [show joinSep sep (x :: y :: ys) = x ++ sep :: joinSep sep (y :: ys) from rfl,
        List.mem_append] at h
      rcases h with h | h
      · right; exact ⟨x, by simp, h⟩
      · rcases List.mem_cons.mp h with h | h
        · left; exact h
        · rcases ih c h with h | ⟨p, hp, hc⟩
          · left; exact h
          · right; exact ⟨p, by simp [hp], hc⟩

theorem hexColon_char_facts : ∀ c ∈ ':' :: hexChars,
    jsIsWs c = false ∧ jsToLower c = c ∧ ¬ c = '%' ∧ ¬ c = 'x' ∧ ¬ c = 'X' ∧
      ¬ c = '+' ∧ ¬ c = '-' := by decide

theorem hexChars_facts : ∀ c ∈ hexChars, isHexCh c = true ∧ ¬ c = ':' := by decide

theorem dropWhile_eq_self_of (p : Char → Bool) (s : Str)
    (h : ∀ c ∈ s, p c = false) : s.dropWhile p = s := by
  cases s with
  | nil => rfl
  | cons c cs =>
    rw [List.dropWhile_cons, if_neg]
    simp [h c (by simp)]

theorem takeWhile_eq_self_of (p : Char → Bool) :
    ∀ s : Str, (∀ c ∈ s, p c = true) → s.takeWhile p = s := by
  intro s
  induction s with
  | nil => intro _; rfl
  | cons c cs ih =>
    intro h
    rw [List.takeWhile_cons, if_pos (h c (by simp))]
    rw [ih fun c hc => h c (by simp [hc])]

theorem jsTrim_eq_self (s : Str) (h : ∀ c ∈ s, jsIsWs c = false) : jsTrim s = s := by
  rw [jsTrim, dropWhile_eq_self_of _ s (fun c hc => h c hc),
    dropWhile_eq_self_of _ s.reverse (fun c hc => h c (List.mem_reverse.mp hc)),
    List.reverse_reverse]

theorem jsToLowerStr_eq_self (s : Str) (h : ∀ c ∈ s, jsToLower c = c) :
    jsToLowerStr s = s := by
  rw [jsToLowerStr]
  exact (List.map_congr_left h).trans (List.map_id s)

theorem jsSign_eq (s : Str) (h : ∀ c ∈ s, ¬ c = '+' ∧ ¬ c = '-') : jsSign s = (1, s) := by
  cases s with
  | nil => rfl
  | cons c r =>
    have hc := h c (by simp)
    rw [jsSign.eq_def]
    split
    · rename_i heq
      rw [List.cons_eq_cons] at heq
      exact absurd heq.1 hc.1
    · rename_i heq
      rw [List.cons_eq_cons] at heq
      exact absurd heq.1 hc.2
    · rfl

theorem jsStripHexMark_eq (s : Str) (h : ∀ c ∈ s, ¬ c = 'x' ∧ ¬ c = 'X') :
    jsStripHexMark s = s := by
  rw [jsStripHexMark.eq_def]
  split
  · rename_i r
    exact absurd rfl (h 'x' (by simp)).1
  · rename_i r
    exact absurd rfl (h 'X' (by simp)).2
  · rfl

theorem hexVal_hexDigitCh (d : Nat) (hd : d < 16) : hexVal (hexDigitCh d) = d := by
  interval_cases d <;> decide

theorem hexDigitsVal_append_digit (s : Str) (c : Char) :
    hexDigitsVal (s ++ [c]) = hexDigitsVal s * 16 + hexVal c := by
  simp [hexDigitsVal, List.foldl_append]

theorem natToHexAux_val : ∀ f n, n ≤ f → hexDigitsVal (natToHexAux (f + 1) n) = n := by
  intro f
  induction f with
  | zero =>
    intro n hn
    have : n = 0 := by omega
    subst this
    decide
  | succ f ih =>
    intro n hn
    rw [natToHexAux]
    split
    · rename_i h16
      simp only [hexDigitsVal, List.foldl_cons, List.foldl_nil]
      rw [Nat.zero_mul, Nat.zero_add, hexVal_hexDigitCh n h16]
    · rename_i h16
      rw [hexDigitsVal_append_digit, ih (n / 16) (by omega),
        hexVal_hexDigitCh (n % 16) (Nat.mod_lt _ (by norm_num))]
      omega

theorem natToHex_val (v : Nat) : hexDigitsVal (natToHex v) = v :=
  natToHexAux_val v v (le_refl v)

theorem hexDigitsVal_replicate_zero :
    ∀ k (t : Str), hexDigitsVal (List.replicate k '0' ++ t) = hexDigitsVal t := by
  intro k
  induction k with
  | zero => intro t; rfl
  | succ k ih =>
    intro t
    rw [List.replicate_succ, List.cons_append]
    have h0 : (0 : Nat) * 16 + hexVal '0' = 0 := by decide
    simp only [hexDigitsVal, List.foldl_cons] at ih ⊢
    rw [h0]
    exact ih t

theorem jsParseIntHex_padded (v k : Nat) :
    jsParseIntHex (List.replicate k '0' ++ natToHex v) = some (v : Int) := by
  have hsub : ∀ c ∈ List.replicate k '0' ++ natToHex v, c ∈ hexChars := by
    intro c hc
    rw [List.mem_append] at hc
    rcases hc with hc | hc
    · rw [List.eq_of_mem_replicate hc]; decide
    · exact natToHexAux_subset _ _ _ hc
  have hmem : ∀ c ∈ List.replicate k '0' ++ natToHex v, c ∈ ':' :: hexChars := by
    intro c hc
    exact List.mem_cons_of_mem _ (hsub c hc)
  rw [jsParseIntHex]
  rw [dropWhile_eq_self_of _ _ (fun c hc => (hexColon_char_facts c (hmem c hc)).1)]
  rw [jsSign_eq _ (fun c hc => ⟨(hexColon_char_facts c (hmem c hc)).2.2.2.2.2.1,
    (hexColon_char_facts c (hmem c hc)).2.2.2.2.2.2⟩)]
  rw [jsStripHexMark_eq _ (fun c hc => ⟨(hexColon_char_facts c (hmem c hc)).2.2.2.1,
    (hexColon_char_facts c (hmem c hc)).2.2.2.2.1⟩)]
  rw [takeWhile_eq_self_of _ _ (fun c hc => (hexChars_facts c (hsub c hc)).1)]
  have hne : ¬ (List.replicate k '0' ++ natToHex v).isEmpty = true := by
    simp only [List.isEmpty_iff]
    intro h
    rcases List.append_eq_nil.mp h with ⟨_, h2⟩
    exact natToHexAux_ne_nil v v h2
  rw [if_neg hne]
  rw [hexDigitsVal_replicate_zero, natToHex_val, one_mul]

theorem jsParseIntHex_padStart4 (v : Nat) :
    jsParseIntHex (Normalizer.padStart4 (natToHex v)) = some (v : Int) :=
  jsParseIntHex_padded v _

theorem jsHiByte_pair (v : Nat) (h : v < 65536) : jsHiByte (v : Int) = v / 256 := by
  rw [jsHiByte, toInt32, toUint32, if_pos (by omega : ((v : Int) % 2 ^ 32) < 2 ^ 31)]
  rw [Int.fdiv_eq_ediv _ (by norm_num)]
  omega

theorem jsLoByte_pair (v : Nat) : jsLoByte (v : Int) = v % 256 := by
  rw [jsLoByte, toUint32]
  omega

theorem ipv6BytesFrom_of_vals (vals : List Nat) (hv : ∀ v ∈ vals, v < 65536) :
    ∀ k i, i + k ≤ vals.length →
      Normalizer.ipv6BytesFrom false
          (vals.map fun v => Normalizer.padStart4 (natToHex v)) i k =
        some (bytesOfVals ((vals.drop i).take k)) := by
  intro k
  induction k with
  | zero =>
    intro i _
    rw [Normalizer.ipv6BytesFrom]
    simp [bytesOfVals]
  | succ k ih =>
    intro i h
    have hi : i < vals.length := by omega
    rw [Normalizer.ipv6BytesFrom]
    have hget : (vals.map fun v => Normalizer.padStart4 (natToHex v)).getD i [] =
        Normalizer.padStart4 (natToHex vals[i]) := by
      rw [List.getD_eq_getElem _ _ (by simpa using hi)]
      simp
    have hvi : vals[i] < 65536 := hv _ (vals.getElem_mem hi)
    have hbig : ¬ ((vals[i] : Int) > 65535) := by
      rw [not_lt]
      exact_mod_cast Nat.le_of_lt_succ hvi
    have hih : Normalizer.ipv6BytesFrom false
        (vals.map fun v => Normalizer.padStart4 (natToHex v)) (i + 1) k =
          some (bytesOfVals ((vals.drop (i + 1)).take k)) := ih (i + 1) (by omega)
    simp only [Bool.false_and, Bool.false_eq_true, if_false, hget, jsParseIntHex_padStart4,
      if_neg hbig, hih]
    rw [jsHiByte_pair _ hvi, jsLoByte_pair _]
    rw [List.drop_eq_getElem_cons hi, List.take_succ_cons, bytesOfVals]

theorem bytesOfVals_groupVals : ∀ n (bytes : List Nat), bytes.length = 2 * n →
    (∀ b ∈ bytes, b < 256) →
    bytesOfVals (Normalizer.groupValsOfBytes bytes) = bytes := by
  intro n
  induction n with
  | zero =>
    intro bytes h _
    obtain rfl : bytes = [] := List.eq_nil_of_length_eq_zero (by omega)
    rfl
  | succ n ih =>
    intro bytes h hb
    rcases bytes with _ | ⟨b1, bytes⟩
    · simp at h
    rcases bytes with _ | ⟨b2, bytes⟩
    · simp at h; omega
    have hb1 : b1 < 256 := hb b1 (by simp)
    have hb2 : b2 < 256 := hb b2 (by simp)
    rw [Normalizer.groupValsOfBytes, bytesOfVals]
    have e1 : (b1 * 256 + b2) / 256 = b1 := by omega
    have e2 : (b1 * 256 + b2) % 256 = b2 := by omega
    rw [e1, e2, ih bytes (by simp at h; omega) (fun b hbm => hb b (by simp [hbm]))]

theorem ipv6BytesFrom_lt256 (orZ : Bool) (gs : List Str) :
    ∀ k i bs, Normalizer.ipv6BytesFrom orZ gs i k = some bs → ∀ b ∈ bs, b < 256 := by
  intro k
  induction k with
  | zero =>
    intro i bs h b hbm
    rw [Normalizer.ipv6BytesFrom] at h
    cases h
    exact absurd hbm (by simp)
  | succ k ih =>
    intro i bs h b hbm
    rw [Normalizer.ipv6BytesFrom] at h
    split at h
    · exact Option.noConfusion h
    · split at h
      · exact Option.noConfusion h
      · split at h
        · exact Option.noConfusion h
        · cases h
          rename_i val rest hrest
          rcases List.mem_cons.mp hbm with hb1 | hbm2
          · subst hb1
            exact Nat.mod_lt _ (by norm_num)
          · rcases List.mem_cons.mp hbm2 with hb2 | hbm3
            · subst hb2
              exact Nat.mod_lt _ (by norm_num)
            · exact ih _ _ hrest b hbm3

theorem parseIPv6ToBytes_lt256 (addr : Str) (bytes : List Nat)
    (h : Normalizer.parseIPv6ToBytes addr = some bytes) : ∀ b ∈ bytes, b < 256 := by
  rw [Normalizer.parseIPv6ToBytes] at h
  simp only at h
  repeat' split at h
  all_goals first
    | exact Option.noConfusion h
    | exact ipv6BytesFrom_lt256 _ _ 8 0 bytes h

theorem groupVals_lt65536 : ∀ n (bytes : List Nat), bytes.length ≤ n →
    (∀ b ∈ bytes, b < 256) →
    ∀ v ∈ Normalizer.groupValsOfBytes bytes, v < 65536 := by
  intro n
  induction n with
  | zero =>
    intro bytes h _ v hv
    obtain rfl : bytes = [] := List.eq_nil_of_length_eq_zero (by omega)
    exact absurd hv (by simp [Normalizer.groupValsOfBytes])
  | succ n ih =>
    intro bytes h hb v hv
    rcases bytes with _ | ⟨b1, bytes⟩
    · exact absurd hv (by simp [Normalizer.groupValsOfBytes])
    rcases bytes with _ | ⟨b2, bytes⟩
    · exact absurd hv (by simp [Normalizer.groupValsOfBytes])
    rw [Normalizer.groupValsOfBytes] at hv
    rcases List.mem_cons.mp hv with hv | hv
    · have h1 : b1 < 256 := hb b1 (by simp)
      have h2 : b2 < 256 := hb b2 (by simp)
      omega
    · exact ih bytes (by simp at h; omega) (fun b hbm => hb b (by simp [hbm])) v hv

theorem hasDC_cons_cons (a b : Char) (r : Str) :
    Normalizer.hasDC (a :: b :: r) =
      ((decide (a = ':') && decide (b = ':')) || Normalizer.hasDC (b :: r)) := by
  rw [Normalizer.hasDC.eq_def]
  split
  · rename_i heq
    exact absurd heq (by simp)
  · rename_i heq
    rw [List.cons_eq_cons] at heq
    obtain ⟨ha, heq2⟩ := heq
    rw [List.cons_eq_cons] at heq2
    obtain ⟨hb, _⟩ := heq2
    subst ha
    subst hb
    simp
  · rename_i hne heq
    rw [List.cons_eq_cons] at heq
    obtain ⟨ha, heq2⟩ := heq
    subst ha
    subst heq2
    by_cases hA : a = ':'
    · by_cases hB : b = ':'
      · subst hA; subst hB
        exact (hne r rfl rfl).elim
      · simp [hB]
    · simp [hA]

theorem hasDC_single (c : Char) : Normalizer.hasDC [c] = false := by
  rw [Normalizer.hasDC.eq_def]
  split
  · rfl
  · rename_i heq
    exact absurd heq (by simp)
  · rename_i heq
    rw [List.cons_eq_cons] at heq
    rw [← heq.2]
    rfl

theorem hasDC_join_parts : ∀ (parts : List Str),
    (∀ p ∈ parts, p ≠ [] ∧ ∀ c ∈ p, ¬ c = ':') →
    Normalizer.hasDC (joinSep ':' parts) = false := by
  have single : ∀ s : Str, (∀ c ∈ s, ¬ c = ':') → Normalizer.hasDC s = false := by
    intro s
    induction s with
    | nil => intro _; rfl
    | cons c cs ih =>
      intro h
      cases cs with
      | nil => exact hasDC_single c
      | cons d ds =>
        rw [hasDC_cons_cons]
        rw [ih fun c hc => h c (by simp [hc])]
        simp [h c (by simp)]
  have step : ∀ (x : Str) (r : Str), x ≠ [] → (∀ c ∈ x, ¬ c = ':') →
      (∀ c, r.head? = some c → ¬ c = ':') → Normalizer.hasDC r = false →
      Normalizer.hasDC (x ++ ':' :: r) = false := by
    intro x
    induction x with
    | nil => intro r h; exact absurd rfl h
    | cons c x ih =>
      intro r _ hx hr hdc
      cases x with
      | nil =>
        rw [List.cons_append, List.nil_append, hasDC_cons_cons]
        cases r with
        | nil => simp [hx c (by simp), hasDC_single]
        | cons d ds =>
          rw [hasDC_cons_cons]
          simp [hx c (by simp), hr d rfl, hdc]
      | cons c2 x2 =>
        rw [List.cons_append, List.cons_append, hasDC_cons_cons]
        have hstep := ih r (by simp) (fun cc hc => hx cc (by simp [hc])) hr hdc
        rw [List.cons_append] at hstep
        rw [hstep]
        simp [hx c (by simp)]
  intro parts
  induction parts with
  | nil => intro _; rfl
  | cons x xs ih =>
    intro h
    cases xs with
    | nil => exact single x (h x (by simp)).2
    | cons y ys =>
      rw [show joinSep ':' (x :: y :: ys) = x ++ ':' :: joinSep ':' (y :: ys) from rfl]
      have hy := h y (by simp)
      have hhead : ∀ c, (joinSep ':' (y :: ys)).head? = some c → ¬ c = ':' := by
        intro c hc
        cases ys with
        | nil =>
          rw [show joinSep ':' [y] = y from rfl] at hc
          cases y with
          | nil => exact absurd rfl hy.1
          | cons d ds =>
            rw [List.head?_cons, Option.some.injEq] at hc
            subst hc
            exact hy.2 _ (by simp)
        | cons z zs =>
          rw [show joinSep ':' (y :: z :: zs) = y ++ ':' :: joinSep ':' (z :: zs) from rfl] at hc
          cases y with
          | nil => exact absurd rfl hy.1
          | cons d ds =>
            rw [List.cons_append, List.head?_cons, Option.some.injEq] at hc
            subst hc
            exact hy.2 _ (by simp)
      exact step x (joinSep ':' (y :: ys)) (h x (by simp)).1 (h x (by simp)).2 hhead
        (ih fun p hp => h p (by simp [hp]))

theorem jsSplitChar_no_sep (sep : Char) :
    ∀ s : Str, (∀ c ∈ s, ¬ c = sep) → jsSplitChar sep s = [s] := by
  intro s
  induction s with
  | nil => intro _; rfl
  | cons c cs ih =>
    intro h
    rw [jsSplitChar]
    rw [if_neg (h c (by simp))]
    rw [ih fun c hc => h c (by simp [hc])]

theorem jsSplitChar_append (sep : Char) :
    ∀ (p r : Str), (∀ c ∈ p, ¬ c = sep) →
      jsSplitChar sep (p ++ sep :: r) = p :: jsSplitChar sep r := by
  intro p
  induction p with
  | nil =>
    intro r _
    rw [List.nil_append, jsSplitChar, if_pos rfl]
  | cons c p ih =>
    intro r h
    rw [List.cons_append, jsSplitChar, if_neg (h c (by simp))]
    rw [ih r fun c hc => h c (by simp [hc])]

theorem jsSplitChar_join (sep : Char) :
    ∀ (parts : List Str), parts ≠ [] → (∀ p ∈ parts, ∀ c ∈ p, ¬ c = sep) →
      jsSplitChar sep (joinSep sep parts) = parts := by
  intro parts
  induction parts with
  | nil => intro h _; exact absurd rfl h
  | cons x xs ih =>
    intro _ h
    cases xs with
    | nil => exact jsSplitChar_no_sep sep x (h x (by simp))
    | cons y ys =>
      rw [show joinSep sep (x :: y :: ys) = x ++ sep :: joinSep sep (y :: ys) from rfl]
      rw [jsSplitChar_append sep x _ (h x (by simp))]
      rw [ih (by simp) fun p hp c hc => h p (by simp [hp]) c hc]

theorem parseIPv6_of_parts (vals : List Nat) (hvlen : vals.length = 8)
    (hv : ∀ v ∈ vals, v < 65536) :
    Normalizer.parseIPv6ToBytes
        (joinSep ':' (vals.map fun v => Normalizer.padStart4 (natToHex v))) =
      some (bytesOfVals vals) := by
  set parts := vals.map fun v => Normalizer.padStart4 (natToHex v) with hparts
  set e := joinSep ':' parts with he
  have hparts_ok : ∀ p ∈ parts, p ≠ [] ∧ ∀ c ∈ p, ¬ c = ':' := by
    intro p hp
    rw [hparts, List.mem_map] at hp
    obtain ⟨v, hvm, rfl⟩ := hp
    exact ⟨padStart4_ne_nil v, fun c hc => (hexChars_facts c (padStart4_subset v c hc)).2⟩
  have hechars : ∀ c ∈ e, c ∈ ':' :: hexChars := by
    intro c hc
    rcases joinSep_subset ':' parts c hc with hcc | ⟨p, hp, hcp⟩
    · simp [hcc]
    · rw [hparts, List.mem_map] at hp
      obtain ⟨v, hvm, rfl⟩ := hp
      exact List.mem_cons_of_mem _ (padStart4_subset v c hcp)
  have e1 : jsTrim e = e := jsTrim_eq_self e fun c hc => (hexColon_char_facts c (hechars c hc)).1
  have e2 : jsToLowerStr e = e :=
    jsToLowerStr_eq_self e fun c hc => (hexColon_char_facts c (hechars c hc)).2.1
  have e3 : e.takeWhile (· ≠ '%') = e :=
    takeWhile_eq_self_of _ e fun c hc =>
      decide_eq_true (hexColon_char_facts c (hechars c hc)).2.2.1
  have e4 : Normalizer.hasDC e = false := hasDC_join_parts parts hparts_ok
  have e5 : jsSplitChar ':' e = parts := by
    rw [he]
    refine jsSplitChar_join ':' parts ?_ fun p hp => (hparts_ok p hp).2
    rw [hparts]
    intro hnil
    have hl := congrArg List.length hnil
    simp [hvlen] at hl
  have e6 : parts.length = 8 := by rw [hparts]; simp [hvlen]
  rw [Normalizer.parseIPv6ToBytes]
  simp only [e1, e2, e3, e4, e5, e6, Bool.false_eq_true, if_false, ne_eq,
    not_true_eq_false]
  rw [hparts]
  rw [ipv6BytesFrom_of_vals vals hv 8 0 (by omega)]
  rw [List.drop_zero, List.take_of_length_le (by omega)]

/-- **C8** (confirmed).  Whenever `expandIPv6` succeeds on an address `x`
with full form `e`, compressing `e` gives exactly the same result as
compressing `x`: canonical compression is insensitive to prior expansion,
because the full form reparses to the same 16 bytes. -/
theorem C8_expand_preserves_compress (x e : Str)
    (hx : Normalizer.expandIPv6 x = some e) :
    Normalizer.compressIPv6 e = Normalizer.compressIPv6 x := by
  rw [Normalizer.expandIPv6] at hx
  cases hpx : Normalizer.parseIPv6ToBytes x with
  | none => rw [hpx] at hx; exact Option.noConfusion hx
  | some bytes =>
    rw [hpx] at hx
    simp only [Option.some.injEq] at hx
    have hb := parseIPv6ToBytes_lt256 x bytes hpx
    have hlen := parseIPv6ToBytes_length x bytes hpx
    have hpe : Normalizer.parseIPv6ToBytes e = some bytes := by
      rw [← hx]
      rw [parseIPv6_of_parts _ (groupValsOfBytes_length bytes hlen)
        (groupVals_lt65536 16 bytes (by omega) hb)]
      rw [bytesOfVals_groupVals 8 bytes (by omega) hb]
    rw [Normalizer.compressIPv6, Normalizer.compressIPv6, hpe, hpx]

theorem C8_expand_preserves_compress_witness :
    Normalizer.compressIPv6 "2001:0db8:0000:0000:0000:0000:0000:0001".data =
      Normalizer.compressIPv6 "2001:db8::1".data :=
  C8_expand_preserves_compress "2001:db8::1".data
    "2001:0db8:0000:0000:0000:0000:0000:0001".data (by decide)

theorem orNull_some_ne (s : Str) (h : s ≠ []) : Normalizer.orNull (some s) = some s := by
  cases s with
  | nil => exact absurd rfl h
  | cons c cs => rfl

theorem joinSepS_ne_nil (sep x : Str) (xs : List Str) (h : x ≠ []) :
    joinSepS sep (x :: xs) ≠ [] := by
  cases xs with
  | nil => exact h
  | cons y ys =>
    rw [show joinSepS sep (x :: y :: ys) = x ++ sep ++ joinSepS sep (y :: ys) from rfl]
    simp [h]

theorem jsSplitChar_ne_nil (sep : Char) (s : Str) : jsSplitChar sep s ≠ [] := by
  cases s with
  | nil => simp [jsSplitChar]
  | cons c cs =>
    rw [jsSplitChar]
    split
    · simp
    · split <;> simp

theorem joinSep_cons_head (sep c : Char) (t : Str) :
    ∀ ts, joinSep sep ((c :: t) :: ts) = c :: joinSep sep (t :: ts) := by
  intro ts
  cases ts with
  | nil => rfl
  | cons u us => rfl

theorem joinSep_jsSplitChar (sep : Char) : ∀ s : Str, joinSep sep (jsSplitChar sep s) = s := by
  intro s
  induction s with
  | nil => rfl
  | cons c cs ih =>
    rw [jsSplitChar]
    by_cases hc : c = sep
    · rw [if_pos hc]
      rcases hsp : jsSplitChar sep cs with _ | ⟨t, ts⟩
      · exact absurd hsp (jsSplitChar_ne_nil sep cs)
      · rw [hsp] at ih
        rw [show joinSep sep ([] :: t :: ts) = [] ++ sep :: joinSep sep (t :: ts) from rfl]
        rw [List.nil_append, ih, hc]
    · rw [if_neg hc]
      rcases hsp : jsSplitChar sep cs with _ | ⟨t, ts⟩
      · exact absurd hsp (jsSplitChar_ne_nil sep cs)
      · rw [hsp] at ih
        rw [joinSep_cons_head, ih]

theorem jsSplitChar_sep_free (sep : Char) :
    ∀ s : Str, ∀ p ∈ jsSplitChar sep s, ∀ c ∈ p, ¬ c = sep := by
  intro s
  induction s with
  | nil =>
    intro p hp c hc
    simp [jsSplitChar] at hp
    subst hp
    exact absurd hc (by simp)
  | cons a cs ih =>
    intro p hp c hc
    rw [jsSplitChar] at hp
    by_cases ha : a = sep
    · rw [if_pos ha] at hp
      rcases List.mem_cons.mp hp with hp | hp
      · subst hp; exact absurd hc (by simp)
      · exact ih p hp c hc
    · rw [if_neg ha] at hp
      rcases hsp : jsSplitChar sep cs with _ | ⟨t, ts⟩
      · exact absurd hsp (jsSplitChar_ne_nil sep cs)
      · rw [hsp] at hp
        rcases List.mem_cons.mp hp with hp | hp
        · subst hp
          rcases List.mem_cons.mp hc with hc | hc
          · subst hc; exact ha
          · exact ih t (by rw [hsp]; simp) c hc
        · exact ih p (by rw [hsp]; simp [hp]) c hc

theorem append_sep_inj (sep : Char) :
    ∀ (p1 p2 s1 s2 : Str), (∀ c ∈ p1, ¬ c = sep) → (∀ c ∈ p2, ¬ c = sep) →
      p1 ++ sep :: s1 = p2 ++ sep :: s2 → p1 = p2 ∧ s1 = s2 := by
  intro p1
  induction p1 with
  | nil =>
    intro p2 s1 s2 _ h2 heq
    cases p2 with
    | nil => simpa using heq
    | cons d p2 =>
      rw [List.nil_append, List.cons_append, List.cons_eq_cons] at heq
      exact absurd heq.1.symm (h2 d (by simp))
  | cons c p1 ih =>
    intro p2 s1 s2 h1 h2 heq
    cases p2 with
    | nil =>
      rw [List.cons_append, List.nil_append, List.cons_eq_cons] at heq
      exact absurd heq.1 (h1 c (by simp))
    | cons d p2 =>
      rw [List.cons_append, List.cons_append, List.cons_eq_cons] at heq
      obtain ⟨rfl, heq2⟩ := heq
      obtain ⟨hp, hs⟩ := ih p2 s1 s2 (fun x hx => h1 x (by simp [hx]))
        (fun x hx => h2 x (by simp [hx])) heq2
      exact ⟨by rw [hp], hs⟩

theorem mem_of_jsTrim (s : Str) (c : Char) (h : c ∈ jsTrim s) : c ∈ s := by
  rw [jsTrim] at h
  rw [List.mem_reverse] at h
  have h1 := (List.dropWhile_sublist _).subset h
  rw [List.mem_reverse] at h1
  exact (List.dropWhile_sublist _).subset h1

theorem jsTrim_decomp (s : Str) : ∃ w1 w2 : Str, s = w1 ++ jsTrim s ++ w2 ∧
    (∀ c ∈ w1, jsIsWs c = true) ∧ (∀ c ∈ w2, jsIsWs c = true) := by
  refine ⟨s.takeWhile (jsIsWs ·),
    ((s.dropWhile (jsIsWs ·)).reverse.takeWhile (jsIsWs ·)).reverse, ?_, ?_, ?_⟩
  · rw [jsTrim]
    conv_lhs => rw [← List.takeWhile_append_dropWhile (jsIsWs ·) s]
    rw [List.append_assoc]
    congr 1
    conv_lhs => rw [← List.reverse_reverse (s.dropWhile (jsIsWs ·))]
    conv_lhs =>
      rw [← List.takeWhile_append_dropWhile (jsIsWs ·) (s.dropWhile (jsIsWs ·)).reverse]
    rw [List.reverse_append]
  · intro c hc
    exact List.mem_takeWhile_imp hc
  · intro c hc
    rw [List.mem_reverse] at hc
    exact List.mem_takeWhile_imp hc

theorem ns_ne_untrimmed (s ns : Str) (hws : ∀ c ∈ ns, jsIsWs c = false)
    (hne : ns ≠ jsTrim s) : ns ≠ s := by
  intro heq
  obtain ⟨w1, w2, hdec, hw1, hw2⟩ := jsTrim_decomp s
  cases w1 with
  | cons c w1 =>
    have hcs : c ∈ s := by rw [hdec]; simp
    rw [← heq] at hcs
    have hb := hw1 c (by simp)
    rw [hws c hcs] at hb
    exact Bool.noConfusion hb
  | nil =>
    cases w2 with
    | cons c w2 =>
      have hcs : c ∈ s := by rw [hdec]; simp
      rw [← heq] at hcs
      have hb := hw2 c (by simp)
      rw [hws c hcs] at hb
      exact Bool.noConfusion hb
    | nil =>
      rw [List.nil_append, List.append_nil] at hdec
      exact hne (heq.trans hdec)

theorem map_ne_exists (f : Char → Char) :
    ∀ l : Str, l.map f ≠ l → ∃ c ∈ l, f c ≠ c := by
  intro l
  induction l with
  | nil => intro h; exact absurd rfl h
  | cons c cs ih =>
    intro h
    by_cases hc : f c = c
    · have : cs.map f ≠ cs := by
        intro he
        exact h (by rw [List.map_cons, hc, he])
      obtain ⟨d, hd, hfd⟩ := ih this
      exact ⟨d, by simp [hd], hfd⟩
    · exact ⟨c, by simp, hc⟩

theorem safe_facts : ∀ c ∈ safeChars,
    jsIsWs c = false ∧ jsToLower c = c ∧ ¬ c = '%' ∧ ¬ c = '-' := by decide

theorem dec_sub_dot : ∀ c ∈ decChars, c ∈ dotDigits := by decide

theorem dot_sub_safe : ∀ c ∈ dotDigits, c ∈ safeChars := by decide

theorem hex_sub_safe : ∀ c ∈ ':' :: hexChars, c ∈ safeChars := by decide

theorem decDigitCh_mem (d : Nat) (hd : d < 10) : decDigitCh d ∈ decChars := by
  interval_cases d <;> decide

theorem natToDecAux_subset : ∀ f n c, c ∈ natToDecAux f n → c ∈ decChars := by
  intro f
  induction f with
  | zero =>
    intro n c h
    exact absurd h (by simp [natToDecAux])
  | succ f ih =>
    intro n c h
    rw [natToDecAux] at h
    split at h
    · rename_i hn
      simp only [List.mem_singleton] at h
      subst h
      exact decDigitCh_mem _ (by omega)
    · rw [List.mem_append] at h
      rcases h with h | h
      · exact ih _ _ h
      · simp only [List.mem_singleton] at h
        subst h
        exact decDigitCh_mem _ (Nat.mod_lt _ (by norm_num))

theorem natToDec_subset (n : Nat) (c : Char) (h : c ∈ natToDec n) : c ∈ decChars :=
  natToDecAux_subset _ _ _ h

theorem intToDec_nonneg_subset (i : Int) (hi : 0 ≤ i) (c : Char) (h : c ∈ intToDec i) :
    c ∈ decChars := by
  rw [intToDec, if_neg (by omega)] at h
  exact natToDec_subset _ _ h

theorem numberToIPv4_subset (n : Nat) (c : Char) (h : c ∈ Normalizer.numberToIPv4 n) :
    c ∈ dotDigits := by
  rw [Normalizer.numberToIPv4] at h
  rcases joinSep_subset '.' _ c h with hc | ⟨p, hp, hcp⟩
  · subst hc; decide
  · simp only [List.mem_cons, List.mem_singleton, List.not_mem_nil, or_false] at hp
    rcases hp with rfl | rfl | rfl | rfl
    all_goals exact dec_sub_dot c (natToDec_subset _ _ hcp)

theorem expandStr_subset (start endv : Nat) (x : Str)
    (hx : x ∈ Normalizer.expandIPv4Range start endv) (c : Char) (hc : c ∈ x) :
    c ∈ safeChars := by
  rw [Normalizer.expandIPv4Range, List.mem_map] at hx
  obtain ⟨p, _, rfl⟩ := hx
  rw [List.mem_append] at hc
  rcases hc with hc | hc
  · exact dot_sub_safe c (numberToIPv4_subset _ c hc)
  · rcases List.mem_cons.mp hc with rfl | hc
    · decide
    · exact dot_sub_safe c (dec_sub_dot c (natToDec_subset _ _ hc))

theorem beq_char_false {P : Char → Bool} (c l : Char) (h : P c = true) (hl : P l = false) :
    (c == l) = false := by
  cases hc : c == l
  · rfl
  · have := eq_of_beq hc
    subst this
    rw [h] at hl
    exact Bool.noConfusion hl

theorem not_ws_of_digit (c : Char) (h : isDigitCh c = true) : jsIsWs c = false := by
  rw [jsIsWs]
  rw [beq_char_false c ' ' h (by decide), beq_char_false c '\t' h (by decide),
    beq_char_false c '\n' h (by decide), beq_char_false c (Char.ofNat 11) h (by decide),
    beq_char_false c (Char.ofNat 12) h (by decide), beq_char_false c '\r' h (by decide)]
  rfl

theorem ne_char_of_digit (c l : Char) (h : isDigitCh c = true) (hl : isDigitCh l = false) :
    ¬ c = l := by
  intro heq
  subst heq
  rw [h] at hl
  exact Bool.noConfusion hl

theorem jsParseIntDec_digits (o : Str) (hd : ∀ c ∈ o, isDigitCh c = true) (hne : o ≠ []) :
    jsParseIntDec o = some ((decDigitsVal o : Nat) : Int) := by
  rw [jsParseIntDec]
  rw [dropWhile_eq_self_of _ o (fun c hc => not_ws_of_digit c (hd c hc))]
  rw [jsSign_eq o (fun c hc => ⟨ne_char_of_digit c '+' (hd c hc) (by decide),
    ne_char_of_digit c '-' (hd c hc) (by decide)⟩)]
  rw [takeWhile_eq_self_of _ o hd]
  rw [if_neg (by simpa [List.isEmpty_iff] using hne)]
  rw [one_mul]

theorem valid_parts (s : Str) (hv : Normalizer.isValidIPv4Address s = true) :
    ∀ p ∈ jsSplitChar '.' s, p ≠ [] ∧ ∀ c ∈ p, isDigitCh c = true := by
  rw [Normalizer.isValidIPv4Address] at hv
  cases hm : Normalizer.matchIPv4Octets s with
  | none => rw [hm] at hv; exact absurd hv (by simp)
  | some parts =>
    rw [Normalizer.matchIPv4Octets] at hm
    split at hm
    · rename_i hcond
      simp only [Option.some.injEq] at hm
      subst hm
      rw [Bool.and_eq_true, List.all_eq_true] at hcond
      intro p hp
      have := hcond.2 p hp
      rw [Bool.and_eq_true, Bool.and_eq_true, List.all_eq_true] at this
      refine ⟨?_, fun c hc => this.2 c hc⟩
      intro hnil
      subst hnil
      have := this.1.1
      simp at this
    · exact absurd hm (by simp)

theorem normalizeIPv4_subset (s : Str) (hv : Normalizer.isValidIPv4Address s = true)
    (c : Char) (h : c ∈ Normalizer.normalizeIPv4Address s) : c ∈ dotDigits := by
  rw [Normalizer.normalizeIPv4Address] at h
  rcases joinSep_subset '.' _ c h with hc | ⟨p, hp, hcp⟩
  · subst hc; decide
  · rw [List.mem_map] at hp
    obtain ⟨o, ho, rfl⟩ := hp
    have hop := valid_parts s hv o ho
    rw [jsParseIntDec_digits o hop.2 hop.1] at hcp
    rw [Normalizer.jsNumToStr] at hcp
    exact dec_sub_dot c (intToDec_nonneg_subset _ (by positivity) c hcp)

theorem compressIPv6_charset (x out : Str) (h : Normalizer.compressIPv6 x = some out) :
    ∀ c ∈ out, c ∈ ':' :: hexChars := by
  rw [Normalizer.compressIPv6] at h
  cases hp : Normalizer.parseIPv6ToBytes x with
  | none => rw [hp] at h; exact absurd h (by simp)
  | some bytes =>
    rw [hp] at h
    simp only at h
    have hgroups : ∀ p ∈ (Normalizer.groupValsOfBytes bytes).map fun v => natToHex v,
        ∀ c ∈ p, c ∈ ':' :: hexChars := by
      intro p hp2 c hc
      rw [List.mem_map] at hp2
      obtain ⟨v, _, rfl⟩ := hp2
      exact List.mem_cons_of_mem _ (natToHexAux_subset _ _ _ hc)
    intro c hc
    split at h
    · split at h
      · simp only [Option.some.injEq] at h
        subst h
        simp only [List.mem_cons, List.not_mem_nil, or_false] at hc
        rcases hc with rfl | rfl <;> decide
      · simp only [Option.some.injEq] at h
        subst h
        rw [List.append_assoc, List.mem_append] at hc
        rcases hc with hc | hc
        · rcases joinSep_subset ':' _ c hc with rfl | ⟨p, hp2, hcp⟩
          · simp
          · exact hgroups p ((List.take_sublist _ _).subset hp2) c hcp
        · rw [List.mem_append] at hc
          rcases hc with hc | hc
          · simp only [List.mem_cons, List.not_mem_nil, or_false] at hc
            rcases hc with rfl | rfl <;> decide
          · rcases joinSep_subset ':' _ c hc with rfl | ⟨p, hp2, hcp⟩
            · simp
            · exact hgroups p ((List.drop_sublist _ _).subset hp2) c hcp
    · simp only [Option.some.injEq] at h
      subst h
      rcases joinSep_subset ':' _ c hc with rfl | ⟨p, hp2, hcp⟩
      · simp
      · exact hgroups p hp2 c hcp

theorem stripIPv6ZoneId_subset (s : Str) (c : Char)
    (h : c ∈ Normalizer.stripIPv6ZoneId s) : c ∈ s := by
  rw [Normalizer.stripIPv6ZoneId] at h
  simp only at h
  split at h
  · exact h
  · split at h
    · rw [List.mem_append] at h
      rcases h with h | h
      · exact (List.takeWhile_sublist _).subset h
      · exact (List.drop_sublist _ _).subset h
    · exact (List.takeWhile_sublist _).subset h

theorem createResult_status (o st : Str) (n w er : Option Str) (ex : List Str) :
    (Normalizer.createResult o st n w er ex).status = st := rfl

theorem createResult_warning (o st : Str) (n w er : Option Str) (ex : List Str) :
    (Normalizer.createResult o st n w er ex).warning = Normalizer.orNull w := rfl

theorem createResult_normalized (o st : Str) (n w er : Option Str) (ex : List Str) :
    (Normalizer.createResult o st n w er ex).normalized = Normalizer.orNull n := rfl

theorem createResult_error (o st : Str) (n w er : Option Str) (ex : List Str) :
    (Normalizer.createResult o st n w er ex).error = Normalizer.orNull er := rfl

theorem orNull_eq_some (o : Option Str) (t : Str) (h : Normalizer.orNull o = some t) :
    o = some t := by
  rcases o with _ | s
  · exact absurd h (by simp [Normalizer.orNull])
  · rcases s with _ | ⟨c, cs⟩
    · exact absurd h (by simp [Normalizer.orNull])
    · exact h

theorem slashMaskMatch_struct (s a b : Str) (h : Normalizer.slashMaskMatch s = some (a, b)) :
    s = a ++ '/' :: b ∧ (∀ c ∈ a, ¬ c = '/') ∧ (∀ c ∈ b, ¬ c = '/') := by
  rw [Normalizer.slashMaskMatch] at h
  split at h
  · rename_i a0 b0 heq
    split at h
    · simp only [Option.some.injEq, Prod.mk.injEq] at h
      obtain ⟨rfl, rfl⟩ := h
      have hj := joinSep_jsSplitChar '/' s
      rw [heq] at hj
      exact ⟨hj.symm, fun c hc => jsSplitChar_sep_free '/' s a0 (by rw [heq]; simp) c hc,
        fun c hc => jsSplitChar_sep_free '/' s b0 (by rw [heq]; simp) c hc⟩
    · exact Option.noConfusion h
  · exact Option.noConfusion h

theorem cidrMatch4_struct (s a b : Str) (h : Normalizer.cidrMatch4 s = some (a, b)) :
    s = a ++ '/' :: b ∧ (∀ c ∈ a, ¬ c = '/') ∧ b ≠ [] ∧
      (∀ c ∈ b, isDigitCh c = true) := by
  rw [Normalizer.cidrMatch4] at h
  split at h
  · rename_i a0 b0 heq
    split at h
    · rename_i hcond
      simp only [Option.some.injEq, Prod.mk.injEq] at h
      obtain ⟨rfl, rfl⟩ := h
      simp only [Bool.and_eq_true, decide_eq_true_eq, List.all_eq_true] at hcond
      have hj := joinSep_jsSplitChar '/' s
      rw [heq] at hj
      exact ⟨hj.symm, fun c hc => jsSplitChar_sep_free '/' s a0 (by rw [heq]; simp) c hc,
        hcond.1.1.2, fun c hc => hcond.2 c hc⟩
    · exact Option.noConfusion h
  · exact Option.noConfusion h

theorem cidrMatch6_struct (s a b : Str) (h : Normalizer.cidrMatch6 s = some (a, b)) :
    s = a ++ '/' :: b ∧ b ≠ [] ∧ (∀ c ∈ b, isDigitCh c = true) := by
  rw [Normalizer.cidrMatch6] at h
  split at h
  · rename_i a0 b0 heq
    split at h
    · rename_i hcond
      simp only [Option.some.injEq, Prod.mk.injEq] at h
      obtain ⟨rfl, rfl⟩ := h
      simp only [Bool.and_eq_true, decide_eq_true_eq, List.all_eq_true] at hcond
      have hj := joinSep_jsSplitChar '/' s
      rw [heq] at hj
      exact ⟨hj.symm, hcond.1.1.2, fun c hc => hcond.2 c hc⟩
    · exact Option.noConfusion h
  · exact Option.noConfusion h

theorem rangeFullMatch_dash (s a b : Str) (h : Normalizer.rangeFullMatch s = some (a, b)) :
    '-' ∈ s := by
  rw [Normalizer.rangeFullMatch] at h
  split at h
  · rename_i a0 b0 heq
    split at h
    · simp only [Option.some.injEq, Prod.mk.injEq] at h
      have hj := joinSep_jsSplitChar '-' s
      rw [heq] at hj
      rw [← hj]
      show '-' ∈ a0 ++ '-' :: b0
      simp
    · exact Option.noConfusion h
  · exact Option.noConfusion h

theorem rangeShortMatch_dash (s a b : Str) (h : Normalizer.rangeShortMatch s = some (a, b)) :
    '-' ∈ s := by
  rw [Normalizer.rangeShortMatch] at h
  split at h
  · rename_i a0 b0 heq
    split at h
    · simp only [Option.some.injEq, Prod.mk.injEq] at h
      have hj := joinSep_jsSplitChar '-' s
      rw [heq] at hj
      rw [← hj]
      show '-' ∈ a0 ++ '-' :: b0
      simp
    · exact Option.noConfusion h
  · exact Option.noConfusion h

theorem spaceMaskMatch_ws (s a b : Str) (h : Normalizer.spaceMaskMatch s = some (a, b)) :
    ∃ c ∈ s, jsIsWs c = true := by
  rw [Normalizer.spaceMaskMatch] at h
  split at h
  · rename_i hcond
    simp only [Bool.and_eq_true, decide_eq_true_eq] at hcond
    have hw := hcond.1.1.2
    rcases hwc : (s.dropWhile fun c => !jsIsWs c).takeWhile (jsIsWs ·) with _ | ⟨c, w⟩
    · exact absurd hwc hw
    · refine ⟨c, ?_, ?_⟩
      · have h1 : c ∈ (s.dropWhile fun c => !jsIsWs c).takeWhile (jsIsWs ·) := by
          rw [hwc]; simp
        exact (List.dropWhile_sublist _).subset ((List.takeWhile_sublist _).subset h1)
      · have h1 : c ∈ (s.dropWhile fun c => !jsIsWs c).takeWhile (jsIsWs ·) := by
          rw [hwc]; simp
        exact List.mem_takeWhile_imp h1
  · exact Option.noConfusion h

theorem dotDigits_ne_slash : ∀ c ∈ dotDigits, ¬ c = '/' := by decide

theorem decChars_ne_dot : ∀ c ∈ decChars, ¬ c = '.' := by decide

theorem append3_ne_nil (a b : Str) (h : a ≠ []) : a ++ b ≠ [] := by
  intro hn
  rcases List.append_eq_nil.mp hn with ⟨h1, _⟩
  exact h h1

theorem ResultOK_lift (s : Str) (r : Normalizer.NormalizationResult)
    (h : ResultOK (jsTrim s) r) : ResultOK s r := by
  unfold ResultOK at *
  rcases h with h | ⟨h1, h2, h3⟩ | h
  · exact Or.inl h
  · refine Or.inr (Or.inl ⟨h1, h2, ?_⟩)
    intro ns hns
    obtain ⟨hw, hne⟩ := h3 ns hns
    exact ⟨hw, ns_ne_untrimmed s ns hw hne⟩
  · exact Or.inr (Or.inr h)

theorem ipv4Slash_ok (e t : Str) (r : Normalizer.NormalizationResult)
    (h : Normalizer.ipv4SlashMaskAttempt e t = some r) : ResultOK t r := by
  rw [Normalizer.ipv4SlashMaskAttempt] at h
  split at h
  case h_2 => exact Option.noConfusion h
  rename_i addr mask hmatch
  split at h
  case isFalse => exact Option.noConfusion h
  rename_i hdot
  split at h
  case h_2 => exact Option.noConfusion h
  rename_i pfx hpfx
  split at h
  case isFalse => exact Option.noConfusion h
  rename_i hvalid
  simp only [Option.some.injEq] at h
  subst h
  obtain ⟨hts, haf, hbf⟩ := slashMaskMatch_struct t addr mask hmatch
  unfold ResultOK
  right; left
  refine ⟨rfl, ?_, ?_⟩
  · rw [createResult_warning,
      orNull_some_ne _ (append3_ne_nil _ _ (append3_ne_nil _ _ (append3_ne_nil _ _ (by decide))))]
    simp
  · intro ns' hns'
    rw [createResult_normalized] at hns'
    have hsome := orNull_eq_some _ _ hns'
    simp only [Option.some.injEq] at hsome
    subst hsome
    constructor
    · intro c hc
      rw [List.mem_append] at hc
      rcases hc with hc | hc
      · exact (safe_facts c (dot_sub_safe c (normalizeIPv4_subset addr hvalid c hc))).1
      · rcases List.mem_cons.mp hc with rfl | hc
        · decide
        · exact (safe_facts c (dot_sub_safe c (dec_sub_dot c (natToDec_subset _ _ hc)))).1
    · intro heq
      rw [hts] at heq
      obtain ⟨_, hmask⟩ := append_sep_inj '/' _ _ _ _
        (fun c hc => dotDigits_ne_slash c (normalizeIPv4_subset addr hvalid c hc)) haf heq
      have hdotmem : '.' ∈ mask := by simpa using hdot
      rw [← hmask] at hdotmem
      exact decChars_ne_dot '.' (natToDec_subset _ _ hdotmem) rfl

theorem ipv4Cidr_ok (e t : Str) (r : Normalizer.NormalizationResult)
    (h : Normalizer.ipv4CidrAttempt e t = some r) : ResultOK t r := by
  rw [Normalizer.ipv4CidrAttempt] at h
  split at h
  case h_2 => exact Option.noConfusion h
  rename_i addr pfxStr hmatch
  simp only at h
  split at h
  case isFalse => exact Option.noConfusion h
  rename_i hcond
  rw [Bool.and_eq_true] at hcond
  have hvalid := hcond.1
  obtain ⟨hts, haf, hbne, hbd⟩ := cidrMatch4_struct t addr pfxStr hmatch
  split at h
  · rename_i hne
    simp only [Option.some.injEq] at h
    subst h
    unfold ResultOK
    right; left
    refine ⟨rfl, ?_, ?_⟩
    · rw [createResult_warning,
        orNull_some_ne _ (append3_ne_nil _ _ (append3_ne_nil _ _ (append3_ne_nil _ _
          (append3_ne_nil _ _ (by decide)))))]
      simp
    · intro ns' hns'
      rw [createResult_normalized] at hns'
      have hsome := orNull_eq_some _ _ hns'
      simp only [Option.some.injEq] at hsome
      subst hsome
      have hp0 : (0 : Int) ≤ (jsParseIntDec pfxStr).getD 0 := by
        rw [jsParseIntDec_digits pfxStr hbd hbne]
        simp
      constructor
      · intro c hc
        rw [List.mem_append] at hc
        rcases hc with hc | hc
        · exact (safe_facts c (dot_sub_safe c (normalizeIPv4_subset addr hvalid c hc))).1
        · rcases List.mem_cons.mp hc with rfl | hc
          · decide
          · exact (safe_facts c (dot_sub_safe c (dec_sub_dot c
              (intToDec_nonneg_subset _ hp0 c hc)))).1
      · intro heq
        rw [hts] at heq
        obtain ⟨haeq, _⟩ := append_sep_inj '/' _ _ _ _
          (fun c hc => dotDigits_ne_slash c (normalizeIPv4_subset addr hvalid c hc)) haf heq
        exact hne haeq
  · simp only [Option.some.injEq] at h
    subst h
    unfold ResultOK
    left
    rfl

theorem ipv4Space_ok (e t : Str) (r : Normalizer.NormalizationResult)
    (h : Normalizer.ipv4SpaceMaskAttempt e t = some r) : ResultOK t r := by
  rw [Normalizer.ipv4SpaceMaskAttempt] at h
  split at h
  case h_2 => exact Option.noConfusion h
  rename_i addr mask hmatch
  split at h
  case h_2 => exact Option.noConfusion h
  rename_i pfx hpfx
  split at h
  case isFalse => exact Option.noConfusion h
  rename_i hvalid
  simp only [Option.some.injEq] at h
  subst h
  obtain ⟨cw, hcw, hcww⟩ := spaceMaskMatch_ws t addr mask hmatch
  unfold ResultOK
  right; left
  refine ⟨rfl, ?_, ?_⟩
  · rw [createResult_warning,
      orNull_some_ne _ (append3_ne_nil _ _ (append3_ne_nil _ _ (append3_ne_nil _ _
        (append3_ne_nil _ _ (by decide)))))]
    simp
  · intro ns' hns'
    rw [createResult_normalized] at hns'
    have hsome := orNull_eq_some _ _ hns'
    simp only [Option.some.injEq] at hsome
    subst hsome
    have hws : ∀ c ∈ Normalizer.normalizeIPv4Address addr ++ '/' :: natToDec pfx,
        jsIsWs c = false := by
      intro c hc
      rw [List.mem_append] at hc
      rcases hc with hc | hc
      · exact (safe_facts c (dot_sub_safe c (normalizeIPv4_subset addr hvalid c hc))).1
      · rcases List.mem_cons.mp hc with rfl | hc
        · decide
        · exact (safe_facts c (dot_sub_safe c (dec_sub_dot c (natToDec_subset _ _ hc)))).1
    refine ⟨hws, ?_⟩
    intro heq
    rw [heq] at hws
    rw [hws cw hcw] at hcww
    exact Bool.noConfusion hcww

theorem ipv4Bare_ok (e t : Str) (r : Normalizer.NormalizationResult)
    (h : Normalizer.ipv4BareAttempt e t = some r) : ResultOK t r := by
  rw [Normalizer.ipv4BareAttempt] at h
  split at h
  case isFalse => exact Option.noConfusion h
  rename_i hvalid
  simp only at h
  split at h
  · rename_i hne
    simp only [Option.some.injEq] at h
    subst h
    unfold ResultOK
    right; left
    refine ⟨rfl, ?_, ?_⟩
    · rw [createResult_warning,
        orNull_some_ne _ (append3_ne_nil _ _ (append3_ne_nil _ _ (append3_ne_nil _ _
          (append3_ne_nil _ _ (by decide)))))]
      simp
    · intro ns' hns'
      rw [createResult_normalized] at hns'
      have hsome := orNull_eq_some _ _ hns'
      simp only [Option.some.injEq] at hsome
      subst hsome
      constructor
      · intro c hc
        rw [List.mem_append] at hc
        rcases hc with hc | hc
        · exact (safe_facts c (dot_sub_safe c (normalizeIPv4_subset t hvalid c hc))).1
        · rcases List.mem_cons.mp hc with rfl | hc
          · decide
          · rcases List.mem_cons.mp hc with rfl | hc
            · decide
            · rcases List.mem_cons.mp hc with rfl | hc
              · decide
              · exact absurd hc (by simp)
      · intro heq
        have hslash : '/' ∈ Normalizer.normalizeIPv4Address t ++ "/32".data := by simp
        rw [heq] at hslash
        rw [← joinSep_jsSplitChar '.' t] at hslash
        rcases joinSep_subset '.' _ '/' hslash with hd | ⟨p, hp, hcp⟩
        · exact absurd hd (by decide)
        · have := (valid_parts t hvalid p hp).2 '/' hcp
          exact absurd this (by decide)
  · simp only [Option.some.injEq] at h
    subst h
    unfold ResultOK
    left
    rfl

theorem ipv4RangeFull_ok (e t : Str) (r : Normalizer.NormalizationResult)
    (h : Normalizer.ipv4RangeFullAttempt e t = some r) : ResultOK t r := by
  rw [Normalizer.ipv4RangeFullAttempt] at h
  split at h
  case h_2 => exact Option.noConfusion h
  rename_i startAddr endAddr hmatch
  split at h
  case isFalse => exact Option.noConfusion h
  rename_i hvalid
  simp only at h
  split at h
  · simp only [Option.some.injEq] at h
    subst h
    unfold ResultOK
    right; right
    exact ⟨rfl, by rw [createResult_error, orNull_some_ne _ (by decide)]; simp, rfl⟩
  · simp only [Option.some.injEq] at h
    subst h
    unfold ResultOK
    right; left
    refine ⟨rfl, ?_, ?_⟩
    · rw [createResult_warning,
        orNull_some_ne _ (append3_ne_nil _ _ (append3_ne_nil _ _ (by decide)))]
      simp
    · intro ns' hns'
      rw [createResult_normalized] at hns'
      have hhead := orNull_eq_some _ _ hns'
      have hmem := List.mem_of_mem_head? hhead
      have hsafe : ∀ c ∈ ns', c ∈ safeChars := fun c hc => expandStr_subset _ _ ns' hmem c hc
      refine ⟨fun c hc => (safe_facts c (hsafe c hc)).1, ?_⟩
      intro heq
      have hd := rangeFullMatch_dash t startAddr endAddr hmatch
      rw [← heq] at hd
      exact (safe_facts '-' (hsafe '-' hd)).2.2.2 rfl

theorem ipv4RangeShort_ok (e t : Str) (r : Normalizer.NormalizationResult)
    (h : Normalizer.ipv4RangeShortAttempt e t = some r) : ResultOK t r := by
  rw [Normalizer.ipv4RangeShortAttempt] at h
  split at h
  case h_2 => exact Option.noConfusion h
  rename_i startAddr endOctet hmatch
  split at h
  case isFalse => exact Option.noConfusion h
  rename_i hvalid
  simp only at h
  split at h
  · simp only [Option.some.injEq] at h
    subst h
    unfold ResultOK
    right; right
    exact ⟨rfl, by rw [createResult_error, orNull_some_ne _ (by decide)]; simp, rfl⟩
  · split at h
    · simp only [Option.some.injEq] at h
      subst h
      unfold ResultOK
      right; right
      exact ⟨rfl, by rw [createResult_error, orNull_some_ne _ (by decide)]; simp, rfl⟩
    · simp only [Option.some.injEq] at h
      subst h
      unfold ResultOK
      right; left
      refine ⟨rfl, ?_, ?_⟩
      · rw [createResult_warning,
          orNull_some_ne _ (append3_ne_nil _ _ (append3_ne_nil _ _ (append3_ne_nil _ _
            (append3_ne_nil _ _ (by decide)))))]
        simp
      · intro ns' hns'
        rw [createResult_normalized] at hns'
        have hhead := orNull_eq_some _ _ hns'
        have hmem := List.mem_of_mem_head? hhead
        have hsafe : ∀ c ∈ ns', c ∈ safeChars := fun c hc => expandStr_subset _ _ ns' hmem c hc
        refine ⟨fun c hc => (safe_facts c (hsafe c hc)).1, ?_⟩
        intro heq
        have hd := rangeShortMatch_dash t startAddr endOctet hmatch
        rw [← heq] at hd
        exact (safe_facts '-' (hsafe '-' hd)).2.2.2 rfl

theorem parseIPv4Range_ok (e : Str) (r : Normalizer.NormalizationResult)
    (h : Normalizer.parseIPv4Range e = some r) : ResultOK (jsTrim e) r := by
  rw [Normalizer.parseIPv4Range] at h
  split at h
  · split at h
    · rename_i r0 hfull
      simp only [Option.some.injEq] at h
      subst h
      exact ipv4RangeFull_ok e _ r0 hfull
    · exact ipv4RangeShort_ok e _ r h
  · exact Option.noConfusion h

theorem parseIPv4Entry_ok (e : Str) (r : Normalizer.NormalizationResult)
    (h : Normalizer.parseIPv4Entry e = some r) : ResultOK (jsTrim e) r := by
  rw [Normalizer.parseIPv4Entry] at h
  split at h
  · rename_i r0 hs
    simp only [Option.some.injEq] at h
    subst h
    exact ipv4Slash_ok e _ r0 hs
  · split at h
    · rename_i r0 hs
      simp only [Option.some.injEq] at h
      subst h
      exact ipv4Cidr_ok e _ r0 hs
    · split at h
      · rename_i r0 hs
        simp only [Option.some.injEq] at h
        subst h
        exact ipv4Space_ok e _ r0 hs
      · split at h
        · rename_i r0 hs
          simp only [Option.some.injEq] at h
          subst h
          exact ipv4Bare_ok e _ r0 hs
        · exact ResultOK_lift _ r (parseIPv4Range_ok _ r h)

theorem null_sub_safe : ∀ c ∈ "null".data, c ∈ safeChars := by decide

theorem ipv6Result_ok (e tOut ns : Str) (warnings2 : List Str) (wasMod : Bool)
    (hns_ws : ∀ c ∈ ns, jsIsWs c = false)
    (hns_ne : wasMod = true → ns ≠ tOut)
    (hw2 : wasMod = true → warnings2 ≠ [] ∧ ∃ x xs, warnings2 = x :: xs ∧ x ≠ []) :
    ResultOK tOut (Normalizer.createResult e
      (if wasMod = true then Normalizer.NormalizationStatus.CORRECTED
       else Normalizer.NormalizationStatus.VALID)
      (some ns)
      (if warnings2 ≠ [] then some (joinSepS "; ".data warnings2) else none) none [ns]) := by
  cases wasMod with
  | false =>
    unfold ResultOK
    left
    rw [createResult_status, if_neg (by simp)]
  | true =>
    obtain ⟨hne2, x, xs, hshape, hxne⟩ := hw2 rfl
    unfold ResultOK
    right; left
    refine ⟨?_, ?_, ?_⟩
    · rw [createResult_status, if_pos rfl]
    · rw [createResult_warning, if_pos hne2, hshape,
        orNull_some_ne _ (joinSepS_ne_nil _ x xs hxne)]
      simp
    · intro ns' hns'
      rw [createResult_normalized] at hns'
      have hsome := orNull_eq_some _ _ hns'
      simp only [Option.some.injEq] at hsome
      subst hsome
      exact ⟨hns_ws, hns_ne rfl⟩

theorem ipv6Cidr_ok (e addr pfxStr tOut : Str) (warnings : List Str)
    (hw : warnings = [] ∨ warnings = ["Removed zone ID".data])
    (hzw : warnings ≠ [] → '%' ∈ tOut)
    (haddr : ∀ c ∈ addr, c ∈ tOut)
    (hbne : pfxStr ≠ []) (hbd : ∀ c ∈ pfxStr, isDigitCh c = true) :
    ResultOK tOut (Normalizer.ipv6CidrBranch e addr pfxStr warnings) := by
  have hp0 : (0 : Int) ≤ (jsParseIntDec pfxStr).getD 0 := by
    rw [jsParseIntDec_digits pfxStr hbd hbne]
    simp
  rw [Normalizer.ipv6CidrBranch]
  simp only
  split
  · unfold ResultOK
    right; right
    refine ⟨rfl, ?_, rfl⟩
    rw [createResult_error, orNull_some_ne _ (append3_ne_nil _ _ (by decide))]
    simp
  · split
    · unfold ResultOK
      right; right
      refine ⟨rfl, ?_, rfl⟩
      rw [createResult_error, orNull_some_ne _ (by decide)]
      simp
    · rename_i expanded hexp
      have hns_safe : ∀ c ∈ Normalizer.jsTemplateStr (Normalizer.compressIPv6 expanded) ++
          '/' :: intToDec ((jsParseIntDec pfxStr).getD 0), c ∈ safeChars := by
        intro c hc
        rw [List.mem_append] at hc
        rcases hc with hc | hc
        · cases hcomp : Normalizer.compressIPv6 expanded with
          | none =>
            rw [hcomp, Normalizer.jsTemplateStr] at hc
            exact null_sub_safe c hc
          | some out =>
            rw [hcomp, Normalizer.jsTemplateStr] at hc
            exact hex_sub_safe c (compressIPv6_charset expanded out hcomp c hc)
        · rcases List.mem_cons.mp hc with rfl | hc
          · decide
          · exact dot_sub_safe c (dec_sub_dot c (intToDec_nonneg_subset _ hp0 c hc))
      refine ipv6Result_ok e tOut _ _ _
        (fun c hc => (safe_facts c (hns_safe c hc)).1) ?_ ?_
      · intro hmod heq
        rw [Bool.or_eq_true, decide_eq_true_eq, decide_eq_true_eq] at hmod
        rcases hmod with hmod | hmod
        · have hpc := hzw hmod
          rw [← heq] at hpc
          exact (safe_facts '%' (hns_safe '%' hpc)).2.2.1 rfl
        · obtain ⟨cu, hcu, hflc⟩ := map_ne_exists jsToLower addr
            (by simpa [jsToLowerStr] using hmod)
          have hmem := haddr cu hcu
          rw [← heq] at hmem
          exact hflc ((safe_facts cu (hns_safe cu hmem)).2.1)
      · intro hmod
        rw [Bool.or_eq_true, decide_eq_true_eq, decide_eq_true_eq] at hmod
        split
        · rcases hw with rfl | rfl
          · exact ⟨by simp, "Normalized to lowercase".data, [], by simp, by decide⟩
          · exact ⟨by simp, "Removed zone ID".data, ["Normalized to lowercase".data],
              by simp, by decide⟩
        · rename_i hnl
          rcases hw with rfl | rfl
          · rcases hmod with hmod | hmod
            · exact absurd rfl hmod
            · exact absurd hmod hnl
          · exact ⟨by simp, "Removed zone ID".data, [], rfl, by decide⟩

theorem ipv6Bare_ok (e tr expanded tOut : Str) (warnings : List Str)
    (hw : warnings = [] ∨ warnings = ["Removed zone ID".data])
    (hzw : warnings ≠ [] → '%' ∈ tOut)
    (hmem : ∀ c ∈ tr, c ∈ tOut) :
    ResultOK tOut (Normalizer.ipv6BareBranch e tr expanded warnings) := by
  rw [Normalizer.ipv6BareBranch]
  simp only
  have hns_safe : ∀ c ∈ Normalizer.jsTemplateStr (Normalizer.compressIPv6 expanded) ++
      "/128".data, c ∈ safeChars := by
    intro c hc
    rw [List.mem_append] at hc
    rcases hc with hc | hc
    · cases hcomp : Normalizer.compressIPv6 expanded with
      | none =>
        rw [hcomp, Normalizer.jsTemplateStr] at hc
        exact null_sub_safe c hc
      | some out =>
        rw [hcomp, Normalizer.jsTemplateStr] at hc
        exact hex_sub_safe c (compressIPv6_charset expanded out hcomp c hc)
    · have hsub : ∀ x ∈ "/128".data, x ∈ safeChars := by decide
      exact hsub c hc
  refine ipv6Result_ok e tOut _ _ _
    (fun c hc => (safe_facts c (hns_safe c hc)).1) ?_ ?_
  · intro hmod heq
    rw [Bool.or_eq_true, decide_eq_true_eq, decide_eq_true_eq] at hmod
    rcases hmod with hmod | hmod
    · have hpc := hzw hmod
      rw [← heq] at hpc
      exact (safe_facts '%' (hns_safe '%' hpc)).2.2.1 rfl
    · obtain ⟨cu, hcu, hflc⟩ := map_ne_exists jsToLower tr
        (by simpa [jsToLowerStr] using hmod)
      have hmem2 := hmem cu hcu
      rw [← heq] at hmem2
      exact hflc ((safe_facts cu (hns_safe cu hmem2)).2.1)
  · intro hmod
    rw [Bool.or_eq_true, decide_eq_true_eq, decide_eq_true_eq] at hmod
    split
    · rcases hw with rfl | rfl
      · exact ⟨by simp, "Normalized to lowercase".data, [], by simp, by decide⟩
      · exact ⟨by simp, "Removed zone ID".data, ["Normalized to lowercase".data],
          by simp, by decide⟩
    · rename_i hnl
      rcases hw with rfl | rfl
      · rcases hmod with hmod | hmod
        · exact absurd rfl hmod
        · exact absurd hmod hnl
      · exact ⟨by simp, "Removed zone ID".data, [], rfl, by decide⟩

theorem parseIPv6Entry_ok (e : Str) (r : Normalizer.NormalizationResult)
    (h : Normalizer.parseIPv6Entry e = some r) : ResultOK (jsTrim e) r := by
  rw [Normalizer.parseIPv6Entry] at h
  simp only at h
  split at h
  · exact Option.noConfusion h
  · by_cases hz : Normalizer.hasIPv6ZoneId (jsTrim e) = true
    · rw [if_pos hz, if_pos hz] at h
      split at h
      · simp only [Option.some.injEq] at h
        subst h
        rw [Normalizer.parseIPv6Range]
        unfold ResultOK
        right; right
        refine ⟨rfl, ?_, rfl⟩
        rw [createResult_error, orNull_some_ne _ (by decide)]
        simp
      · split at h
        · rename_i addr pfxStr hm
          simp only [Option.some.injEq] at h
          subst h
          obtain ⟨hts, hbne, hbd⟩ := cidrMatch6_struct _ addr pfxStr hm
          refine ipv6Cidr_ok e addr pfxStr (jsTrim e) _ (Or.inr rfl) (fun _ => ?_) ?_ hbne hbd
          · have hcont : (jsTrim e).contains '%' = true := hz
            simpa using hcont
          · intro c hc
            have hmem : c ∈ Normalizer.stripIPv6ZoneId (jsTrim e) := by
              rw [hts]
              simp [hc]
            exact stripIPv6ZoneId_subset _ c hmem
        · split at h
          · rename_i expanded hexp
            simp only [Option.some.injEq] at h
            subst h
            refine ipv6Bare_ok e _ expanded (jsTrim e) _ (Or.inr rfl) (fun _ => ?_) ?_
            · have hcont : (jsTrim e).contains '%' = true := hz
              simpa using hcont
            · intro c hc
              exact stripIPv6ZoneId_subset _ c hc
          · exact Option.noConfusion h
    · rw [if_neg hz, if_neg hz] at h
      split at h
      · simp only [Option.some.injEq] at h
        subst h
        rw [Normalizer.parseIPv6Range]
        unfold ResultOK
        right; right
        refine ⟨rfl, ?_, rfl⟩
        rw [createResult_error, orNull_some_ne _ (by decide)]
        simp
      · split at h
        · rename_i addr pfxStr hm
          simp only [Option.some.injEq] at h
          subst h
          obtain ⟨hts, hbne, hbd⟩ := cidrMatch6_struct _ addr pfxStr hm
          refine ipv6Cidr_ok e addr pfxStr (jsTrim e) [] (Or.inl rfl)
            (fun hne => absurd rfl hne) ?_ hbne hbd
          intro c hc
          rw [hts]
          simp [hc]
        · split at h
          · rename_i expanded hexp
            simp only [Option.some.injEq] at h
            subst h
            exact ipv6Bare_ok e _ expanded (jsTrim e) [] (Or.inl rfl)
              (fun hne => absurd rfl hne) (fun c hc => hc)
          · exact Option.noConfusion h

theorem normalizeEntry_ok (entry : Str) :
    ResultOK (jsTrim entry) (Normalizer.normalizeEntry entry) := by
  rw [Normalizer.normalizeEntry]
  simp only
  split
  · unfold ResultOK
    right; right
    refine ⟨rfl, ?_, rfl⟩
    rw [createResult_error, orNull_some_ne _ (by decide)]
    simp
  · split
    · rename_i r6 hr6
      split at hr6
      · exact ResultOK_lift _ _ (parseIPv6Entry_ok _ r6 hr6)
      · exact Option.noConfusion hr6
    · split
      · rename_i r4 hr4
        exact ResultOK_lift _ _ (parseIPv4Entry_ok _ r4 hr4)
      · unfold ResultOK
        right; right
        refine ⟨rfl, ?_, rfl⟩
        rw [createResult_error, orNull_some_ne _ (by decide)]
        simp

/-- **C3** (confirmed).  Per-token normalization is a total function whose
result status is always one of `valid`, `corrected`, `invalid`, and an
`invalid` result always carries a non-null error message. -/
theorem C3_normalizeEntry_total_three_statuses (entry : Str) :
    ((Normalizer.normalizeEntry entry).status = Normalizer.NormalizationStatus.VALID ∨
     (Normalizer.normalizeEntry entry).status = Normalizer.NormalizationStatus.CORRECTED ∨
     (Normalizer.normalizeEntry entry).status = Normalizer.NormalizationStatus.INVALID) ∧
    ((Normalizer.normalizeEntry entry).status = Normalizer.NormalizationStatus.INVALID →
      (Normalizer.normalizeEntry entry).error ≠ none) := by
  have h := normalizeEntry_ok entry
  unfold ResultOK at h
  rcases h with h | ⟨h1, _, _⟩ | ⟨h1, h2, _⟩
  · exact ⟨Or.inl h, fun hinv => absurd (h.symm.trans hinv) (by decide)⟩
  · exact ⟨Or.inr (Or.inl h1), fun hinv => absurd (h1.symm.trans hinv) (by decide)⟩
  · exact ⟨Or.inr (Or.inr h1), fun _ => h2⟩

theorem C3_normalizeEntry_total_three_statuses_witness :
    (Normalizer.normalizeEntry "foo".data).error ≠ none :=
  (C3_normalizeEntry_total_three_statuses "foo".data).2 (by decide)

/-- **C2** (corrected).  A `corrected` result always carries a non-null
warning, and whenever the canonical string equals the trimmed input the
status is `valid`; the converse direction of the spec's biconditional is
refuted by `1.2.3.4`, which is `valid` although its canonical form
`1.2.3.4/32` differs from the trimmed input. -/
theorem C2_corrected_warning_and_changed (entry : Str) :
    ((Normalizer.normalizeEntry entry).status = Normalizer.NormalizationStatus.CORRECTED →
      (Normalizer.normalizeEntry entry).warning ≠ none) ∧
    ((Normalizer.normalizeEntry entry).normalized = some (jsTrim entry) →
      (Normalizer.normalizeEntry entry).status = Normalizer.NormalizationStatus.VALID) := by
  have h := normalizeEntry_ok entry
  unfold ResultOK at h
  rcases h with h | ⟨h1, h2, h3⟩ | ⟨h1, h2, h3⟩
  · exact ⟨fun hc => absurd (h.symm.trans hc) (by decide), fun _ => h⟩
  · exact ⟨fun _ => h2, fun hn => absurd rfl ((h3 _ hn).2)⟩
  · refine ⟨fun hc => absurd (h1.symm.trans hc) (by decide), fun hn => ?_⟩
    rw [h3] at hn
    exact Option.noConfusion hn

theorem C2_corrected_warning_and_changed_witness :
    (Normalizer.normalizeEntry "01.2.3.4".data).warning ≠ none ∧
    (Normalizer.normalizeEntry "1.2.3.4/8".data).status =
      Normalizer.NormalizationStatus.VALID :=
  ⟨(C2_corrected_warning_and_changed "01.2.3.4".data).1 (by decide),
   (C2_corrected_warning_and_changed "1.2.3.4/8".data).2 (by decide)⟩

theorem C2_valid_not_byte_identical_counterexample :
    (Normalizer.normalizeEntry "1.2.3.4".data).status =
        Normalizer.NormalizationStatus.VALID ∧
      ¬ (Normalizer.normalizeEntry "1.2.3.4".data).normalized =
          some (jsTrim "1.2.3.4".data) := by decide
